import Mathlib

/-!
AMBiT: distributed Hamiltonian matrix construction and observable reduction

A shallow embedding of `Configuration/MPIHamiltonianMatrix.cpp` and the properties of its
cyclic work partitioning, matrix accumulation and observable reduction.

Conventions of the embedding.

* `double` is the field `ℚ` (exact arithmetic); `unsigned int` is `Nat`; the signed counter
  `proc` is `Int`. Row offsets, indices and the worker count are taken to stay below the
  range of their machine types, so these do not wrap around; the histogram counters of
  `PollMatrix`, which count up to `N * N`, are kept modulo `2^32`.
* A `const double*` or `double*` array is a function `Nat → ℚ` from offsets to values.
* An iterator loop `while(it != end) { ...; it++; }` is a structural recursion over the
  remaining list; the counters the source advances next to the iterator are arguments of the
  recursion.
* Collaborators whose code is not part of the translated files (the projection operators, the
  matrix storage, the message-passing layer) are parameters or small models, each documented
  where it is introduced.
-/

namespace AMBiT

/-! ## Data model -/

/-- A relativistic configuration as seen by the matrix code: the projection set, the number of
J-coupled states, the table of J-coefficients (`GetJCoefficients()`, a `const double*` indexed
by `jstate * projections.size() + projection`), the non-relativistic parent
(`GetNonRelConfiguration()`) and the number of particles. -/
structure RelativisticConfig (Proj NR : Type) where
  GetProjections : List Proj
  NumJStates : Nat
  GetJCoefficients : Nat → ℚ
  GetNonRelConfiguration : NR
  NumParticles : Nat

/-- The operator evaluators the matrix code calls on projections. None of them is defined in
the translated files, so they are parameters: `GetProjectionH` and `GetProjectionSMS` return a
scalar; `GetProjectionDifferences p q diff` returns the signed number of differences and leaves
the indices of the differing electrons in the buffer `diff`, modelled as the pair of the
returned value and the buffer after the call; `electron p e` is `p[e]`; `GetSz` and
`GetSzPair` are the one- and two-argument overloads of `GetSz`. -/
structure Operators (Proj Elec : Type) where
  GetProjectionH : Proj → Proj → ℚ
  GetProjectionSMS : Proj → Proj → ℚ
  GetProjectionDifferences : Proj → Proj → Int × (Nat → Nat)
  electron : Proj → Nat → Elec
  GetSz : Elec → ℚ
  GetSzPair : Elec → Elec → ℚ

/-- Counted loop `for(k = lo; k < hi; k++) body(k)` acting on a state. -/
def forLoop {σ : Type} (body : Nat → σ → σ) (lo hi : Nat) (s : σ) : σ :=
  (List.range' lo (hi - lo)).foldl (fun st k => body k st) s

/-- Iterator loop `while(it != end) { body(*it, idx); it++; idx++; }` acting on a state, the
index counter starting at `idx`. -/
def forEachIdx {α σ : Type} (body : α → Nat → σ → σ) : List α → Nat → σ → σ
  | [], _, s => s
  | x :: xs, idx, s => forEachIdx body xs (idx + 1) (body x idx s)

/-! ## The cyclic work partitioning -/

/-- The ownership test `(proc == rank1) || (proc == rank2)` with `rank1 = int(ProcessorRank)`
and `rank2 = -1 - int(ProcessorRank)`. -/
def isOwner (ProcessorRank : Nat) (proc : Int) : Bool :=
  let rank1 : Int := (ProcessorRank : Int)
  let rank2 : Int := -1 - (ProcessorRank : Int)
  decide (proc = rank1) || decide (proc = rank2)

/-- The counter update at the end of the block loop:
`proc++; if(proc == int(NumProcessors)) proc = -proc;`. -/
def nextProc (NumProcessors : Nat) (proc : Int) : Int :=
  let proc1 := proc + 1
  if proc1 = (NumProcessors : Int) then -proc1 else proc1

/-- The block loop of `GenerateMatrix` reduced to its control flow: the list positions of the
blocks for which the ownership test succeeds. `proc` is the counter, `b` the position of
`list_it` in the configuration list. -/
def ownedLoop {Proj NR : Type} (NumProcessors ProcessorRank : Nat) :
    List (RelativisticConfig Proj NR) → Int → Nat → List Nat
  | [], _, _ => []
  | _ :: rest, proc, b =>
      (if isOwner ProcessorRank proc then [b] else []) ++
        ownedLoop NumProcessors ProcessorRank rest (nextProc NumProcessors proc) (b + 1)

/-- Positions of the blocks a worker treats as row owner; `proc` starts at
`- int(NumProcessors)`. -/
def ownedBlocks {Proj NR : Type} (NumProcessors ProcessorRank : Nat)
    (configs : List (RelativisticConfig Proj NR)) : List Nat :=
  ownedLoop NumProcessors ProcessorRank configs (-(NumProcessors : Int)) 0

/-- One pass of the body of the inner block loop: the two blocks, their list positions and the
row offsets `i` and `j` the source holds at that moment. -/
structure BlockVisit (Proj NR : Type) where
  bi : Nat
  bj : Nat
  ci : RelativisticConfig Proj NR
  cj : RelativisticConfig Proj NR
  i : Nat
  j : Nat

/-- The inner loop `while(list_jt != configs->end()) { ...; list_jt++; j += num_states_j; }`
reduced to its control flow; `rest` is the list from `list_jt` on. -/
def innerVisits {Proj NR : Type} (bi : Nat) (ci : RelativisticConfig Proj NR) (i : Nat) :
    List (RelativisticConfig Proj NR) → Nat → Nat → List (BlockVisit Proj NR)
  | [], _, _ => []
  | cj :: rest, bj, j =>
      { bi := bi, bj := bj, ci := ci, cj := cj, i := i, j := j } ::
        innerVisits bi ci i rest (bj + 1) (j + cj.NumJStates)

/-- The two nested block loops of `GenerateMatrix` reduced to their control flow: the block
pairs whose body is executed, in execution order. -/
def visitLoop {Proj NR : Type} (NumProcessors ProcessorRank : Nat) :
    List (RelativisticConfig Proj NR) → Int → Nat → Nat → List (BlockVisit Proj NR)
  | [], _, _, _ => []
  | c :: rest, proc, b, i =>
      (if isOwner ProcessorRank proc then innerVisits b c i (c :: rest) b i else []) ++
        visitLoop NumProcessors ProcessorRank rest (nextProc NumProcessors proc) (b + 1)
          (i + c.NumJStates)

/-- Block pairs a worker processes, with `proc = - int(NumProcessors)` and `i = 0` at the
start. -/
def blockVisits {Proj NR : Type} (NumProcessors ProcessorRank : Nat)
    (configs : List (RelativisticConfig Proj NR)) : List (BlockVisit Proj NR) :=
  visitLoop NumProcessors ProcessorRank configs (-(NumProcessors : Int)) 0 0

/-- Positions `(bi, bj)` of the block pairs a worker processes, in execution order. -/
def processedPairs {Proj NR : Type} (NumProcessors ProcessorRank : Nat)
    (configs : List (RelativisticConfig Proj NR)) : List (Nat × Nat) :=
  (blockVisits NumProcessors ProcessorRank configs).map (fun v => (v.bi, v.bj))

/-- Closed form of the counter: the value of `proc` when the block at list position `b` is
examined by a pool of `NumProcessors` workers. -/
def procAt (NumProcessors b : Nat) : Int :=
  ((b % (2 * NumProcessors) : Nat) : Int) - (NumProcessors : Int)

/-- Global row offset of the block at list position `b`: the sum of `NumJStates()` over the
blocks before it. -/
def rowOffset {Proj NR : Type} (configs : List (RelativisticConfig Proj NR)) (b : Nat) : Nat :=
  ((configs.take b).map (fun c => c.NumJStates)).sum

/-! ## GenerateMatrix -/

/-- The distributed matrix `MPIMatrix` is not part of the translated files; it is modelled by
the table of its cells. -/
abbrev MPIMatrix := Nat → Nat → ℚ

/-- The cleared matrix (`M->Clear()`, or a freshly constructed one). -/
def MPIMatrix.Clear : MPIMatrix := fun _ _ => 0

/-- The update `M->At(r, c) += x`. -/
def MPIMatrix.addAt (M : MPIMatrix) (r c : Nat) (x : ℚ) : MPIMatrix :=
  fun r1 c1 => if r1 = r ∧ c1 = c then M r1 c1 + x else M r1 c1

/-- Body of the projection loops of `GenerateMatrix` for one projection pair
(`*proj_it`, `*proj_jt`) with indices `pi`, `pj`: the threshold test on `operatorH` and the two
J-state loops. -/
def generateProjectionPair {Proj NR Elec : Type} (ops : Operators Proj Elec)
    (ci cj : RelativisticConfig Proj NR) (i j : Nat) (p : Proj) (pi : Nat) (q : Proj) (pj : Nat)
    (M : MPIMatrix) : MPIMatrix :=
  let proj_i_size := ci.GetProjections.length
  let num_states_i := ci.NumJStates
  let proj_j_size := cj.GetProjections.length
  let num_states_j := cj.NumJStates
  let operatorH := ops.GetProjectionH p q
  if |operatorH| > 1 / 10 ^ 16 then
    forLoop (fun jstate_i M1 =>
      let jstate_j_start := if j = i then jstate_i else 0
      forLoop (fun jstate_j M2 =>
        let matrix_element := ci.GetJCoefficients (jstate_i * proj_i_size + pi)
                                * cj.GetJCoefficients (jstate_j * proj_j_size + pj)
        let matrix_element := matrix_element * operatorH
        M2.addAt (i + jstate_i) (j + jstate_j) matrix_element)
        jstate_j_start num_states_j M1)
      0 num_states_i M
  else M

/-- The two projection loops of `GenerateMatrix` for one block pair. -/
def generateBlockPair {Proj NR Elec : Type} (ops : Operators Proj Elec)
    (ci cj : RelativisticConfig Proj NR) (i j : Nat) (M : MPIMatrix) : MPIMatrix :=
  forEachIdx (fun p pi M1 =>
    forEachIdx (fun q pj M2 => generateProjectionPair ops ci cj i j p pi q pj M2)
      cj.GetProjections 0 M1)
    ci.GetProjections 0 M

/-- The inner block loop of `GenerateMatrix`: `list_jt` runs from `list_it` to the end and `j`
is advanced by `num_states_j`. -/
def generateInner {Proj NR Elec : Type} (ops : Operators Proj Elec)
    (ci : RelativisticConfig Proj NR) (i : Nat) :
    List (RelativisticConfig Proj NR) → Nat → MPIMatrix → MPIMatrix
  | [], _, M => M
  | cj :: rest, j, M =>
      generateInner ops ci i rest (j + cj.NumJStates) (generateBlockPair ops ci cj i j M)

/-- The outer block loop of `GenerateMatrix`. -/
def generateLoop {Proj NR Elec : Type} (ops : Operators Proj Elec)
    (NumProcessors ProcessorRank : Nat) :
    List (RelativisticConfig Proj NR) → Int → Nat → MPIMatrix → MPIMatrix
  | [], _, _, M => M
  | c :: rest, proc, i, M =>
      generateLoop ops NumProcessors ProcessorRank rest (nextProc NumProcessors proc)
        (i + c.NumJStates)
        (if isOwner ProcessorRank proc then generateInner ops c i (c :: rest) i M else M)

/-- `MPIHamiltonianMatrix::GenerateMatrix` as run by the worker `ProcessorRank` of
`NumProcessors`: the matrix is cleared (or freshly allocated) and the block loops are run with
`proc = - int(NumProcessors)` and `i = 0`. -/
def GenerateMatrix {Proj NR Elec : Type} (ops : Operators Proj Elec)
    (NumProcessors ProcessorRank : Nat) (configs : List (RelativisticConfig Proj NR)) :
    MPIMatrix :=
  generateLoop ops NumProcessors ProcessorRank configs (-(NumProcessors : Int)) 0
    MPIMatrix.Clear

/-- A recorded block pair agrees with the configuration list: the positions are ordered, the
two blocks are the list entries at these positions and the offsets are their row offsets. -/
def BlockVisit.OK {Proj NR : Type} (configs : List (RelativisticConfig Proj NR))
    (v : BlockVisit Proj NR) : Prop :=
  v.bi ≤ v.bj ∧ configs[v.bi]? = some v.ci ∧ configs[v.bj]? = some v.cj ∧
    v.i = rowOffset configs v.bi ∧ v.j = rowOffset configs v.bj

/-- Amount the body for one projection pair adds to the cell `(x, y)`. -/
def projectionPairCell {Proj NR Elec : Type} (ops : Operators Proj Elec)
    (ci cj : RelativisticConfig Proj NR) (i j : Nat) (p : Proj) (pi : Nat) (q : Proj) (pj : Nat)
    (x y : Nat) : ℚ :=
  if |ops.GetProjectionH p q| > 1 / 10 ^ 16 then
    ∑ a ∈ Finset.Ico 0 ci.NumJStates,
      ∑ b ∈ Finset.Ico (if j = i then a else 0) cj.NumJStates,
        if x = i + a ∧ y = j + b then
          ci.GetJCoefficients (a * ci.GetProjections.length + pi)
            * cj.GetJCoefficients (b * cj.GetProjections.length + pj)
            * ops.GetProjectionH p q
        else 0
  else 0

/-- Amount the projection loops of one block pair add to the cell `(x, y)`. -/
def blockPairCell {Proj NR Elec : Type} (ops : Operators Proj Elec)
    (ci cj : RelativisticConfig Proj NR) (i j : Nat) (x y : Nat) : ℚ :=
  ∑ p : Fin ci.GetProjections.length, ∑ q : Fin cj.GetProjections.length,
    projectionPairCell ops ci cj i j (ci.GetProjections.get p) p.val
      (cj.GetProjections.get q) q.val x y

/-! ## GetEigenvalues and GetgFactors -/

/-- The two arrays the reduction loops work on: the per-worker partial totals (`my_total` in
`GetEigenvalues`, `total` in `GetgFactors`) and the scratch array `coeff`. -/
structure Totals where
  total : Nat → ℚ
  coeff : Nat → ℚ

/-- The first half of the accumulation for one projection pair: `coeff` is zeroed and the
J-state loops add `coefficients_i * coefficients_j * V * V` for every solution. -/
def accumulateCoeff {Proj NR : Type} (NumSolutions N : Nat) (V : Nat → ℚ)
    (ci cj : RelativisticConfig Proj NR) (i j pi pj : Nat) (coeff : Nat → ℚ) : Nat → ℚ :=
  let proj_i_size := ci.GetProjections.length
  let num_states_i := ci.NumJStates
  let proj_j_size := cj.GetProjections.length
  let num_states_j := cj.NumJStates
  let coeff0 := forLoop (fun solution c => Function.update c solution 0) 0 NumSolutions coeff
  forLoop (fun jstate_i c1 =>
    forLoop (fun jstate_j c2 =>
      forLoop (fun solution c3 =>
        Function.update c3 solution
          (c3 solution + ci.GetJCoefficients (jstate_i * proj_i_size + pi)
                          * cj.GetJCoefficients (jstate_j * proj_j_size + pj)
                          * V (solution * N + i + jstate_i)
                          * V (solution * N + j + jstate_j)))
        0 NumSolutions c2)
      0 num_states_j c1)
    0 num_states_i coeff0

/-- The block `if(matrix_element) { ... }`, whose text is the same in `GetEigenvalues` and in
`GetgFactors`: the coefficient sums, the doubling `if(i != j)` and the addition of
`coeff[solution] * matrix_element` to the total of every solution. -/
def accumulatePair {Proj NR : Type} (NumSolutions N : Nat) (V : Nat → ℚ)
    (ci cj : RelativisticConfig Proj NR) (i j pi pj : Nat) (matrix_element : ℚ)
    (st : Totals) : Totals :=
  if matrix_element ≠ 0 then
    let coeff1 := accumulateCoeff NumSolutions N V ci cj i j pi pj st.coeff
    let coeff2 :=
      if i ≠ j then
        forLoop (fun solution c => Function.update c solution (c solution * 2)) 0 NumSolutions
          coeff1
      else coeff1
    let total :=
      forLoop (fun solution t =>
          Function.update t solution (t solution + coeff2 solution * matrix_element))
        0 NumSolutions st.total
    { total := total, coeff := coeff2 }
  else st

/-- Body of the projection loops of `GetEigenvalues` for one projection pair. -/
def eigenProjectionPair {Proj NR Elec : Type} (ops : Operators Proj Elec)
    (NumSolutions N : Nat) (V : Nat → ℚ) (ci cj : RelativisticConfig Proj NR) (i j : Nat)
    (p : Proj) (pi : Nat) (q : Proj) (pj : Nat) (st : Totals) : Totals :=
  let matrix_element := ops.GetProjectionSMS p q
  accumulatePair NumSolutions N V ci cj i j pi pj matrix_element st

/-- The two projection loops of `GetEigenvalues` for one block pair. -/
def eigenBlockPair {Proj NR Elec : Type} (ops : Operators Proj Elec)
    (NumSolutions N : Nat) (V : Nat → ℚ) (ci cj : RelativisticConfig Proj NR) (i j : Nat)
    (st : Totals) : Totals :=
  forEachIdx (fun p pi st1 =>
    forEachIdx (fun q pj st2 => eigenProjectionPair ops NumSolutions N V ci cj i j p pi q pj st2)
      cj.GetProjections 0 st1)
    ci.GetProjections 0 st

/-- The inner block loop of `GetEigenvalues`. -/
def eigenInner {Proj NR Elec : Type} (ops : Operators Proj Elec)
    (NumSolutions N : Nat) (V : Nat → ℚ) (ci : RelativisticConfig Proj NR) (i : Nat) :
    List (RelativisticConfig Proj NR) → Nat → Totals → Totals
  | [], _, st => st
  | cj :: rest, j, st =>
      eigenInner ops NumSolutions N V ci i rest (j + cj.NumJStates)
        (eigenBlockPair ops NumSolutions N V ci cj i j st)

/-- The outer block loop of `GetEigenvalues`. -/
def eigenLoop {Proj NR Elec : Type} (ops : Operators Proj Elec)
    (NumProcessors ProcessorRank NumSolutions N : Nat) (V : Nat → ℚ) :
    List (RelativisticConfig Proj NR) → Int → Nat → Totals → Totals
  | [], _, _, st => st
  | c :: rest, proc, i, st =>
      eigenLoop ops NumProcessors ProcessorRank NumSolutions N V rest
        (nextProc NumProcessors proc) (i + c.NumJStates)
        (if isOwner ProcessorRank proc then
          eigenInner ops NumSolutions N V c i (c :: rest) i st
        else st)

/-- The array `my_total` of `GetEigenvalues` at the worker `ProcessorRank` when the block loops
are finished. `uninit` is the content of a freshly allocated `new double[NumSolutions]`. -/
def GetEigenvalues.my_total {Proj NR Elec : Type} (ops : Operators Proj Elec)
    (NumProcessors ProcessorRank NumSolutions N : Nat) (V : Nat → ℚ)
    (configs : List (RelativisticConfig Proj NR)) (uninit : Nat → ℚ) : Nat → ℚ :=
  let my_total := forLoop (fun solution t => Function.update t solution 0) 0 NumSolutions uninit
  (eigenLoop ops NumProcessors ProcessorRank NumSolutions N V configs
    (-(NumProcessors : Int)) 0 { total := my_total, coeff := uninit }).total

/-- The element `<pi| Jz |pj>` computed at the head of the projection loop body of
`GetgFactors`. -/
def gMatrixElement {Proj Elec : Type} (ops : Operators Proj Elec) (num_electrons : Nat)
    (p q : Proj) : ℚ :=
  let matrix_element : ℚ := 0
  let num_diff := (ops.GetProjectionDifferences p q).1
  let diff := (ops.GetProjectionDifferences p q).2
  if num_diff = 0 then
    forLoop (fun e m => m + ops.GetSz (ops.electron p e)) 0 num_electrons matrix_element
  else if |num_diff| = 1 then
    let m := ops.GetSzPair (ops.electron p (diff 0)) (ops.electron q (diff 1))
    if num_diff = -1 then -m else m
  else matrix_element

/-- Body of the projection loops of `GetgFactors` for one projection pair. -/
def gProjectionPair {Proj NR Elec : Type} (ops : Operators Proj Elec)
    (num_electrons NumSolutions N : Nat) (V : Nat → ℚ) (ci cj : RelativisticConfig Proj NR)
    (i j : Nat) (p : Proj) (pi : Nat) (q : Proj) (pj : Nat) (st : Totals) : Totals :=
  let matrix_element := gMatrixElement ops num_electrons p q
  accumulatePair NumSolutions N V ci cj i j pi pj matrix_element st

/-- The two projection loops of `GetgFactors` for one block pair. -/
def gBlockPair {Proj NR Elec : Type} (ops : Operators Proj Elec)
    (num_electrons NumSolutions N : Nat) (V : Nat → ℚ) (ci cj : RelativisticConfig Proj NR)
    (i j : Nat) (st : Totals) : Totals :=
  forEachIdx (fun p pi st1 =>
    forEachIdx (fun q pj st2 =>
        gProjectionPair ops num_electrons NumSolutions N V ci cj i j p pi q pj st2)
      cj.GetProjections 0 st1)
    ci.GetProjections 0 st

/-- The inner block loop of `GetgFactors`. -/
def gInner {Proj NR Elec : Type} (ops : Operators Proj Elec)
    (num_electrons NumSolutions N : Nat) (V : Nat → ℚ) (ci : RelativisticConfig Proj NR)
    (i : Nat) : List (RelativisticConfig Proj NR) → Nat → Totals → Totals
  | [], _, st => st
  | cj :: rest, j, st =>
      gInner ops num_electrons NumSolutions N V ci i rest (j + cj.NumJStates)
        (gBlockPair ops num_electrons NumSolutions N V ci cj i j st)

/-- The outer block loop of `GetgFactors`. -/
def gLoop {Proj NR Elec : Type} (ops : Operators Proj Elec)
    (NumProcessors ProcessorRank num_electrons NumSolutions N : Nat) (V : Nat → ℚ) :
    List (RelativisticConfig Proj NR) → Int → Nat → Totals → Totals
  | [], _, _, st => st
  | c :: rest, proc, i, st =>
      gLoop ops NumProcessors ProcessorRank num_electrons NumSolutions N V rest
        (nextProc NumProcessors proc) (i + c.NumJStates)
        (if isOwner ProcessorRank proc then
          gInner ops num_electrons NumSolutions N V c i (c :: rest) i st
        else st)

/-- The value `configs->front().NumParticles()`. The source calls `front()` on the list without
a check; on an empty list, where no loop body ever reads the value, the model yields 0. -/
def frontNumParticles {Proj NR : Type} : List (RelativisticConfig Proj NR) → Nat
  | [] => 0
  | c :: _ => c.NumParticles

/-- The array `total` of `GetgFactors` at the worker `ProcessorRank` when the block loops are
finished (the path `two_j != 0`). -/
def GetgFactors.total {Proj NR Elec : Type} (ops : Operators Proj Elec)
    (NumProcessors ProcessorRank NumSolutions N : Nat) (V : Nat → ℚ)
    (configs : List (RelativisticConfig Proj NR)) (uninit : Nat → ℚ) : Nat → ℚ :=
  let total := forLoop (fun solution t => Function.update t solution 0) 0 NumSolutions uninit
  let num_electrons := frontNumParticles configs
  (gLoop ops NumProcessors ProcessorRank num_electrons NumSolutions N V configs
    (-(NumProcessors : Int)) 0 { total := total, coeff := uninit }).total

/-- The collective `Reduce(send, recv, count, MPI::DOUBLE, MPI::SUM, root)` of the
message-passing layer, in exact arithmetic: buffers are indexed by rank; at the root the first
`count` entries of the receive buffer become the sums over all ranks of the send buffers, and
nothing else changes. -/
def Reduce (NumProcessors : Nat) (send recv : Nat → Nat → ℚ) (count root : Nat) :
    Nat → Nat → ℚ :=
  fun rank s =>
    if rank = root ∧ s < count then ∑ r ∈ Finset.range NumProcessors, send r s
    else recv rank s

/-- The collective `Bcast(buffer, count, MPI::DOUBLE, root)`: every rank receives the first
`count` entries of the buffer of the root. -/
def Bcast (buffer : Nat → Nat → ℚ) (count root : Nat) : Nat → Nat → ℚ :=
  fun rank s => if s < count then buffer root s else buffer rank s

/-- `MPIHamiltonianMatrix::GetgFactors(two_j, g_factors)` run by all `NumProcessors` workers.
The argument `g_factors` and the result give, for every rank, the content of the caller's
array before and after the call. -/
def GetgFactors {Proj NR Elec : Type} (ops : Operators Proj Elec)
    (NumProcessors NumSolutions N : Nat) (V : Nat → ℚ)
    (configs : List (RelativisticConfig Proj NR)) (uninit : Nat → ℚ)
    (two_j : Nat) (g_factors : Nat → Nat → ℚ) : Nat → Nat → ℚ :=
  let g0 : Nat → Nat → ℚ := fun rank =>
    forLoop (fun solution g => Function.update g solution 0) 0 NumSolutions (g_factors rank)
  if two_j = 0 then g0
  else
    let total : Nat → Nat → ℚ := fun rank =>
      GetgFactors.total ops NumProcessors rank NumSolutions N V configs uninit
    let g1 := Reduce NumProcessors total g0 NumSolutions 0
    let g2 := Bcast g1 NumSolutions 0
    let J : ℚ := (two_j : ℚ) / 2
    fun rank =>
      forLoop (fun solution g => Function.update g solution (g solution / J + 1)) 0
        NumSolutions (g2 rank)

/-- The sum the J-state loops leave in `coeff[s]` for one projection pair. -/
def coeffSum {Proj NR : Type} (N : Nat) (V : Nat → ℚ) (ci cj : RelativisticConfig Proj NR)
    (i j pi pj s : Nat) : ℚ :=
  ∑ a ∈ Finset.range ci.NumJStates, ∑ b ∈ Finset.range cj.NumJStates,
    ci.GetJCoefficients (a * ci.GetProjections.length + pi)
      * cj.GetJCoefficients (b * cj.GetProjections.length + pj)
      * V (s * N + i + a) * V (s * N + j + b)

/-- Amount one projection pair with element `matrix_element` adds to the total of the
solution `s`. -/
def pairAmount {Proj NR : Type} (NumSolutions N : Nat) (V : Nat → ℚ)
    (ci cj : RelativisticConfig Proj NR) (i j pi pj : Nat) (matrix_element : ℚ) (s : Nat) : ℚ :=
  if s < NumSolutions then
    (if i ≠ j then 2 else 1) * matrix_element * coeffSum N V ci cj i j pi pj s
  else 0

/-- Amount the projection loops of one block pair add to the total of the solution `s`, for
the projection element `me`. -/
def blockAmount {Proj NR : Type} (me : Proj → Proj → ℚ) (NumSolutions N : Nat) (V : Nat → ℚ)
    (ci cj : RelativisticConfig Proj NR) (i j s : Nat) : ℚ :=
  ∑ p : Fin ci.GetProjections.length, ∑ q : Fin cj.GetProjections.length,
    pairAmount NumSolutions N V ci cj i j p.val q.val
      (me (ci.GetProjections.get p) (cj.GetProjections.get q)) s

/-- Amount one projection pair contributes before the doubling step: the coefficient sum the
J-state loops leave in `coeff[s]`, times the element; nothing when the element is 0. -/
def undoubledPair {Proj NR : Type} (NumSolutions N : Nat) (V : Nat → ℚ)
    (ci cj : RelativisticConfig Proj NR) (i j pi pj : Nat) (matrix_element : ℚ)
    (coeff : Nat → ℚ) (s : Nat) : ℚ :=
  if matrix_element ≠ 0 then
    accumulateCoeff NumSolutions N V ci cj i j pi pj coeff s * matrix_element
  else 0

/-- Undoubled contribution of a block pair to the total of the solution `s`: the sum of
`undoubledPair` over all projection pairs, for the projection element `me`. -/
def undoubledBlock {Proj NR : Type} (me : Proj → Proj → ℚ) (NumSolutions N : Nat)
    (V : Nat → ℚ) (ci cj : RelativisticConfig Proj NR) (i j : Nat) (coeff : Nat → ℚ)
    (s : Nat) : ℚ :=
  ∑ p : Fin ci.GetProjections.length, ∑ q : Fin cj.GetProjections.length,
    undoubledPair NumSolutions N V ci cj i j p.val q.val
      (me (ci.GetProjections.get p) (cj.GetProjections.get q)) coeff s

/-- The symmetric accumulation as the specification words it: the sum of the undoubled
contributions over all ordered pairs of blocks, the pair `(j, i)` being computed with the
roles of the two blocks exchanged. -/
def orderedPairsTotal {Proj NR : Type} (me : Proj → Proj → ℚ) (NumSolutions N : Nat)
    (V : Nat → ℚ) (configs : List (RelativisticConfig Proj NR)) (coeff : Nat → ℚ)
    (s : Nat) : ℚ :=
  ∑ bi : Fin configs.length, ∑ bj : Fin configs.length,
    undoubledBlock me NumSolutions N V (configs.get bi) (configs.get bj)
      (rowOffset configs bi.val) (rowOffset configs bj.val) coeff s

/-! ## SolveMatrix -/

/-- Modelled from the spec: the helper `mmin` comes from `Include.h`, which is not among the
translated files; the spec words the clamp as `min(requested, N)`. -/
def mmin (i j : Nat) : Nat := if i < j then i else j

/-- The map `std::map<Configuration, double> percentages`, modelled by the list of its
entries; the operations below keep the keys distinct. -/
abbrev PercentageMap (NR : Type) := List (NR × ℚ)

/-- Lookup `percentages.find(k)`: `none` stands for `percentages.end()`. -/
def mapFind {NR : Type} [DecidableEq NR] : PercentageMap NR → NR → Option ℚ
  | [], _ => none
  | (k1, v1) :: m, k => if k1 = k then some v1 else mapFind m k

/-- The assignment `percentages[k] = v`. -/
def mapAssign {NR : Type} [DecidableEq NR] : PercentageMap NR → NR → ℚ → PercentageMap NR
  | [], k, v => [(k, v)]
  | (k1, v1) :: m, k, v => if k1 = k then (k1, v) :: m else (k1, v1) :: mapAssign m k v

/-- The update `percentages[k] += x`; `operator[]` inserts the value 0 for a key that is not
yet present. -/
def mapAdd {NR : Type} [DecidableEq NR] : PercentageMap NR → NR → ℚ → PercentageMap NR
  | [], k, x => [(k, 0 + x)]
  | (k1, v1) :: m, k, x => if k1 = k then (k1, v1 + x) :: m else (k1, v1) :: mapAdd m k x

/-- The loop over `Jstate` in the percentage computation of `SolveMatrix`; the state is the
map together with the row counter `j`. -/
def percentagesJStates {NR : Type} [DecidableEq NR] (V : Nat → ℚ) (N solution : Nat)
    (nrconfig : NR) (NumJStates : Nat) (st : PercentageMap NR × Nat) : PercentageMap NR × Nat :=
  forLoop (fun _ st1 =>
      let coeff := V (solution * N + st1.2)
      let coeff := coeff * coeff * 100
      (mapAdd st1.1 nrconfig coeff, st1.2 + 1))
    0 NumJStates st

/-- The loop over the relativistic configurations in the percentage computation of
`SolveMatrix`. -/
def percentagesLoop {Proj NR : Type} [DecidableEq NR] (V : Nat → ℚ) (N solution : Nat) :
    List (RelativisticConfig Proj NR) → PercentageMap NR × Nat → PercentageMap NR × Nat
  | [], st => st
  | c :: rest, st =>
      let nrconfig := c.GetNonRelConfiguration
      let m1 := if mapFind st.1 nrconfig = none then mapAssign st.1 nrconfig 0 else st.1
      percentagesLoop V N solution rest
        (percentagesJStates V N solution nrconfig c.NumJStates (m1, st.2))

/-- The map `percentages` that `SolveMatrix` builds for the solution `solution`, starting from
the empty map and `j = 0`. -/
def SolveMatrix.percentages {Proj NR : Type} [DecidableEq NR] (V : Nat → ℚ) (N : Nat)
    (configs : List (RelativisticConfig Proj NR)) (solution : Nat) : PercentageMap NR :=
  (percentagesLoop V N solution configs ([], 0)).1

/-- What `SolveMatrix` leaves behind: the members `NumSolutions`, `E`, `V`, the g-factors of
every rank when they were asked for, and the percentage map of every solution (computed at
rank 0). -/
structure SolveMatrixResult (NR : Type) where
  NumSolutions : Nat
  E : Nat → ℚ
  V : Nat → ℚ
  g_factors : Option (Nat → Nat → ℚ)
  percentages : Nat → PercentageMap NR

/-- `MPIHamiltonianMatrix::SolveMatrix(num_solutions, two_j, gFactors)`. The eigensolver
`MPISolveLargeSymmetric(M, E, V, N, NumSolutions)` is not among the translated files and is a
parameter that returns the arrays `E` and `V` it fills. Output to the streams and the call to
the configuration-file generator are left out. -/
def SolveMatrix {Proj NR Elec : Type} [DecidableEq NR] (ops : Operators Proj Elec)
    (MPISolveLargeSymmetric : MPIMatrix → Nat → Nat → (Nat → ℚ) × (Nat → ℚ))
    (M : MPIMatrix) (NumProcessors N : Nat) (configs : List (RelativisticConfig Proj NR))
    (uninit : Nat → ℚ) (num_solutions two_j : Nat) (gFactors : Bool) :
    SolveMatrixResult NR :=
  let NumSolutions := mmin num_solutions N
  let EV := MPISolveLargeSymmetric M N NumSolutions
  let E := EV.1
  let V := EV.2
  let g_factors :=
    if gFactors then
      some (GetgFactors ops NumProcessors NumSolutions N V configs uninit two_j
        (fun _ => uninit))
    else none
  { NumSolutions := NumSolutions
    E := E
    V := V
    g_factors := g_factors
    percentages := fun solution => SolveMatrix.percentages V N configs solution }

/-- Sum of the values stored in a percentage map. -/
def mapTotal {NR : Type} (m : PercentageMap NR) : ℚ := (m.map Prod.snd).sum

/-- Value a percentage map holds for the key `k`, 0 for a key that is not present. -/
def mapValue {NR : Type} [DecidableEq NR] (m : PercentageMap NR) (k : NR) : ℚ :=
  (mapFind m k).getD 0

/-- The term `coeff * coeff * 100` that the row `x` of the solution `solution` adds to a
percentage. -/
def rowPercent (V : Nat → ℚ) (N solution x : Nat) : ℚ :=
  V (solution * N + x) * V (solution * N + x) * 100

/-! ## Sample data -/

/-- A sample configuration with two projections, two J-coupled states and the coefficient
table `k ↦ k + 1`. -/
def sampleConfig : RelativisticConfig Nat Nat :=
  { GetProjections := [0, 1]
    NumJStates := 2
    GetJCoefficients := fun k => (k : ℚ) + 1
    GetNonRelConfiguration := 7
    NumParticles := 1 }

/-- A sample list of three blocks. -/
def sampleConfigs : List (RelativisticConfig Nat Nat) :=
  [sampleConfig, sampleConfig, sampleConfig]

/-- Sample operators on projections numbered by `Nat`: the Hamiltonian and SMS elements are 1
on equal projections and 0 otherwise, equal projections differ in no electron and different
ones in two, and every electron has `Sz = 1/2`. -/
def sampleOps : Operators Nat Nat :=
  { GetProjectionH := fun p q => if p = q then 1 else 0
    GetProjectionSMS := fun p q => if p = q then 1 else 0
    GetProjectionDifferences := fun p q => (if p = q then 0 else 2, fun _ => 0)
    electron := fun p _ => p
    GetSz := fun _ => 1 / 2
    GetSzPair := fun _ _ => 1 / 2 }

/-! ## The partitioning as a function of the block index -/

/-- One pass of the block loop of `GenerateMatrix` as the ownership test sees it: the value of
`proc` and the outcomes of the two comparisons `proc == rank1` and `proc == rank2`. -/
structure OwnerTest where
  proc : Int
  primary : Bool
  secondary : Bool
  deriving DecidableEq

/-- The block loop of `GenerateMatrix` reduced to the counter: for every block, in list order,
the value of `proc` at the ownership test and the outcomes of the two comparisons. -/
def testLoop {Proj NR : Type} (NumProcessors ProcessorRank : Nat) :
    List (RelativisticConfig Proj NR) → Int → List OwnerTest
  | [], _ => []
  | _ :: rest, proc =>
      { proc := proc
        primary := decide (proc = (ProcessorRank : Int))
        secondary := decide (proc = -1 - (ProcessorRank : Int)) } ::
        testLoop NumProcessors ProcessorRank rest (nextProc NumProcessors proc)

/-- The ownership tests of a worker over the whole list, `proc` starting at
`- int(NumProcessors)`. -/
def ownerTests {Proj NR : Type} (NumProcessors ProcessorRank : Nat)
    (configs : List (RelativisticConfig Proj NR)) : List OwnerTest :=
  testLoop NumProcessors ProcessorRank configs (-(NumProcessors : Int))

/-- The three answers of the stateless ownership function of the specification. -/
inductive OwnerRole where
  | none
  | row_owner_primary
  | row_owner_secondary
  deriving DecidableEq

/-- The stateless function `owner_role(workerRank, blockIndex, totalWorkers)` as the
specification words it: `row_owner_primary` when `(b mod 2W) - W = r`, `row_owner_secondary`
when `(b mod 2W) - W = -1 - r`, and `none` otherwise. -/
def owner_role (workerRank blockIndex totalWorkers : Nat) : OwnerRole :=
  if ((blockIndex % (2 * totalWorkers) : Nat) : Int) - (totalWorkers : Int)
      = (workerRank : Int) then
    OwnerRole.row_owner_primary
  else if ((blockIndex % (2 * totalWorkers) : Nat) : Int) - (totalWorkers : Int)
      = -1 - (workerRank : Int) then
    OwnerRole.row_owner_secondary
  else OwnerRole.none

/-! ## The writes of GenerateMatrix -/

/-- One execution of `M->At(row, col) += value`. -/
structure CellWrite where
  row : Nat
  col : Nat
  value : ℚ

/-- The body of the projection loops of `GenerateMatrix` for one projection pair, with the
matrix replaced by the log of the updates `M->At(...) += ...` it executes, in execution
order. -/
def generateProjectionPairLog {Proj NR Elec : Type} (ops : Operators Proj Elec)
    (ci cj : RelativisticConfig Proj NR) (i j : Nat) (p : Proj) (pi : Nat) (q : Proj) (pj : Nat)
    (log : List CellWrite) : List CellWrite :=
  let proj_i_size := ci.GetProjections.length
  let num_states_i := ci.NumJStates
  let proj_j_size := cj.GetProjections.length
  let num_states_j := cj.NumJStates
  let operatorH := ops.GetProjectionH p q
  if |operatorH| > 1 / 10 ^ 16 then
    forLoop (fun jstate_i log1 =>
      let jstate_j_start := if j = i then jstate_i else 0
      forLoop (fun jstate_j log2 =>
        let matrix_element := ci.GetJCoefficients (jstate_i * proj_i_size + pi)
                                * cj.GetJCoefficients (jstate_j * proj_j_size + pj)
        let matrix_element := matrix_element * operatorH
        log2 ++ [{ row := i + jstate_i, col := j + jstate_j, value := matrix_element }])
        jstate_j_start num_states_j log1)
      0 num_states_i log
  else log

/-- The two projection loops of `GenerateMatrix` for one block pair, logging the updates. -/
def generateBlockPairLog {Proj NR Elec : Type} (ops : Operators Proj Elec)
    (ci cj : RelativisticConfig Proj NR) (i j : Nat) (log : List CellWrite) : List CellWrite :=
  forEachIdx (fun p pi log1 =>
    forEachIdx (fun q pj log2 => generateProjectionPairLog ops ci cj i j p pi q pj log2)
      cj.GetProjections 0 log1)
    ci.GetProjections 0 log

/-- The updates `M->At(...) += ...` that `GenerateMatrix` executes at a worker, in execution
order: the logged projection loops are run on the block pairs the block loops process. -/
def GenerateMatrixLog {Proj NR Elec : Type} (ops : Operators Proj Elec)
    (NumProcessors ProcessorRank : Nat) (configs : List (RelativisticConfig Proj NR)) :
    List CellWrite :=
  (blockVisits NumProcessors ProcessorRank configs).foldl
    (fun log v => generateBlockPairLog ops v.ci v.cj v.i v.j log) []

/-- Replaying a log of updates on a matrix. -/
def replay (M : MPIMatrix) (log : List CellWrite) : MPIMatrix :=
  log.foldl (fun M1 w => M1.addAt w.row w.col w.value) M

/-! ## CIIntegralsMBPT: the inclusion switches -/

/-- The members of `CIIntegralsMBPT` that the inclusion setters read or write. `PT` is the
pointer to the MBPT calculator (`none` for `NULL`, a calculator being named by a number);
`IsOpenShellCore` is the answer of `states.GetCore()->IsOpenShellCore()`, fixed by the excited
states the object is constructed with; the three limits `box_max_pqn_*` are not initialised by
the constructor (`none`). -/
structure CIIntegralsMBPT where
  IsOpenShellCore : Bool
  PT : Option Nat
  include_sigma1 : Bool
  include_mbpt1 : Bool
  include_mbpt1_subtraction : Bool
  include_mbpt2 : Bool
  include_mbpt2_subtraction : Bool
  include_extra_box : Bool
  box_max_pqn_1 : Option Nat
  box_max_pqn_2 : Option Nat
  box_max_pqn_3 : Option Nat
  deriving DecidableEq

/-- The constructor `CIIntegralsMBPT(excited_states, storage_id)`: `PT(NULL)` and all switches
`false`. -/
def CIIntegralsMBPT.construct (IsOpenShellCore : Bool) : CIIntegralsMBPT :=
  { IsOpenShellCore := IsOpenShellCore
    PT := none
    include_sigma1 := false
    include_mbpt1 := false
    include_mbpt1_subtraction := false
    include_mbpt2 := false
    include_mbpt2_subtraction := false
    include_extra_box := false
    box_max_pqn_1 := none
    box_max_pqn_2 := none
    box_max_pqn_3 := none }

/-- The setter `IncludeSigma1(include, mbpt)`; the argument `include` is written `incl`, the
word being reserved. -/
def CIIntegralsMBPT.IncludeSigma1 (incl : Bool) (mbpt : Option Nat) (s : CIIntegralsMBPT) :
    CIIntegralsMBPT :=
  let s1 := { s with include_sigma1 := incl }
  let s2 := if incl then { s1 with include_mbpt1 := false } else s1
  let s3 := if s2.IsOpenShellCore then { s2 with include_mbpt1_subtraction := incl } else s2
  if mbpt.isSome then { s3 with PT := mbpt } else s3

/-- The setter `IncludeMBPT1(include, mbpt)`. -/
def CIIntegralsMBPT.IncludeMBPT1 (incl : Bool) (mbpt : Option Nat) (s : CIIntegralsMBPT) :
    CIIntegralsMBPT :=
  let s1 := { s with include_mbpt1 := incl }
  let s2 := if incl then { s1 with include_sigma1 := false } else s1
  let s3 := if s2.IsOpenShellCore then { s2 with include_mbpt1_subtraction := incl } else s2
  if mbpt.isSome then { s3 with PT := mbpt } else s3

/-- The setter `IncludeMBPT2(include, mbpt)`. -/
def CIIntegralsMBPT.IncludeMBPT2 (incl : Bool) (mbpt : Option Nat) (s : CIIntegralsMBPT) :
    CIIntegralsMBPT :=
  let s1 := { s with include_mbpt2 := incl }
  let s2 := if s1.IsOpenShellCore then { s1 with include_mbpt2_subtraction := incl } else s1
  if mbpt.isSome then { s2 with PT := mbpt } else s2

/-- The setter `IncludeExtraBoxDiagrams(include, limit1, limit2, limit3)`. -/
def CIIntegralsMBPT.IncludeExtraBoxDiagrams (incl : Bool) (limit1 limit2 limit3 : Nat)
    (s : CIIntegralsMBPT) : CIIntegralsMBPT :=
  { s with
    include_extra_box := incl
    box_max_pqn_1 := some limit1
    box_max_pqn_2 := some limit2
    box_max_pqn_3 := some limit3 }

/-- A call of one of the four inclusion setters, with its arguments. -/
inductive SetterCall where
  | IncludeSigma1 (incl : Bool) (mbpt : Option Nat)
  | IncludeMBPT1 (incl : Bool) (mbpt : Option Nat)
  | IncludeMBPT2 (incl : Bool) (mbpt : Option Nat)
  | IncludeExtraBoxDiagrams (incl : Bool) (limit1 limit2 limit3 : Nat)
  deriving DecidableEq

/-- Effect of one setter call on the object. -/
def SetterCall.run : SetterCall → CIIntegralsMBPT → CIIntegralsMBPT
  | SetterCall.IncludeSigma1 incl mbpt, s => s.IncludeSigma1 incl mbpt
  | SetterCall.IncludeMBPT1 incl mbpt, s => s.IncludeMBPT1 incl mbpt
  | SetterCall.IncludeMBPT2 incl mbpt, s => s.IncludeMBPT2 incl mbpt
  | SetterCall.IncludeExtraBoxDiagrams incl limit1 limit2 limit3, s =>
      s.IncludeExtraBoxDiagrams incl limit1 limit2 limit3

/-- Effect of a sequence of setter calls, the first call of the list being made first. -/
def runCalls (calls : List SetterCall) (s : CIIntegralsMBPT) : CIIntegralsMBPT :=
  calls.foldl (fun st c => c.run st) s

/-- Whether a call is one of the two single-particle setters `IncludeSigma1` and
`IncludeMBPT1`. -/
def SetterCall.isSingleParticle : SetterCall → Bool
  | SetterCall.IncludeSigma1 _ _ => true
  | SetterCall.IncludeMBPT1 _ _ => true
  | _ => false

/-! ## Symmetry and ChooseSymmetries -/

/-- The enumeration `Parity`. -/
inductive Parity where
  | even
  | odd
  deriving DecidableEq

/-- The class `Symmetry`: twice the total angular momentum and the parity. The class
declaration is not among the translated files; `twoJ` holds the integer the constructor
`Symmetry(two_j, parity)` is given. -/
structure Symmetry where
  twoJ : Int
  P : Parity
  deriving DecidableEq

/-- The comparison `Symmetry::operator<`. -/
def Symmetry.lt (a other : Symmetry) : Bool :=
  if a.P ≠ other.P then decide (a.P = Parity.even)
  else decide (a.twoJ < other.twoJ)

/-- The comparison `Symmetry::operator==`. -/
def Symmetry.eq (a other : Symmetry) : Bool :=
  if a.P = other.P ∧ a.twoJ = other.twoJ then true else false

/-- Insertion into a `std::set<Symmetry>`, kept as the list of its elements in increasing
order of `operator<`: the new element is placed before the first element it precedes, and is
dropped when an element equivalent to it (neither precedes the other) is met. -/
def setEmplace (x : Symmetry) : List Symmetry → List Symmetry
  | [] => [x]
  | y :: ys =>
      if x.lt y then x :: y :: ys
      else if y.lt x then y :: setEmplace x ys
      else y :: ys

/-- The user input `MultirunOptions` as far as `ChooseSymmetries` reads it: every variable name
has a vector of integers (empty when the variable is absent); `vector_variable_size(name)` is
its length and `user_input(name, 0, i)` its entry `i`, with 0 for a missing entry. -/
abbrev MultirunOptions := String → List Int

/-- The loop `for(i = 0; i < num_symmetries; i++) symmetries.emplace(user_input(name, 0, i),
parity)` of `ChooseSymmetries`. -/
def emplaceAll (user_input : MultirunOptions) (name : String) (parity : Parity)
    (symmetries : List Symmetry) : List Symmetry :=
  let num_symmetries := (user_input name).length
  forLoop (fun i S =>
      let two_j := (user_input name).getD i 0
      setEmplace { twoJ := two_j, P := parity } S)
    0 num_symmetries symmetries

/-- The function `ChooseSymmetries(user_input)`. The call `exit(1)` after the report on the
error stream is the result `Except.error` with the reported text. -/
def ChooseSymmetries (user_input : MultirunOptions) : Except String (List Symmetry) :=
  let symmetries : List Symmetry := []
  let symmetries := emplaceAll user_input "CI/EvenParityTwoJ" Parity.even symmetries
  let symmetries := emplaceAll user_input "CI/OddParityTwoJ" Parity.odd symmetries
  if symmetries.isEmpty then
    Except.error "USAGE: No symmetries requested (EvenParityTwoJ or OddParityTwoJ)"
  else Except.ok symmetries

/-- Sample user input: even parity with `2J` in `0, 2, 0`, odd parity with `2J = 2`. -/
def sampleInput : MultirunOptions := fun name =>
  if name = "CI/EvenParityTwoJ" then [0, 2, 0]
  else if name = "CI/OddParityTwoJ" then [2]
  else []

/-! ## PollMatrix -/

/-- The loop `while(value > 1.e-16) { value = value/100.; count++; }` of `PollMatrix`; the
result is the final `count`. Each pass divides the value by 100, so the integer part of
`value * 10^16` decreases and the loop ends for every value. -/
def binLoop (value : ℚ) (count : Nat) : Nat :=
  if value > 1 / 10 ^ 16 then binLoop (value / 100) (count + 1) else count
termination_by Nat.floor (value * 10 ^ 16)
decreasing_by
  rename_i h
  have hx : (1 : ℚ) < value * 10 ^ 16 := by
    have h1 : (1 : ℚ) / 10 ^ 16 * 10 ^ 16 < value * 10 ^ 16 :=
      mul_lt_mul_of_pos_right h (by positivity)
    have h2 : (1 : ℚ) / 10 ^ 16 * 10 ^ 16 = 1 := by norm_num
    rw [h2] at h1
    exact h1
  have hF1 : (1 : ℚ) ≤ (Nat.floor (value * 10 ^ 16) : ℚ) := by
    have : 1 ≤ Nat.floor (value * 10 ^ 16) := Nat.le_floor (by simpa using le_of_lt hx)
    exact_mod_cast this
  have hF2 : value * 10 ^ 16 < (Nat.floor (value * 10 ^ 16) : ℚ) + 1 :=
    Nat.lt_floor_add_one _
  rw [Nat.floor_lt (by positivity)]
  have e : value / 100 * 10 ^ 16 = value * 10 ^ 16 / 100 := by ring
  rw [e]
  generalize (Nat.floor (value * 10 ^ 16) : ℚ) = F at hF1 hF2 ⊢
  generalize value * 10 ^ 16 = x at hx hF2 ⊢
  linarith

/-- The histogram update of `PollMatrix` for the cell `(i, j)`: the bin 9 for `|value| ≥ 1`,
otherwise the bin found by `binLoop`; the bin is counted a second time when `i != j`. The
counters are `unsigned int`, 32 bits wide, so `proc_range[k]++` wraps around at `2^32`. -/
def pollCell (M : MPIMatrix) (i j : Nat) (proc_range : Nat → Nat) : Nat → Nat :=
  let value := |M i j|
  if value ≥ 1 then
    let pr := Function.update proc_range 9 ((proc_range 9 + 1) % 2 ^ 32)
    if i ≠ j then Function.update pr 9 ((pr 9 + 1) % 2 ^ 32) else pr
  else
    let count := binLoop value 0
    let pr := Function.update proc_range count ((proc_range count + 1) % 2 ^ 32)
    if i ≠ j then Function.update pr count ((pr count + 1) % 2 ^ 32) else pr

/-- The variables the block loop of `PollMatrix` carries: the row counter `i` and the
histogram `proc_range`. -/
structure PollState where
  i : Nat
  proc_range : Nat → Nat

/-- The loop over the rows of an owned block in `PollMatrix`:
`for(jstate_i ...) { for(j = i; j < N; j++) { ... } i++; }`. -/
def pollRows (M : MPIMatrix) (N NumJStates : Nat) (st : PollState) : PollState :=
  forLoop (fun _ st1 =>
      { i := st1.i + 1
        proc_range := forLoop (fun j pr => pollCell M st1.i j pr) st1.i N st1.proc_range })
    0 NumJStates st

/-- The block loop of `PollMatrix`: an owned block is polled row by row, any other block
advances `i` by its number of J-coupled states. -/
def pollLoop {Proj NR : Type} (NumProcessors ProcessorRank N : Nat) (M : MPIMatrix) :
    List (RelativisticConfig Proj NR) → Int → PollState → PollState
  | [], _, st => st
  | c :: rest, proc, st =>
      pollLoop NumProcessors ProcessorRank N M rest (nextProc NumProcessors proc)
        (if isOwner ProcessorRank proc then pollRows M N c.NumJStates st
         else { st with i := st.i + c.NumJStates })

/-- The start of `PollMatrix`: `i = 0` and the ten entries of `proc_range` set to 0; `stack` is
the content of the array before that. -/
def pollInit (stack : Nat → Nat) : PollState :=
  { i := 0
    proc_range := forLoop (fun k pr => Function.update pr k 0) 0 10 stack }

/-- The array `proc_range` of `PollMatrix` at the worker `ProcessorRank` when the block loop
is finished. -/
def PollMatrix.proc_range {Proj NR : Type} (NumProcessors ProcessorRank N : Nat)
    (M : MPIMatrix) (configs : List (RelativisticConfig Proj NR)) (stack : Nat → Nat) :
    Nat → Nat :=
  (pollLoop NumProcessors ProcessorRank N M configs (-(NumProcessors : Int))
    (pollInit stack)).proc_range

/-- The array `range` at rank 0 after `Reduce(&proc_range, &range, 10, MPI::UNSIGNED,
MPI::SUM, 0)`: the first ten entries are the sums over all ranks, taken in 32-bit unsigned
arithmetic, that is modulo `2^32`. -/
def PollMatrix.range {Proj NR : Type} (NumProcessors N : Nat) (M : MPIMatrix)
    (configs : List (RelativisticConfig Proj NR)) (stack : Nat → Nat) : Nat → Nat :=
  fun k =>
    if k < 10 then
      (∑ r ∈ Finset.range NumProcessors,
        PollMatrix.proc_range NumProcessors r N M configs stack k) % 2 ^ 32
    else stack k

/-! ## The common traversal -/

/-- One row-owned block as a block loop meets it: its list position, the block, the blocks
after it and the row offset `i` held at that moment. -/
structure RowVisit (Proj NR : Type) where
  b : Nat
  c : RelativisticConfig Proj NR
  rest : List (RelativisticConfig Proj NR)
  i : Nat

/-- The block loop of `GenerateMatrix` reduced to its control flow: the blocks for which the
ownership test succeeds, in the order the loop meets them, with the data of `RowVisit`. -/
def rowVisitLoop {Proj NR : Type} (NumProcessors ProcessorRank : Nat) :
    List (RelativisticConfig Proj NR) → Int → Nat → Nat → List (RowVisit Proj NR)
  | [], _, _, _ => []
  | c :: rest, proc, b, i =>
      (if isOwner ProcessorRank proc then [{ b := b, c := c, rest := rest, i := i }] else []) ++
        rowVisitLoop NumProcessors ProcessorRank rest (nextProc NumProcessors proc) (b + 1)
          (i + c.NumJStates)

/-- The row-owned blocks of a worker over the whole list. -/
def rowVisits {Proj NR : Type} (NumProcessors ProcessorRank : Nat)
    (configs : List (RelativisticConfig Proj NR)) : List (RowVisit Proj NR) :=
  rowVisitLoop NumProcessors ProcessorRank configs (-(NumProcessors : Int)) 0 0

/-- A sample matrix with the entries `(i + j) / 4`. -/
def sampleMatrix : MPIMatrix := fun i j => ((i : ℚ) + (j : ℚ)) / 4

/-! ## The two-electron integral store of CIIntegralsMBPT -/

/-- The four orbital indices of a two-electron integral `R_k(i1 i2, i3 i4)`. -/
structure OrbitalQuad where
  i1 : Nat
  i2 : Nat
  i3 : Nat
  i4 : Nat
  deriving DecidableEq

/-- The index at one of the four positions of a quadruple. -/
def OrbitalQuad.get (t : OrbitalQuad) (p : Fin 4) : Nat :=
  if p = 0 then t.i1 else if p = 1 then t.i2 else if p = 2 then t.i3 else t.i4

/-- A permutation of the four orbitals, given by the position each place takes its orbital
from. -/
def OrbitalQuad.rearrange (s : Fin 4 → Fin 4) (t : OrbitalQuad) : OrbitalQuad :=
  { i1 := t.get (s 0), i2 := t.get (s 1), i3 := t.get (s 2), i4 := t.get (s 3) }

/-- Dictionary order on quadruples of orbital indices. -/
def OrbitalQuad.le (a b : OrbitalQuad) : Prop :=
  a.i1 < b.i1 ∨ (a.i1 = b.i1 ∧ (a.i2 < b.i2 ∨ (a.i2 = b.i2 ∧
    (a.i3 < b.i3 ∨ (a.i3 = b.i3 ∧ a.i4 ≤ b.i4)))))

instance OrbitalQuad.decidableLe (a b : OrbitalQuad) : Decidable (a.le b) := by
  unfold OrbitalQuad.le
  exact inferInstance

/-- Modelled from the spec: `CIIntegralsMBPT::TwoElectronIntegralOrdering` is only declared in
the translated files. The spec describes it as the canonicalization of the 4-tuple to an
ordering-normalized storage key under the symmetry group that applies to the store, and does
not list that group. Here the group is the argument `symmetries`, and the canonical
arrangement is the least one, in dictionary order, among the given arrangement and its images
under the symmetries. -/
def TwoElectronIntegralOrdering (symmetries : List (Fin 4 → Fin 4)) (t : OrbitalQuad) :
    OrbitalQuad :=
  (symmetries.map (fun s => t.rearrange s)).foldl
    (fun best x => if x.le best then x else best) t

/-- Modelled from the spec: the store of two-electron integrals is a mapping from the
canonicalized tuple (multipolarity `k` and the four ordered orbital indices) to the stored
value; `none` marks a key without a stored value. -/
abbrev TwoElectronIntegrals := Nat × OrbitalQuad → Option ℚ

/-- Modelled from the spec: writing a two-electron integral through the MBPT-aware
canonicalization stores the value under the key that `TwoElectronIntegralOrdering` produces. -/
def StoreTwoElectronIntegral (symmetries : List (Fin 4 → Fin 4))
    (store : TwoElectronIntegrals) (k : Nat) (t : OrbitalQuad) (value : ℚ) :
    TwoElectronIntegrals :=
  Function.update store (k, TwoElectronIntegralOrdering symmetries t) (some value)

/-- Modelled from the spec: `CIIntegralsMBPT::GetTwoElectronIntegral(k, s1, s2, s3, s4)` is
only declared in the translated files; by the spec it canonicalizes the 4-tuple to the storage
key and returns the value stored under it. Orbitals are named by their indices. -/
def GetTwoElectronIntegral (symmetries : List (Fin 4 → Fin 4)) (store : TwoElectronIntegrals)
    (k : Nat) (t : OrbitalQuad) : Option ℚ :=
  store (k, TwoElectronIntegralOrdering symmetries t)

/-- Modelled from the spec: a symmetry group of the size the spec indicates for the MBPT store
(half of the eight symmetries of the plain store, so that about twice as many integrals are
kept): the identity, the exchange of the two electrons `(i1 i2, i3 i4) → (i2 i1, i4 i3)`, the
exchange of initial and final orbitals for both electrons `→ (i3 i4, i1 i2)`, and both
together. -/
def mbptSymmetries : List (Fin 4 → Fin 4) :=
  [![0, 1, 2, 3], ![1, 0, 3, 2], ![2, 3, 0, 1], ![3, 2, 1, 0]]

/-! ## The histogram of PollMatrix -/

/-- The bin `PollMatrix` selects for a cell whose absolute value is `value`: the two branches
of the test `value >= 1.` in `pollCell`. -/
def pollBin (value : ℚ) : Nat :=
  if value ≥ 1 then 9 else binLoop value 0

/-- The statement `proc_range[k]++` on a 32-bit unsigned counter. -/
def bump (proc_range : Nat → Nat) (k : Nat) : Nat → Nat :=
  Function.update proc_range k ((proc_range k + 1) % 2 ^ 32)

/-- Sum of the ten entries of a histogram of `PollMatrix`. -/
def binTotal (proc_range : Nat → Nat) : Nat :=
  ∑ k ∈ Finset.range 10, proc_range k

/-- Number of increments the row `x` of an `N × N` matrix causes: 1 for the diagonal cell and
2 for every cell to its right. -/
def rowCount (N x : Nat) : Nat :=
  ∑ j ∈ Finset.Ico x N, (if x = j then 1 else 2)

/-- A sample block with `2^18 = 262144` J-coupled states. -/
def largeConfig : RelativisticConfig Nat Nat :=
  { GetProjections := [0]
    NumJStates := 262144
    GetJCoefficients := fun _ => 1
    GetNonRelConfiguration := 7
    NumParticles := 1 }

/-! ## OrbitalInfo -/

/-- The class `OrbitalInfo`: principal quantum number, relativistic quantum number `kappa` and
the stored orbital angular momentum `l`. The class declaration is not among the translated
files; the three members are machine integers and are modelled by `Int`, which covers signed
and unsigned members alike. -/
structure OrbitalInfo where
  pqn : Int
  kappa : Int
  l : Int
  deriving DecidableEq

/-- The comparison `OrbitalInfo::operator<`. -/
def OrbitalInfo.lt (a other : OrbitalInfo) : Bool :=
  if a.pqn < other.pqn then true
  else if a.pqn > other.pqn then false
  else if a.l < other.l then true
  else if a.l > other.l then false
  else decide (a.kappa > other.kappa)

/-- The comparison `OrbitalInfo::operator==`. -/
def OrbitalInfo.eq (a other : OrbitalInfo) : Bool :=
  if a.pqn = other.pqn ∧ a.kappa = other.kappa then true else false

/-- The comparison `OrbitalInfo::operator!=`. -/
def OrbitalInfo.ne (a other : OrbitalInfo) : Bool :=
  !(a.eq other)

/-- The stored `l` is the orbital angular momentum that `kappa` determines: `l = kappa` for
`kappa > 0` and `l = -kappa - 1` otherwise. -/
def OrbitalInfo.Consistent (a : OrbitalInfo) : Prop :=
  a.l = if a.kappa > 0 then a.kappa else -a.kappa - 1

instance (a : OrbitalInfo) : Decidable a.Consistent := by
  unfold OrbitalInfo.Consistent
  infer_instance

/-! ## Theorems -/

variable {Proj NR Elec : Type}

theorem succ_mod_cases (b m : Nat) (hm : 0 < m) :
    (b % m + 1 = m ∧ (b + 1) % m = 0) ∨ (b % m + 1 < m ∧ (b + 1) % m = b % m + 1) := by
  have hlt : b % m < m := Nat.mod_lt _ hm
  have hb : b + 1 = m * (b / m) + (b % m + 1) := by
    have := Nat.div_add_mod b m
    omega
  by_cases h : b % m + 1 = m
  · left
    refine ⟨h, ?_⟩
    have hb2 : b + 1 = m * (b / m + 1) := by rw [Nat.mul_add, Nat.mul_one]; omega
    rw [hb2, Nat.mul_mod_right]
  · right
    refine ⟨by omega, ?_⟩
    rw [hb, Nat.mul_add_mod, Nat.mod_eq_of_lt (by omega)]

theorem nextProc_procAt (W b : Nat) (hW : 1 ≤ W) :
    nextProc W (procAt W b) = procAt W (b + 1) := by
  unfold nextProc procAt
  rcases succ_mod_cases b (2 * W) (by omega) with ⟨h, h1⟩ | ⟨h, h1⟩
  · simp only [h1]
    rw [if_pos (by omega)]
    omega
  · simp only [h1]
    rw [if_neg (by omega)]
    omega

theorem procAt_zero (W : Nat) : procAt W 0 = -(W : Int) := by
  simp [procAt]

theorem procAt_range (W b : Nat) (hW : 1 ≤ W) :
    -(W : Int) ≤ procAt W b ∧ procAt W b < (W : Int) := by
  unfold procAt
  have hlt : b % (2 * W) < 2 * W := Nat.mod_lt _ (by omega)
  omega

theorem isOwner_iff (r : Nat) (proc : Int) :
    isOwner r proc = true ↔ proc = (r : Int) ∨ proc = -1 - (r : Int) := by
  simp [isOwner]

/-- Exactly one rank below `W` passes the ownership test at a counter value in `[-W, W-1]`. -/
theorem existsUnique_owner (W : Nat) (proc : Int) (h1 : -(W : Int) ≤ proc) (h2 : proc < W) :
    ∃! r, r < W ∧ isOwner r proc = true := by
  by_cases hp : 0 ≤ proc
  · refine ⟨proc.toNat, ⟨by omega, (isOwner_iff _ _).2 (Or.inl (by omega))⟩, ?_⟩
    rintro r ⟨_, hr⟩
    rcases (isOwner_iff _ _).1 hr with h | h <;> omega
  · refine ⟨(-1 - proc).toNat, ⟨by omega, (isOwner_iff _ _).2 (Or.inr (by omega))⟩, ?_⟩
    rintro r ⟨_, hr⟩
    rcases (isOwner_iff _ _).1 hr with h | h <;> omega

theorem mem_ownedLoop (W r : Nat) (hW : 1 ≤ W) (rest : List (RelativisticConfig Proj NR)) :
    ∀ (b0 n : Nat), n ∈ ownedLoop W r rest (procAt W b0) b0 ↔
      (b0 ≤ n ∧ n < b0 + rest.length ∧ isOwner r (procAt W n) = true) := by
  induction rest with
  | nil => intro b0 n; simp [ownedLoop]; omega
  | cons c rest ih =>
    intro b0 n
    simp only [ownedLoop, List.mem_append, nextProc_procAt W b0 hW, ih, List.length_cons]
    constructor
    · rintro (h | ⟨h1, h2, h3⟩)
      · by_cases ho : isOwner r (procAt W b0) = true
        · simp only [ho, if_true, List.mem_singleton] at h
          subst h
          exact ⟨le_refl _, by omega, ho⟩
        · simp [ho] at h
      · exact ⟨by omega, by omega, h3⟩
    · rintro ⟨h1, h2, h3⟩
      by_cases hn : n = b0
      · subst hn
        left
        simp [h3]
      · right
        exact ⟨by omega, by omega, h3⟩

theorem mem_ownedBlocks (W r : Nat) (hW : 1 ≤ W) (configs : List (RelativisticConfig Proj NR))
    (n : Nat) : n ∈ ownedBlocks W r configs ↔
      (n < configs.length ∧ isOwner r (procAt W n) = true) := by
  unfold ownedBlocks
  rw [← procAt_zero W, mem_ownedLoop W r hW]
  simp

theorem rowOffset_append_left (pre rest : List (RelativisticConfig Proj NR)) :
    rowOffset (pre ++ rest) pre.length = (pre.map (fun c => c.NumJStates)).sum := by
  simp [rowOffset]

theorem rowOffset_append_succ (pre : List (RelativisticConfig Proj NR))
    (c : RelativisticConfig Proj NR) (rest : List (RelativisticConfig Proj NR)) :
    rowOffset (pre ++ c :: rest) (pre.length + 1) =
      rowOffset (pre ++ c :: rest) pre.length + c.NumJStates := by
  have h : pre ++ c :: rest = (pre ++ [c]) ++ rest := by simp
  have h2 : pre.length + 1 = (pre ++ [c]).length := by simp
  rw [rowOffset_append_left]
  conv_lhs => rw [h, h2, rowOffset_append_left]
  simp

theorem getElem?_append_cons {α : Type} (pre : List α) (c : α) (rest : List α) :
    (pre ++ c :: rest)[pre.length]? = some c := by
  rw [List.getElem?_append_right (le_refl _)]
  simp

theorem innerVisits_ok (configs : List (RelativisticConfig Proj NR)) (bi : Nat)
    (ci : RelativisticConfig Proj NR) (i : Nat) (hci : configs[bi]? = some ci)
    (hi : i = rowOffset configs bi) :
    ∀ (rest pre : List (RelativisticConfig Proj NR)), configs = pre ++ rest →
      bi ≤ pre.length →
      ∀ v ∈ innerVisits bi ci i rest pre.length (rowOffset configs pre.length),
        v.OK configs := by
  intro rest
  induction rest with
  | nil => intro pre _ _ v hv; simp [innerVisits] at hv
  | cons cj rest ih =>
    intro pre hpre hle v hv
    simp only [innerVisits, List.mem_cons] at hv
    rcases hv with hv | hv
    · subst hv
      refine ⟨hle, hci, ?_, hi, rfl⟩
      rw [hpre]
      exact getElem?_append_cons pre cj rest
    · have h1 : configs = (pre ++ [cj]) ++ rest := by simp [hpre]
      have h2 : pre.length + 1 = (pre ++ [cj]).length := by simp
      have h3 : rowOffset configs pre.length + cj.NumJStates
          = rowOffset configs (pre ++ [cj]).length := by
        rw [← h2, hpre, rowOffset_append_succ]
      rw [h3, h2] at hv
      exact ih (pre ++ [cj]) h1 (by simp; omega) v hv

theorem visitLoop_ok (W r : Nat) (configs : List (RelativisticConfig Proj NR)) :
    ∀ (rest pre : List (RelativisticConfig Proj NR)) (proc : Int), configs = pre ++ rest →
      ∀ v ∈ visitLoop W r rest proc pre.length (rowOffset configs pre.length),
        v.OK configs := by
  intro rest
  induction rest with
  | nil => intro pre proc _ v hv; simp [visitLoop] at hv
  | cons c rest ih =>
    intro pre proc hpre v hv
    simp only [visitLoop, List.mem_append] at hv
    rcases hv with hv | hv
    · by_cases ho : isOwner r proc = true
      · simp only [ho, if_true] at hv
        exact innerVisits_ok configs pre.length c _ (by rw [hpre]; exact getElem?_append_cons pre c rest) rfl (c :: rest) pre hpre
          (le_refl _) v hv
      · simp [ho] at hv
    · have h1 : configs = (pre ++ [c]) ++ rest := by simp [hpre]
      have h2 : pre.length + 1 = (pre ++ [c]).length := by simp
      have h3 : rowOffset configs pre.length + c.NumJStates
          = rowOffset configs (pre ++ [c]).length := by
        rw [← h2, hpre, rowOffset_append_succ]
      rw [h3, h2] at hv
      exact ih (pre ++ [c]) _ h1 v hv

theorem blockVisits_ok (W r : Nat) (configs : List (RelativisticConfig Proj NR)) :
    ∀ v ∈ blockVisits W r configs, v.OK configs := by
  intro v hv
  have h := visitLoop_ok W r configs configs [] (-(W : Int)) (by simp) v
  apply h
  simpa [blockVisits, rowOffset] using hv

theorem innerVisits_pairs (bi : Nat) (ci : RelativisticConfig Proj NR) (i : Nat) :
    ∀ (rest : List (RelativisticConfig Proj NR)) (bj j : Nat),
      (innerVisits bi ci i rest bj j).map (fun v => (v.bi, v.bj)) =
        (List.range' bj rest.length).map (fun y => (bi, y)) := by
  intro rest
  induction rest with
  | nil => intro bj j; simp [innerVisits]
  | cons c rest ih =>
    intro bj j
    simp [innerVisits, ih, List.range'_succ]

theorem mem_visitLoop_pairs (W r : Nat) (hW : 1 ≤ W) :
    ∀ (rest : List (RelativisticConfig Proj NR)) (b0 i0 x y : Nat),
      (x, y) ∈ (visitLoop W r rest (procAt W b0) b0 i0).map (fun v => (v.bi, v.bj)) ↔
        (b0 ≤ x ∧ x ≤ y ∧ y < b0 + rest.length ∧ isOwner r (procAt W x) = true) := by
  intro rest
  induction rest with
  | nil => intro b0 i0 x y; simp [visitLoop]; omega
  | cons c rest ih =>
    intro b0 i0 x y
    simp only [visitLoop, List.map_append, List.mem_append, nextProc_procAt W b0 hW, ih,
      List.length_cons]
    by_cases ho : isOwner r (procAt W b0) = true
    · simp only [ho, if_true, innerVisits_pairs, List.mem_map, List.mem_range', Prod.mk.injEq,
        List.length_cons]
      constructor
      · rintro (⟨y1, ⟨k, hk, rfl⟩, rfl, rfl⟩ | ⟨h1, h2, h3, h4⟩)
        · exact ⟨le_refl _, by omega, by omega, ho⟩
        · exact ⟨by omega, h2, by omega, h4⟩
      · rintro ⟨h1, h2, h3, h4⟩
        by_cases hx : x = b0
        · left
          exact ⟨y, ⟨y - b0, by omega, by omega⟩, hx.symm, rfl⟩
        · right
          exact ⟨by omega, h2, by omega, h4⟩
    · simp only [ho, if_false, List.map_nil, List.not_mem_nil, false_or, Bool.false_eq_true]
      constructor
      · rintro ⟨h1, h2, h3, h4⟩
        exact ⟨by omega, h2, by omega, h4⟩
      · rintro ⟨h1, h2, h3, h4⟩
        have hx : x ≠ b0 := by
          rintro rfl
          exact ho h4
        exact ⟨by omega, h2, by omega, h4⟩

theorem mem_processedPairs (W r : Nat) (hW : 1 ≤ W)
    (configs : List (RelativisticConfig Proj NR)) (x y : Nat) :
    (x, y) ∈ processedPairs W r configs ↔
      (x ≤ y ∧ y < configs.length ∧ isOwner r (procAt W x) = true) := by
  unfold processedPairs blockVisits
  rw [← procAt_zero W, mem_visitLoop_pairs W r hW]
  simp

theorem visitLoop_pairs_nodup (W r : Nat) (hW : 1 ≤ W) :
    ∀ (rest : List (RelativisticConfig Proj NR)) (b0 i0 : Nat),
      ((visitLoop W r rest (procAt W b0) b0 i0).map (fun v => (v.bi, v.bj))).Nodup := by
  intro rest
  induction rest with
  | nil => intro b0 i0; simp [visitLoop]
  | cons c rest ih =>
    intro b0 i0
    simp only [visitLoop, List.map_append, nextProc_procAt W b0 hW]
    refine List.Nodup.append ?_ (ih _ _) ?_
    · by_cases ho : isOwner r (procAt W b0) = true
      · simp only [ho, if_true, innerVisits_pairs]
        refine List.Nodup.map ?_ (List.nodup_range' _ _)
        intro a b hab
        simpa using hab
      · simp [ho]
    · intro p hp1 hp2
      obtain ⟨x, y⟩ := p
      rw [mem_visitLoop_pairs W r hW] at hp2
      by_cases ho : isOwner r (procAt W b0) = true
      · simp only [ho, if_true, innerVisits_pairs, List.mem_map, Prod.mk.injEq] at hp1
        obtain ⟨y1, _, hx, _⟩ := hp1
        omega
      · simp [ho] at hp1

theorem processedPairs_nodup (W r : Nat) (hW : 1 ≤ W)
    (configs : List (RelativisticConfig Proj NR)) : (processedPairs W r configs).Nodup := by
  unfold processedPairs blockVisits
  rw [← procAt_zero W]
  exact visitLoop_pairs_nodup W r hW configs 0 0

/-! ### Loops that add a state-independent amount to an observed quantity -/

theorem foldl_range'_observe {σ : Type} (π : σ → ℚ) (body : Nat → σ → σ) (d : Nat → ℚ)
    (h : ∀ k s, π (body k s) = π s + d k) :
    ∀ (n lo : Nat) (s : σ),
      π ((List.range' lo n).foldl (fun st k => body k st) s)
        = π s + ∑ k ∈ Finset.Ico lo (lo + n), d k := by
  intro n
  induction n with
  | zero => intro lo s; simp
  | succ n ih =>
    intro lo s
    rw [List.range'_succ, List.foldl_cons, ih, h,
      Finset.sum_eq_sum_Ico_succ_bot (show lo < lo + (n + 1) by omega)]
    have : lo + 1 + n = lo + (n + 1) := by omega
    rw [this]
    ring

theorem forLoop_observe {σ : Type} (π : σ → ℚ) (body : Nat → σ → σ) (d : Nat → ℚ)
    (h : ∀ k s, π (body k s) = π s + d k) (lo hi : Nat) (s : σ) :
    π (forLoop body lo hi s) = π s + ∑ k ∈ Finset.Ico lo hi, d k := by
  unfold forLoop
  rw [foldl_range'_observe π body d h]
  by_cases hle : lo ≤ hi
  · have : lo + (hi - lo) = hi := by omega
    rw [this]
  · have h0 : hi - lo = 0 := by omega
    rw [h0, Nat.add_zero, Finset.Ico_self, Finset.Ico_eq_empty (by omega)]

theorem forEachIdx_observe {α σ : Type} (π : σ → ℚ) (body : α → Nat → σ → σ)
    (d : α → Nat → ℚ) (h : ∀ x k s, π (body x k s) = π s + d x k) :
    ∀ (l : List α) (k0 : Nat) (s : σ),
      π (forEachIdx body l k0 s) = π s + ∑ n : Fin l.length, d (l.get n) (k0 + n.val) := by
  intro l
  induction l with
  | nil => intro k0 s; simp [forEachIdx]
  | cons x xs ih =>
    intro k0 s
    rw [forEachIdx, ih, h]
    simp only [List.length_cons]
    rw [Fin.sum_univ_succ]
    simp only [List.get_cons_zero, Fin.val_zero, Nat.add_zero, List.get_cons_succ, Fin.val_succ]
    have : ∀ n : Fin xs.length, k0 + 1 + n.val = k0 + (n.val + 1) := by intro n; omega
    simp only [this]
    rw [add_assoc]
    rfl

theorem addAt_apply (M : MPIMatrix) (r c : Nat) (v : ℚ) (x y : Nat) :
    M.addAt r c v x y = M x y + (if x = r ∧ y = c then v else 0) := by
  unfold MPIMatrix.addAt
  split_ifs <;> simp

theorem generateProjectionPair_cell (ops : Operators Proj Elec)
    (ci cj : RelativisticConfig Proj NR) (i j : Nat) (p : Proj) (pi : Nat) (q : Proj) (pj : Nat)
    (x y : Nat) (M : MPIMatrix) :
    generateProjectionPair ops ci cj i j p pi q pj M x y
      = M x y + projectionPairCell ops ci cj i j p pi q pj x y := by
  unfold generateProjectionPair projectionPairCell
  by_cases hH : |ops.GetProjectionH p q| > 1 / 10 ^ 16
  · simp only [hH, if_true]
    rw [forLoop_observe (fun M : MPIMatrix => M x y) _
      (fun a => ∑ b ∈ Finset.Ico (if j = i then a else 0) cj.NumJStates,
        if x = i + a ∧ y = j + b then
          ci.GetJCoefficients (a * ci.GetProjections.length + pi)
            * cj.GetJCoefficients (b * cj.GetProjections.length + pj)
            * ops.GetProjectionH p q
        else 0)]
    intro a M1
    rw [forLoop_observe (fun M : MPIMatrix => M x y) _
      (fun b => if x = i + a ∧ y = j + b then
          ci.GetJCoefficients (a * ci.GetProjections.length + pi)
            * cj.GetJCoefficients (b * cj.GetProjections.length + pj)
            * ops.GetProjectionH p q
        else 0)]
    intro b M2
    exact addAt_apply _ _ _ _ _ _
  · rw [if_neg hH, if_neg hH, add_zero]

theorem generateBlockPair_cell (ops : Operators Proj Elec)
    (ci cj : RelativisticConfig Proj NR) (i j : Nat) (x y : Nat) (M : MPIMatrix) :
    generateBlockPair ops ci cj i j M x y = M x y + blockPairCell ops ci cj i j x y := by
  unfold generateBlockPair blockPairCell
  rw [forEachIdx_observe (fun M : MPIMatrix => M x y) _
    (fun p pi => ∑ q : Fin cj.GetProjections.length,
      projectionPairCell ops ci cj i j p pi (cj.GetProjections.get q) q.val x y)]
  · simp
  · intro p pi M1
    rw [forEachIdx_observe (fun M : MPIMatrix => M x y) _
      (fun q pj => projectionPairCell ops ci cj i j p pi q pj x y)]
    · simp
    · intro q pj M2
      exact generateProjectionPair_cell ops ci cj i j p pi q pj x y M2

theorem generateInner_cell (ops : Operators Proj Elec) (bi : Nat)
    (ci : RelativisticConfig Proj NR) (i : Nat) (x y : Nat) :
    ∀ (rest : List (RelativisticConfig Proj NR)) (bj j : Nat) (M : MPIMatrix),
      generateInner ops ci i rest j M x y
        = M x y + ((innerVisits bi ci i rest bj j).map
            (fun v => blockPairCell ops v.ci v.cj v.i v.j x y)).sum := by
  intro rest
  induction rest with
  | nil => intro bj j M; simp [generateInner, innerVisits]
  | cons cj rest ih =>
    intro bj j M
    rw [generateInner, ih (bj + 1), generateBlockPair_cell]
    simp [innerVisits, add_assoc]

theorem generateLoop_cell (ops : Operators Proj Elec) (W r : Nat) (x y : Nat) :
    ∀ (rest : List (RelativisticConfig Proj NR)) (proc : Int) (b i : Nat) (M : MPIMatrix),
      generateLoop ops W r rest proc i M x y
        = M x y + ((visitLoop W r rest proc b i).map
            (fun v => blockPairCell ops v.ci v.cj v.i v.j x y)).sum := by
  intro rest
  induction rest with
  | nil => intro proc b i M; simp [generateLoop, visitLoop]
  | cons c rest ih =>
    intro proc b i M
    rw [generateLoop, ih _ (b + 1), visitLoop]
    by_cases ho : isOwner r proc = true
    · simp only [ho, if_true, List.map_append, List.sum_append]
      rw [generateInner_cell ops b c i x y (c :: rest) b i M]
      ring
    · simp [ho]

theorem GenerateMatrix_cell (ops : Operators Proj Elec) (W r : Nat)
    (configs : List (RelativisticConfig Proj NR)) (x y : Nat) :
    GenerateMatrix ops W r configs x y
      = ((blockVisits W r configs).map
          (fun v => blockPairCell ops v.ci v.cj v.i v.j x y)).sum := by
  unfold GenerateMatrix blockVisits
  rw [generateLoop_cell ops W r x y configs _ 0 0]
  simp [MPIMatrix.Clear]

theorem generateInner_eq_foldl (ops : Operators Proj Elec) (bi : Nat)
    (ci : RelativisticConfig Proj NR) (i : Nat) :
    ∀ (rest : List (RelativisticConfig Proj NR)) (bj j : Nat) (M : MPIMatrix),
      generateInner ops ci i rest j M
        = (innerVisits bi ci i rest bj j).foldl
            (fun M1 v => generateBlockPair ops v.ci v.cj v.i v.j M1) M := by
  intro rest
  induction rest with
  | nil => intro bj j M; rfl
  | cons cj rest ih =>
    intro bj j M
    rw [generateInner, ih (bj + 1)]
    rfl

/-- The block loops of `GenerateMatrix` run the block-pair body exactly on the recorded block
pairs, in the recorded order. -/
theorem generateLoop_eq_foldl (ops : Operators Proj Elec) (W r : Nat) :
    ∀ (rest : List (RelativisticConfig Proj NR)) (proc : Int) (b i : Nat) (M : MPIMatrix),
      generateLoop ops W r rest proc i M
        = (visitLoop W r rest proc b i).foldl
            (fun M1 v => generateBlockPair ops v.ci v.cj v.i v.j M1) M := by
  intro rest
  induction rest with
  | nil => intro proc b i M; rfl
  | cons c rest ih =>
    intro proc b i M
    rw [generateLoop, ih _ (b + 1), visitLoop, List.foldl_append]
    by_cases ho : isOwner r proc = true
    · simp only [ho, if_true]
      rw [generateInner_eq_foldl ops b c i (c :: rest) b i M]
    · simp [ho]

theorem rowOffset_succ (configs : List (RelativisticConfig Proj NR)) (b : Nat)
    (c : RelativisticConfig Proj NR) (h : configs[b]? = some c) :
    rowOffset configs (b + 1) = rowOffset configs b + c.NumJStates := by
  unfold rowOffset
  rw [List.take_succ, h]
  simp

theorem rowOffset_le_succ (configs : List (RelativisticConfig Proj NR)) (b : Nat) :
    rowOffset configs b ≤ rowOffset configs (b + 1) := by
  unfold rowOffset
  rw [List.take_succ]
  simp

theorem rowOffset_mono (configs : List (RelativisticConfig Proj NR)) (b1 b2 : Nat)
    (h : b1 ≤ b2) : rowOffset configs b1 ≤ rowOffset configs b2 := by
  induction b2 with
  | zero =>
    have : b1 = 0 := by omega
    subst this
    exact le_refl _
  | succ n ih =>
    by_cases h1 : b1 = n + 1
    · subst h1
      exact le_refl _
    · exact le_trans (ih (by omega)) (rowOffset_le_succ configs n)

theorem rowOffset_block_le (configs : List (RelativisticConfig Proj NR)) (b1 b2 : Nat)
    (c1 : RelativisticConfig Proj NR) (h1 : configs[b1]? = some c1) (h : b1 < b2) :
    rowOffset configs b1 + c1.NumJStates ≤ rowOffset configs b2 := by
  rw [← rowOffset_succ configs b1 c1 h1]
  exact rowOffset_mono configs (b1 + 1) b2 h

/-- A row lies in the row range of at most one block. -/
theorem rowOffset_block_unique (configs : List (RelativisticConfig Proj NR)) (b1 b2 : Nat)
    (c1 c2 : RelativisticConfig Proj NR) (h1 : configs[b1]? = some c1)
    (h2 : configs[b2]? = some c2) (x : Nat)
    (hx1 : rowOffset configs b1 ≤ x ∧ x < rowOffset configs b1 + c1.NumJStates)
    (hx2 : rowOffset configs b2 ≤ x ∧ x < rowOffset configs b2 + c2.NumJStates) :
    b1 = b2 := by
  rcases Nat.lt_trichotomy b1 b2 with h | h | h
  · have := rowOffset_block_le configs b1 b2 c1 h1 h
    omega
  · exact h
  · have := rowOffset_block_le configs b2 b1 c2 h2 h
    omega

theorem sum_map_eq_single {α κ : Type} (f : α → ℚ) (key : α → κ) :
    ∀ (l : List α), (l.map key).Nodup → ∀ v0 ∈ l,
      (∀ v ∈ l, key v ≠ key v0 → f v = 0) → (l.map f).sum = f v0 := by
  intro l
  induction l with
  | nil => intro _ v0 hv0; simp at hv0
  | cons a l ih =>
    intro hnd v0 hv0 hz
    rw [List.map_cons, List.nodup_cons] at hnd
    rw [List.map_cons, List.sum_cons]
    rcases List.mem_cons.1 hv0 with h | h
    · subst h
      have hrest : (l.map f).sum = 0 := by
        apply List.sum_eq_zero
        intro x hx
        obtain ⟨v, hv, rfl⟩ := List.mem_map.1 hx
        apply hz v (List.mem_cons_of_mem _ hv)
        intro hk
        exact hnd.1 (hk ▸ List.mem_map_of_mem key hv)
      rw [hrest, add_zero]
    · have ha : f a = 0 := by
        apply hz a (List.mem_cons_self _ _)
        intro hk
        exact hnd.1 (hk ▸ List.mem_map_of_mem key h)
      rw [ha, zero_add]
      exact ih hnd.2 v0 h (fun v hv => hz v (List.mem_cons_of_mem _ hv))

theorem sum_map_eq_zero {α : Type} (f : α → ℚ) (l : List α) (h : ∀ v ∈ l, f v = 0) :
    (l.map f).sum = 0 := by
  apply List.sum_eq_zero
  intro x hx
  obtain ⟨v, hv, rfl⟩ := List.mem_map.1 hx
  exact h v hv

/-- Outside the cells of its block pair the body adds nothing. -/
theorem blockPairCell_eq_zero (ops : Operators Proj Elec)
    (ci cj : RelativisticConfig Proj NR) (i j x y : Nat)
    (h : ¬ ∃ a b, a < ci.NumJStates ∧ b < cj.NumJStates ∧ (j = i → a ≤ b) ∧
      x = i + a ∧ y = j + b) :
    blockPairCell ops ci cj i j x y = 0 := by
  unfold blockPairCell
  apply Finset.sum_eq_zero
  intro p _
  apply Finset.sum_eq_zero
  intro q _
  unfold projectionPairCell
  by_cases hH : |ops.GetProjectionH (ci.GetProjections.get p) (cj.GetProjections.get q)|
      > 1 / 10 ^ 16
  · rw [if_pos hH]
    apply Finset.sum_eq_zero
    intro a ha
    apply Finset.sum_eq_zero
    intro b hb
    rw [if_neg]
    rintro ⟨hx, hy⟩
    apply h
    rw [Finset.mem_Ico] at ha hb
    refine ⟨a, b, ha.2, hb.2, ?_, hx, hy⟩
    intro hji
    rw [if_pos hji] at hb
    exact hb.1
  · rw [if_neg hH]

/-- At a cell of its block pair the body adds the coefficient-weighted sum of the
non-negligible projection elements. -/
theorem blockPairCell_at (ops : Operators Proj Elec)
    (ci cj : RelativisticConfig Proj NR) (i j a0 b0 : Nat)
    (ha : a0 < ci.NumJStates) (hb : b0 < cj.NumJStates) (hab : j = i → a0 ≤ b0) :
    blockPairCell ops ci cj i j (i + a0) (j + b0)
      = ∑ p : Fin ci.GetProjections.length, ∑ q : Fin cj.GetProjections.length,
          if |ops.GetProjectionH (ci.GetProjections.get p) (cj.GetProjections.get q)|
              > 1 / 10 ^ 16 then
            ci.GetJCoefficients (a0 * ci.GetProjections.length + p.val)
              * cj.GetJCoefficients (b0 * cj.GetProjections.length + q.val)
              * ops.GetProjectionH (ci.GetProjections.get p) (cj.GetProjections.get q)
          else 0 := by
  unfold blockPairCell
  apply Finset.sum_congr rfl
  intro p _
  apply Finset.sum_congr rfl
  intro q _
  unfold projectionPairCell
  by_cases hH : |ops.GetProjectionH (ci.GetProjections.get p) (cj.GetProjections.get q)|
      > 1 / 10 ^ 16
  · rw [if_pos hH, if_pos hH]
    rw [Finset.sum_eq_single a0]
    · rw [Finset.sum_eq_single b0]
      · simp
      · intro b _ hne
        rw [if_neg]
        rintro ⟨_, hy⟩
        omega
      · intro hnot
        exfalso
        apply hnot
        rw [Finset.mem_Ico]
        refine ⟨?_, hb⟩
        by_cases hji : j = i
        · rw [if_pos hji]
          exact hab hji
        · rw [if_neg hji]
          exact Nat.zero_le _
    · intro a _ hne
      apply Finset.sum_eq_zero
      intro b _
      rw [if_neg]
      rintro ⟨hx, _⟩
      omega
    · intro hnot
      exfalso
      apply hnot
      rw [Finset.mem_Ico]
      exact ⟨Nat.zero_le _, ha⟩
  · rw [if_neg hH, if_neg hH]

theorem BlockVisit.OK.data {configs : List (RelativisticConfig Proj NR)}
    {v : BlockVisit Proj NR} (h : v.OK configs) :
    ∃ (hbi : v.bi < configs.length) (hbj : v.bj < configs.length),
      v.ci = configs.get ⟨v.bi, hbi⟩ ∧ v.cj = configs.get ⟨v.bj, hbj⟩ := by
  obtain ⟨_, h1, h2, _, _⟩ := h
  obtain ⟨hbi, e1⟩ := List.getElem?_eq_some.1 h1
  obtain ⟨hbj, e2⟩ := List.getElem?_eq_some.1 h2
  exact ⟨hbi, hbj, e1.symm, e2.symm⟩

theorem exists_blockVisit (W r : Nat) (hW : 1 ≤ W)
    (configs : List (RelativisticConfig Proj NR)) (bi bj : Fin configs.length)
    (hown : bi.val ∈ ownedBlocks W r configs) (hle : bi ≤ bj) :
    ∃ v ∈ blockVisits W r configs, v.bi = bi.val ∧ v.bj = bj.val ∧
      v.ci = configs.get bi ∧ v.cj = configs.get bj ∧
      v.i = rowOffset configs bi.val ∧ v.j = rowOffset configs bj.val := by
  have hmem : (bi.val, bj.val) ∈ processedPairs W r configs := by
    rw [mem_processedPairs W r hW]
    exact ⟨hle, bj.isLt, ((mem_ownedBlocks W r hW configs _).1 hown).2⟩
  obtain ⟨v, hv, hkey⟩ := List.mem_map.1 hmem
  have hok := blockVisits_ok W r configs v hv
  have h1 : v.bi = bi.val := congrArg Prod.fst hkey
  have h2 : v.bj = bj.val := congrArg Prod.snd hkey
  obtain ⟨hbi, hbj, e1, e2⟩ := hok.data
  refine ⟨v, hv, h1, h2, ?_, ?_, ?_, ?_⟩
  · rw [e1]; congr 1; exact Fin.ext h1
  · rw [e2]; congr 1; exact Fin.ext h2
  · rw [hok.2.2.2.1, h1]
  · rw [hok.2.2.2.2, h2]

/-- A cell of the row block `bi` and column block `bj` receives nothing from any other
block pair. -/
theorem blockPairCell_other (ops : Operators Proj Elec)
    (configs : List (RelativisticConfig Proj NR)) (v : BlockVisit Proj NR) (hok : v.OK configs)
    (bi bj : Fin configs.length) (a b : Nat) (ha : a < (configs.get bi).NumJStates)
    (hb : b < (configs.get bj).NumJStates) (hne : (v.bi, v.bj) ≠ (bi.val, bj.val)) :
    blockPairCell ops v.ci v.cj v.i v.j (rowOffset configs bi.val + a)
      (rowOffset configs bj.val + b) = 0 := by
  apply blockPairCell_eq_zero
  rintro ⟨a1, b1, ha1, hb1, _, hx, hy⟩
  apply hne
  obtain ⟨_, h1, h2, hi, hj⟩ := hok
  have e1 : v.bi = bi.val := by
    apply rowOffset_block_unique configs v.bi bi.val v.ci (configs.get bi) h1
      (by simp) (rowOffset configs bi.val + a)
    · rw [← hi]; omega
    · omega
  have e2 : v.bj = bj.val := by
    apply rowOffset_block_unique configs v.bj bj.val v.cj (configs.get bj) h2
      (by simp) (rowOffset configs bj.val + b)
    · rw [← hj]; omega
    · omega
  rw [e1, e2]

theorem GenerateMatrix_owned_cell (ops : Operators Proj Elec) (W r : Nat) (hW : 1 ≤ W)
    (configs : List (RelativisticConfig Proj NR)) (bi bj : Fin configs.length) (a b : Nat)
    (hown : bi.val ∈ ownedBlocks W r configs) (hle : bi ≤ bj)
    (ha : a < (configs.get bi).NumJStates) (hb : b < (configs.get bj).NumJStates)
    (hab : bi = bj → a ≤ b) :
    GenerateMatrix ops W r configs (rowOffset configs bi.val + a) (rowOffset configs bj.val + b)
      = ∑ p : Fin (configs.get bi).GetProjections.length,
          ∑ q : Fin (configs.get bj).GetProjections.length,
            if |ops.GetProjectionH ((configs.get bi).GetProjections.get p)
                ((configs.get bj).GetProjections.get q)| > 1 / 10 ^ 16 then
              (configs.get bi).GetJCoefficients
                  (a * (configs.get bi).GetProjections.length + p.val)
                * (configs.get bj).GetJCoefficients
                  (b * (configs.get bj).GetProjections.length + q.val)
                * ops.GetProjectionH ((configs.get bi).GetProjections.get p)
                  ((configs.get bj).GetProjections.get q)
            else 0 := by
  obtain ⟨v0, hv0, h1, h2, hci, hcj, hi, hj⟩ := exists_blockVisit W r hW configs bi bj hown hle
  rw [GenerateMatrix_cell]
  rw [sum_map_eq_single _ (fun v : BlockVisit Proj NR => (v.bi, v.bj)) _
    (processedPairs_nodup W r hW configs) v0 hv0]
  · rw [hci, hcj, hi, hj]
    apply blockPairCell_at ops _ _ _ _ a b ha hb
    intro hji
    by_cases hbb : bi = bj
    · exact hab hbb
    · exfalso
      have hlt : bi.val < bj.val := by
        have : bi.val ≠ bj.val := fun h => hbb (Fin.ext h)
        have : bi.val ≤ bj.val := hle
        omega
      have := rowOffset_block_le configs bi.val bj.val (configs.get bi) (by simp) hlt
      omega
  · intro v hv hne
    apply blockPairCell_other ops configs v (blockVisits_ok W r configs v hv) bi bj a b ha hb
    rw [h1, h2] at hne
    exact hne

theorem GenerateMatrix_other_cell (ops : Operators Proj Elec) (W r : Nat) (hW : 1 ≤ W)
    (configs : List (RelativisticConfig Proj NR)) (x y : Nat)
    (h : ¬ ∃ (bi bj : Fin configs.length) (a b : Nat),
        bi.val ∈ ownedBlocks W r configs ∧ bi ≤ bj ∧
        a < (configs.get bi).NumJStates ∧ b < (configs.get bj).NumJStates ∧
        (bi = bj → a ≤ b) ∧
        x = rowOffset configs bi.val + a ∧ y = rowOffset configs bj.val + b) :
    GenerateMatrix ops W r configs x y = 0 := by
  rw [GenerateMatrix_cell]
  apply sum_map_eq_zero
  intro v hv
  apply blockPairCell_eq_zero
  rintro ⟨a, b, ha, hb, hab, hx, hy⟩
  apply h
  have hok := blockVisits_ok W r configs v hv
  obtain ⟨hbi, hbj, e1, e2⟩ := hok.data
  have hpair : (v.bi, v.bj) ∈ processedPairs W r configs :=
    List.mem_map.2 ⟨v, hv, rfl⟩
  rw [mem_processedPairs W r hW] at hpair
  refine ⟨⟨v.bi, hbi⟩, ⟨v.bj, hbj⟩, a, b, ?_, hok.1, e1 ▸ ha, e2 ▸ hb, ?_, ?_, ?_⟩
  · exact (mem_ownedBlocks W r hW configs _).2 ⟨hbi, hpair.2.2⟩
  · intro hbb
    apply hab
    have : v.bi = v.bj := congrArg Fin.val hbb
    rw [hok.2.2.2.1, hok.2.2.2.2, this]
  · rw [hx, hok.2.2.2.1]
  · rw [hy, hok.2.2.2.2]

theorem generateProjectionPair_negligible (ops : Operators Proj Elec)
    (ci cj : RelativisticConfig Proj NR) (i j : Nat) (p : Proj) (pi : Nat) (q : Proj) (pj : Nat)
    (M : MPIMatrix) (h : |ops.GetProjectionH p q| ≤ 1 / 10 ^ 16) :
    generateProjectionPair ops ci cj i j p pi q pj M = M := by
  unfold generateProjectionPair
  exact if_neg (not_lt.2 h)

theorem foldl_range'_update_apply (g : Nat → ℚ → ℚ) (s : Nat) :
    ∀ (n lo : Nat) (c : Nat → ℚ),
      (List.range' lo n).foldl (fun c1 k => Function.update c1 k (g k (c1 k))) c s
        = if lo ≤ s ∧ s < lo + n then g s (c s) else c s := by
  intro n
  induction n with
  | zero =>
    intro lo c
    have h0 : ¬ (lo ≤ s ∧ s < lo + 0) := by omega
    rw [if_neg h0]
    rfl
  | succ n ih =>
    intro lo c
    rw [List.range'_succ, List.foldl_cons, ih]
    by_cases hs : s = lo
    · subst hs
      have h1 : ¬ (s + 1 ≤ s ∧ s < s + 1 + n) := by omega
      have h2 : s ≤ s ∧ s < s + (n + 1) := by omega
      rw [if_neg h1, if_pos h2, Function.update_same]
    · rw [Function.update_noteq hs]
      by_cases h1 : lo + 1 ≤ s ∧ s < lo + 1 + n
      · have h2 : lo ≤ s ∧ s < lo + (n + 1) := by omega
        rw [if_pos h1, if_pos h2]
      · have h2 : ¬ (lo ≤ s ∧ s < lo + (n + 1)) := by omega
        rw [if_neg h1, if_neg h2]

/-- A loop that rewrites the entries `lo ≤ k < hi` of an array in place. -/
theorem forLoop_update_apply (g : Nat → ℚ → ℚ) (lo hi : Nat) (c : Nat → ℚ) (s : Nat) :
    forLoop (fun k c1 => Function.update c1 k (g k (c1 k))) lo hi c s
      = if lo ≤ s ∧ s < hi then g s (c s) else c s := by
  unfold forLoop
  rw [foldl_range'_update_apply]
  by_cases h1 : lo ≤ s ∧ s < hi
  · have h2 : lo ≤ s ∧ s < lo + (hi - lo) := by omega
    rw [if_pos h1, if_pos h2]
  · have h2 : ¬ (lo ≤ s ∧ s < lo + (hi - lo)) := by omega
    rw [if_neg h1, if_neg h2]

theorem accumulateCoeff_apply (NumSolutions N : Nat) (V : Nat → ℚ)
    (ci cj : RelativisticConfig Proj NR) (i j pi pj : Nat) (coeff : Nat → ℚ) (s : Nat) :
    accumulateCoeff NumSolutions N V ci cj i j pi pj coeff s
      = if s < NumSolutions then coeffSum N V ci cj i j pi pj s else coeff s := by
  unfold accumulateCoeff
  rw [forLoop_observe (fun c : Nat → ℚ => c s) _
    (fun a => ∑ b ∈ Finset.Ico 0 cj.NumJStates,
      if s < NumSolutions then
        ci.GetJCoefficients (a * ci.GetProjections.length + pi)
          * cj.GetJCoefficients (b * cj.GetProjections.length + pj)
          * V (s * N + i + a) * V (s * N + j + b)
      else 0)]
  · rw [forLoop_update_apply (fun _ _ => (0 : ℚ))]
    by_cases hs : s < NumSolutions
    · simp [hs, coeffSum]
    · simp [hs]
  · intro a c1
    rw [forLoop_observe (fun c : Nat → ℚ => c s) _
      (fun b => if s < NumSolutions then
        ci.GetJCoefficients (a * ci.GetProjections.length + pi)
          * cj.GetJCoefficients (b * cj.GetProjections.length + pj)
          * V (s * N + i + a) * V (s * N + j + b)
      else 0)]
    intro b c2
    rw [forLoop_update_apply (fun k x => x
      + ci.GetJCoefficients (a * ci.GetProjections.length + pi)
          * cj.GetJCoefficients (b * cj.GetProjections.length + pj)
          * V (k * N + i + a) * V (k * N + j + b))]
    by_cases hs : s < NumSolutions
    · simp [hs]
    · simp [hs]

theorem accumulatePair_total (NumSolutions N : Nat) (V : Nat → ℚ)
    (ci cj : RelativisticConfig Proj NR) (i j pi pj : Nat) (matrix_element : ℚ)
    (st : Totals) (s : Nat) :
    (accumulatePair NumSolutions N V ci cj i j pi pj matrix_element st).total s
      = st.total s + pairAmount NumSolutions N V ci cj i j pi pj matrix_element s := by
  unfold accumulatePair pairAmount
  by_cases hm : matrix_element = 0
  · simp [hm]
  · rw [if_pos hm]
    simp only
    rw [forLoop_update_apply (fun k x => x + (if i ≠ j then
        forLoop (fun solution c => Function.update c solution (c solution * 2)) 0 NumSolutions
          (accumulateCoeff NumSolutions N V ci cj i j pi pj st.coeff)
      else accumulateCoeff NumSolutions N V ci cj i j pi pj st.coeff) k * matrix_element)]
    by_cases hs : s < NumSolutions
    · have h0 : 0 ≤ s ∧ s < NumSolutions := ⟨Nat.zero_le _, hs⟩
      rw [if_pos h0, if_pos hs]
      by_cases hij : i ≠ j
      · rw [if_pos hij, if_pos hij, forLoop_update_apply (fun _ x => x * 2), if_pos h0,
          accumulateCoeff_apply, if_pos hs]
        ring
      · rw [if_neg hij, if_neg hij, accumulateCoeff_apply, if_pos hs]
        ring
    · have h0 : ¬ (0 ≤ s ∧ s < NumSolutions) := by omega
      rw [if_neg h0, if_neg hs, add_zero]

theorem eigenBlockPair_total (ops : Operators Proj Elec) (NumSolutions N : Nat) (V : Nat → ℚ)
    (ci cj : RelativisticConfig Proj NR) (i j : Nat) (st : Totals) (s : Nat) :
    (eigenBlockPair ops NumSolutions N V ci cj i j st).total s
      = st.total s + blockAmount ops.GetProjectionSMS NumSolutions N V ci cj i j s := by
  unfold eigenBlockPair blockAmount
  rw [forEachIdx_observe (fun st : Totals => st.total s) _
    (fun p pi => ∑ q : Fin cj.GetProjections.length,
      pairAmount NumSolutions N V ci cj i j pi q.val
        (ops.GetProjectionSMS p (cj.GetProjections.get q)) s)]
  · simp
  · intro p pi st1
    rw [forEachIdx_observe (fun st : Totals => st.total s) _
      (fun q pj => pairAmount NumSolutions N V ci cj i j pi pj (ops.GetProjectionSMS p q) s)]
    · simp
    · intro q pj st2
      exact accumulatePair_total NumSolutions N V ci cj i j pi pj _ st2 s

theorem eigenInner_total (ops : Operators Proj Elec) (NumSolutions N : Nat) (V : Nat → ℚ)
    (bi : Nat) (ci : RelativisticConfig Proj NR) (i : Nat) (s : Nat) :
    ∀ (rest : List (RelativisticConfig Proj NR)) (bj j : Nat) (st : Totals),
      (eigenInner ops NumSolutions N V ci i rest j st).total s
        = st.total s + ((innerVisits bi ci i rest bj j).map
            (fun v => blockAmount ops.GetProjectionSMS NumSolutions N V v.ci v.cj v.i v.j
              s)).sum := by
  intro rest
  induction rest with
  | nil => intro bj j st; simp [eigenInner, innerVisits]
  | cons cj rest ih =>
    intro bj j st
    rw [eigenInner, ih (bj + 1), eigenBlockPair_total]
    simp [innerVisits, add_assoc]

theorem eigenLoop_total (ops : Operators Proj Elec) (W r NumSolutions N : Nat) (V : Nat → ℚ)
    (s : Nat) :
    ∀ (rest : List (RelativisticConfig Proj NR)) (proc : Int) (b i : Nat) (st : Totals),
      (eigenLoop ops W r NumSolutions N V rest proc i st).total s
        = st.total s + ((visitLoop W r rest proc b i).map
            (fun v => blockAmount ops.GetProjectionSMS NumSolutions N V v.ci v.cj v.i v.j
              s)).sum := by
  intro rest
  induction rest with
  | nil => intro proc b i st; simp [eigenLoop, visitLoop]
  | cons c rest ih =>
    intro proc b i st
    rw [eigenLoop, ih _ (b + 1), visitLoop]
    by_cases ho : isOwner r proc = true
    · simp only [ho, if_true, List.map_append, List.sum_append]
      rw [eigenInner_total ops NumSolutions N V b c i s (c :: rest) b i st]
      ring
    · simp [ho]

theorem my_total_eq (ops : Operators Proj Elec) (W r NumSolutions N : Nat) (V : Nat → ℚ)
    (configs : List (RelativisticConfig Proj NR)) (uninit : Nat → ℚ) (s : Nat)
    (hs : s < NumSolutions) :
    GetEigenvalues.my_total ops W r NumSolutions N V configs uninit s
      = ((blockVisits W r configs).map
          (fun v => blockAmount ops.GetProjectionSMS NumSolutions N V v.ci v.cj v.i v.j
            s)).sum := by
  unfold GetEigenvalues.my_total blockVisits
  rw [eigenLoop_total ops W r NumSolutions N V s configs _ 0 0]
  simp only
  rw [forLoop_update_apply (fun _ _ => (0 : ℚ)), if_pos ⟨Nat.zero_le _, hs⟩, zero_add]

theorem gBlockPair_total (ops : Operators Proj Elec) (num_electrons NumSolutions N : Nat)
    (V : Nat → ℚ) (ci cj : RelativisticConfig Proj NR) (i j : Nat) (st : Totals) (s : Nat) :
    (gBlockPair ops num_electrons NumSolutions N V ci cj i j st).total s
      = st.total s
        + blockAmount (gMatrixElement ops num_electrons) NumSolutions N V ci cj i j s := by
  unfold gBlockPair blockAmount
  rw [forEachIdx_observe (fun st : Totals => st.total s) _
    (fun p pi => ∑ q : Fin cj.GetProjections.length,
      pairAmount NumSolutions N V ci cj i j pi q.val
        (gMatrixElement ops num_electrons p (cj.GetProjections.get q)) s)]
  · simp
  · intro p pi st1
    rw [forEachIdx_observe (fun st : Totals => st.total s) _
      (fun q pj => pairAmount NumSolutions N V ci cj i j pi pj
        (gMatrixElement ops num_electrons p q) s)]
    · simp
    · intro q pj st2
      exact accumulatePair_total NumSolutions N V ci cj i j pi pj _ st2 s

theorem gInner_total (ops : Operators Proj Elec) (num_electrons NumSolutions N : Nat)
    (V : Nat → ℚ) (bi : Nat) (ci : RelativisticConfig Proj NR) (i : Nat) (s : Nat) :
    ∀ (rest : List (RelativisticConfig Proj NR)) (bj j : Nat) (st : Totals),
      (gInner ops num_electrons NumSolutions N V ci i rest j st).total s
        = st.total s + ((innerVisits bi ci i rest bj j).map
            (fun v => blockAmount (gMatrixElement ops num_electrons) NumSolutions N V
              v.ci v.cj v.i v.j s)).sum := by
  intro rest
  induction rest with
  | nil => intro bj j st; simp [gInner, innerVisits]
  | cons cj rest ih =>
    intro bj j st
    rw [gInner, ih (bj + 1), gBlockPair_total]
    simp [innerVisits, add_assoc]

theorem gLoop_total (ops : Operators Proj Elec) (W r num_electrons NumSolutions N : Nat)
    (V : Nat → ℚ) (s : Nat) :
    ∀ (rest : List (RelativisticConfig Proj NR)) (proc : Int) (b i : Nat) (st : Totals),
      (gLoop ops W r num_electrons NumSolutions N V rest proc i st).total s
        = st.total s + ((visitLoop W r rest proc b i).map
            (fun v => blockAmount (gMatrixElement ops num_electrons) NumSolutions N V
              v.ci v.cj v.i v.j s)).sum := by
  intro rest
  induction rest with
  | nil => intro proc b i st; simp [gLoop, visitLoop]
  | cons c rest ih =>
    intro proc b i st
    rw [gLoop, ih _ (b + 1), visitLoop]
    by_cases ho : isOwner r proc = true
    · simp only [ho, if_true, List.map_append, List.sum_append]
      rw [gInner_total ops num_electrons NumSolutions N V b c i s (c :: rest) b i st]
      ring
    · simp [ho]

theorem total_eq (ops : Operators Proj Elec) (W r NumSolutions N : Nat) (V : Nat → ℚ)
    (configs : List (RelativisticConfig Proj NR)) (uninit : Nat → ℚ) (s : Nat)
    (hs : s < NumSolutions) :
    GetgFactors.total ops W r NumSolutions N V configs uninit s
      = ((blockVisits W r configs).map
          (fun v => blockAmount (gMatrixElement ops (frontNumParticles configs))
            NumSolutions N V v.ci v.cj v.i v.j s)).sum := by
  unfold GetgFactors.total blockVisits
  rw [gLoop_total ops W r _ NumSolutions N V s configs _ 0 0]
  simp only
  rw [forLoop_update_apply (fun _ _ => (0 : ℚ)), if_pos ⟨Nat.zero_le _, hs⟩, zero_add]

/-! ### Summing a quantity over the block pairs of all workers -/

theorem isOwner_single (b : Nat) : isOwner 0 (procAt 1 b) = true := by
  rw [isOwner_iff]
  have := procAt_range 1 b (le_refl _)
  omega

theorem sum_owner_indicator (W : Nat) (hW : 1 ≤ W) (b : Nat) (S : ℚ) :
    ∑ r ∈ Finset.range W, (if isOwner r (procAt W b) = true then S else 0) = S := by
  have hr := procAt_range W b hW
  obtain ⟨r0, ⟨hr0, ho⟩, huniq⟩ := existsUnique_owner W (procAt W b) hr.1 hr.2
  rw [Finset.sum_eq_single r0]
  · rw [if_pos ho]
  · intro r hrW hne
    rw [if_neg]
    intro h
    exact hne (huniq r ⟨Finset.mem_range.1 hrW, h⟩)
  · intro h
    exact absurd (Finset.mem_range.2 hr0) h

theorem sum_visitLoop_ranks (W : Nat) (hW : 1 ≤ W) (F : BlockVisit Proj NR → ℚ) :
    ∀ (rest : List (RelativisticConfig Proj NR)) (b0 i0 : Nat),
      ∑ r ∈ Finset.range W, ((visitLoop W r rest (procAt W b0) b0 i0).map F).sum
        = ((visitLoop 1 0 rest (procAt 1 b0) b0 i0).map F).sum := by
  intro rest
  induction rest with
  | nil => intro b0 i0; simp [visitLoop]
  | cons c rest ih =>
    intro b0 i0
    simp only [visitLoop, nextProc_procAt W b0 hW, nextProc_procAt 1 b0 (le_refl _),
      List.map_append, List.sum_append, Finset.sum_add_distrib, ih, isOwner_single, if_true]
    congr 1
    rw [← sum_owner_indicator W hW b0 ((innerVisits b0 c i0 (c :: rest) b0 i0).map F).sum]
    apply Finset.sum_congr rfl
    intro r _
    by_cases ho : isOwner r (procAt W b0) = true
    · simp [ho]
    · simp [ho]

theorem sum_blockVisits_ranks (W : Nat) (hW : 1 ≤ W) (F : BlockVisit Proj NR → ℚ)
    (configs : List (RelativisticConfig Proj NR)) :
    ∑ r ∈ Finset.range W, ((blockVisits W r configs).map F).sum
      = ((blockVisits 1 0 configs).map F).sum := by
  unfold blockVisits
  have h1 := sum_visitLoop_ranks W hW F configs 0 0
  rw [procAt_zero, procAt_zero] at h1
  exact h1

theorem rowOffset_cons_succ (c : RelativisticConfig Proj NR)
    (rest : List (RelativisticConfig Proj NR)) (k : Nat) :
    rowOffset (c :: rest) (k + 1) = c.NumJStates + rowOffset rest k := by
  simp [rowOffset]

theorem rowOffset_zero (configs : List (RelativisticConfig Proj NR)) :
    rowOffset configs 0 = 0 := by
  simp [rowOffset]

theorem sum_innerVisits (G : RelativisticConfig Proj NR → Nat → ℚ) (bi : Nat)
    (ci : RelativisticConfig Proj NR) (i : Nat) :
    ∀ (rest : List (RelativisticConfig Proj NR)) (bj j0 : Nat),
      ((innerVisits bi ci i rest bj j0).map (fun v => G v.cj v.j)).sum
        = ∑ k : Fin rest.length, G (rest.get k) (j0 + rowOffset rest k.val) := by
  intro rest
  induction rest with
  | nil => intro bj j0; simp [innerVisits]
  | cons c rest ih =>
    intro bj j0
    simp only [innerVisits, List.map_cons, List.sum_cons, ih, List.length_cons]
    rw [Fin.sum_univ_succ]
    simp only [List.get_cons_zero, Fin.val_zero, rowOffset_zero, Nat.add_zero,
      List.get_cons_succ, Fin.val_succ, rowOffset_cons_succ, Nat.add_assoc]
    rfl

theorem sum_visitLoop_single (G : RelativisticConfig Proj NR → RelativisticConfig Proj NR →
    Nat → Nat → ℚ) :
    ∀ (rest : List (RelativisticConfig Proj NR)) (b0 i0 : Nat),
      ((visitLoop 1 0 rest (procAt 1 b0) b0 i0).map (fun v => G v.ci v.cj v.i v.j)).sum
        = ∑ k1 : Fin rest.length, ∑ k2 : Fin rest.length,
            if k1 ≤ k2 then
              G (rest.get k1) (rest.get k2) (i0 + rowOffset rest k1.val)
                (i0 + rowOffset rest k2.val)
            else 0 := by
  intro rest
  induction rest with
  | nil => intro b0 i0; simp [visitLoop]
  | cons c rest ih =>
    intro b0 i0
    have hinner : ∀ (l : List (RelativisticConfig Proj NR)) (bj j0 : Nat),
        ((innerVisits b0 c i0 l bj j0).map (fun v => G v.ci v.cj v.i v.j)).sum
          = ((innerVisits b0 c i0 l bj j0).map (fun v => G c v.cj i0 v.j)).sum := by
      intro l
      induction l with
      | nil => intro bj j0; simp [innerVisits]
      | cons d l ihl => intro bj j0; simp [innerVisits, ihl]
    simp only [visitLoop, isOwner_single, if_true, nextProc_procAt 1 b0 (le_refl _),
      List.map_append, List.sum_append, ih, List.length_cons]
    rw [hinner, sum_innerVisits (fun cj j => G c cj i0 j)]
    rw [Fin.sum_univ_succ]
    congr 1
    · simp only [List.length_cons, List.get_cons_zero, Fin.val_zero, rowOffset_zero,
        Nat.add_zero, Fin.zero_le, if_true]
    · apply Finset.sum_congr rfl
      intro k1 _
      rw [Fin.sum_univ_succ]
      have h0 : ¬ (k1.succ ≤ (0 : Fin (rest.length + 1))) := by
        simp [Fin.le_def]
      rw [if_neg h0, zero_add]
      apply Finset.sum_congr rfl
      intro k2 _
      simp only [List.get_cons_succ, Fin.val_succ, rowOffset_cons_succ, Fin.succ_le_succ_iff,
        Nat.add_assoc]
      rfl

theorem sum_blockVisits_single (G : RelativisticConfig Proj NR → RelativisticConfig Proj NR →
    Nat → Nat → ℚ) (configs : List (RelativisticConfig Proj NR)) :
    ((blockVisits 1 0 configs).map (fun v => G v.ci v.cj v.i v.j)).sum
      = ∑ k1 : Fin configs.length, ∑ k2 : Fin configs.length,
          if k1 ≤ k2 then
            G (configs.get k1) (configs.get k2) (rowOffset configs k1.val)
              (rowOffset configs k2.val)
          else 0 := by
  have h := sum_visitLoop_single G configs 0 0
  rw [procAt_zero] at h
  simpa [blockVisits] using h

/-- A symmetric table summed over the upper triangle, off-diagonal entries counted twice, is
the sum over the whole table. -/
theorem sum_upper_doubled {n : Nat} (X : Fin n → Fin n → ℚ) (hsym : ∀ a b, X a b = X b a) :
    ∑ a : Fin n, ∑ b : Fin n, (if a ≤ b then (if a = b then 1 else 2) * X a b else 0)
      = ∑ a : Fin n, ∑ b : Fin n, X a b := by
  have hL : ∀ a b : Fin n, (if a ≤ b then (if a = b then 1 else 2) * X a b else 0)
      = (if a = b then X a b else 0) + ((if a < b then X a b else 0)
          + (if a < b then X a b else 0)) := by
    intro a b
    rcases lt_trichotomy a b with h | h | h
    · simp [h, le_of_lt h, ne_of_lt h]; ring
    · subst h; simp
    · simp [not_le.2 h, not_lt.2 (le_of_lt h), ne_of_gt h]
  have hR : ∀ a b : Fin n, X a b
      = (if a = b then X a b else 0) + ((if a < b then X a b else 0)
          + (if b < a then X b a else 0)) := by
    intro a b
    rcases lt_trichotomy a b with h | h | h
    · simp [h, ne_of_lt h, not_lt.2 (le_of_lt h)]
    · subst h; simp
    · simp [h, not_lt.2 (le_of_lt h), ne_of_gt h, hsym a b]
  have hswap : ∑ a : Fin n, ∑ b : Fin n, (if b < a then X b a else 0)
      = ∑ a : Fin n, ∑ b : Fin n, (if a < b then X a b else 0) := Finset.sum_comm
  calc ∑ a : Fin n, ∑ b : Fin n, (if a ≤ b then (if a = b then 1 else 2) * X a b else 0)
      = ∑ a : Fin n, ∑ b : Fin n, ((if a = b then X a b else 0)
          + ((if a < b then X a b else 0) + (if a < b then X a b else 0))) := by
        simp only [hL]
    _ = ∑ a : Fin n, ∑ b : Fin n, (if a = b then X a b else 0)
          + (∑ a : Fin n, ∑ b : Fin n, (if a < b then X a b else 0)
            + ∑ a : Fin n, ∑ b : Fin n, (if b < a then X b a else 0)) := by
        simp only [Finset.sum_add_distrib]
        rw [hswap]
    _ = ∑ a : Fin n, ∑ b : Fin n, X a b := by
        simp only [← Finset.sum_add_distrib]
        apply Finset.sum_congr rfl
        intro a _
        apply Finset.sum_congr rfl
        intro b _
        exact (hR a b).symm

theorem forLoop_succ {σ : Type} (body : Nat → σ → σ) (n : Nat) (s : σ) :
    forLoop body 0 (n + 1) s = body n (forLoop body 0 n s) := by
  unfold forLoop
  simp [List.range'_concat]

theorem forLoop_zero {σ : Type} (body : Nat → σ → σ) (s : σ) : forLoop body 0 0 s = s := by
  simp [forLoop]

section maps
variable [DecidableEq NR]

theorem mapFind_mapAdd (m : PercentageMap NR) (k : NR) (x : ℚ) (k1 : NR) :
    mapFind (mapAdd m k x) k1
      = if k = k1 then some (mapValue m k + x) else mapFind m k1 := by
  induction m with
  | nil =>
    by_cases h : k = k1
    · simp [mapAdd, mapFind, mapValue, h]
    · simp [mapAdd, mapFind, mapValue, h]
  | cons e m ih =>
    obtain ⟨k0, v0⟩ := e
    by_cases h0 : k0 = k
    · subst h0
      by_cases h : k0 = k1
      · simp [mapAdd, mapFind, mapValue, h]
      · simp [mapAdd, mapFind, mapValue, h]
    · by_cases h : k = k1
      · subst h
        simp [mapAdd, mapFind, mapValue, h0, ih]
      · by_cases h1 : k0 = k1
        · subst h1
          simp [mapAdd, mapFind, h0, h]
        · simp [mapAdd, mapFind, mapValue, h0, h, h1, ih]

theorem mapFind_mapAssign (m : PercentageMap NR) (k : NR) (v : ℚ) (k1 : NR) :
    mapFind (mapAssign m k v) k1 = if k = k1 then some v else mapFind m k1 := by
  induction m with
  | nil =>
    by_cases h : k = k1
    · simp [mapAssign, mapFind, h]
    · simp [mapAssign, mapFind, h]
  | cons e m ih =>
    obtain ⟨k0, v0⟩ := e
    by_cases h0 : k0 = k
    · subst h0
      by_cases h : k0 = k1
      · simp [mapAssign, mapFind, h]
      · simp [mapAssign, mapFind, h]
    · by_cases h : k = k1
      · subst h
        simp [mapAssign, mapFind, h0, ih]
      · by_cases h1 : k0 = k1
        · subst h1
          simp [mapAssign, mapFind, h0, h]
        · simp [mapAssign, mapFind, h0, h, h1, ih]

theorem mapTotal_mapAdd (m : PercentageMap NR) (k : NR) (x : ℚ) :
    mapTotal (mapAdd m k x) = mapTotal m + x := by
  induction m with
  | nil => simp [mapAdd, mapTotal]
  | cons e m ih =>
    obtain ⟨k0, v0⟩ := e
    unfold mapTotal at ih ⊢
    by_cases h0 : k0 = k
    · simp [mapAdd, h0]; ring
    · simp [mapAdd, h0, ih]; ring

theorem mapTotal_mapAssign (m : PercentageMap NR) (k : NR) (h : mapFind m k = none) :
    mapTotal (mapAssign m k 0) = mapTotal m := by
  induction m with
  | nil => simp [mapAssign, mapTotal]
  | cons e m ih =>
    obtain ⟨k0, v0⟩ := e
    unfold mapTotal at ih ⊢
    by_cases h0 : k0 = k
    · simp [mapFind, h0] at h
    · simp only [mapFind, h0, if_false] at h
      simp [mapAssign, h0, ih h]

theorem mem_keys_iff (m : PercentageMap NR) (k : NR) :
    k ∈ m.map Prod.fst ↔ (mapFind m k).isSome = true := by
  induction m with
  | nil => simp [mapFind]
  | cons e m ih =>
    obtain ⟨k0, v0⟩ := e
    by_cases h0 : k0 = k
    · simp [mapFind, h0]
    · have h1 : ¬ k = k0 := fun e => h0 e.symm
      simp [mapFind, h0, h1, ih]

theorem keys_mapAdd (m : PercentageMap NR) (k : NR) (x : ℚ) :
    (mapAdd m k x).map Prod.fst
      = if k ∈ m.map Prod.fst then m.map Prod.fst else m.map Prod.fst ++ [k] := by
  induction m with
  | nil => simp [mapAdd]
  | cons e m ih =>
    obtain ⟨k0, v0⟩ := e
    by_cases h0 : k0 = k
    · subst h0
      simp [mapAdd]
    · have h1 : ¬ k = k0 := fun e => h0 e.symm
      simp only [mapAdd, h0, if_false, List.map_cons, ih, List.mem_cons, h1, false_or]
      split_ifs <;> simp

theorem keys_mapAssign (m : PercentageMap NR) (k : NR) (v : ℚ) :
    (mapAssign m k v).map Prod.fst
      = if k ∈ m.map Prod.fst then m.map Prod.fst else m.map Prod.fst ++ [k] := by
  induction m with
  | nil => simp [mapAssign]
  | cons e m ih =>
    obtain ⟨k0, v0⟩ := e
    by_cases h0 : k0 = k
    · subst h0
      simp [mapAssign]
    · have h1 : ¬ k = k0 := fun e => h0 e.symm
      simp only [mapAssign, h0, if_false, List.map_cons, ih, List.mem_cons, h1, false_or]
      split_ifs <;> simp

theorem nodup_append_singleton {α : Type} (l : List α) (k : α) (h : l.Nodup) (hk : k ∉ l) :
    (l ++ [k]).Nodup := by
  rw [List.nodup_append]
  refine ⟨h, List.nodup_singleton k, ?_⟩
  intro a ha hb
  rw [List.mem_singleton] at hb
  subst hb
  exact hk ha

theorem keys_nodup_mapAdd (m : PercentageMap NR) (k : NR) (x : ℚ)
    (h : (m.map Prod.fst).Nodup) : ((mapAdd m k x).map Prod.fst).Nodup := by
  rw [keys_mapAdd]
  split_ifs with hk
  · exact h
  · exact nodup_append_singleton _ _ h hk

theorem keys_nodup_mapAssign (m : PercentageMap NR) (k : NR) (v : ℚ)
    (h : (m.map Prod.fst).Nodup) : ((mapAssign m k v).map Prod.fst).Nodup := by
  rw [keys_mapAssign]
  split_ifs with hk
  · exact h
  · exact nodup_append_singleton _ _ h hk

end maps

section maps
variable [DecidableEq NR]

theorem mapValue_mapAdd (m : PercentageMap NR) (k : NR) (x : ℚ) (k1 : NR) :
    mapValue (mapAdd m k x) k1 = mapValue m k1 + (if k = k1 then x else 0) := by
  unfold mapValue
  rw [mapFind_mapAdd]
  by_cases h : k = k1
  · subst h
    simp [mapValue]
  · simp [h]

theorem isSome_mapAdd (m : PercentageMap NR) (k : NR) (x : ℚ) (k1 : NR) :
    (mapFind (mapAdd m k x) k1).isSome = true ↔
      ((mapFind m k1).isSome = true ∨ k = k1) := by
  rw [mapFind_mapAdd]
  by_cases h : k = k1
  · simp [h]
  · simp [h]

/-- The step `if(percentages.find(k) == percentages.end()) percentages[k] = 0.;`. -/
theorem mapValue_ensure (m : PercentageMap NR) (k k1 : NR) :
    mapValue (if mapFind m k = none then mapAssign m k 0 else m) k1 = mapValue m k1 := by
  by_cases h : mapFind m k = none
  · rw [if_pos h]
    unfold mapValue
    rw [mapFind_mapAssign]
    by_cases hk : k = k1
    · subst hk
      simp [h]
    · simp [hk]
  · rw [if_neg h]

theorem isSome_ensure (m : PercentageMap NR) (k k1 : NR) :
    (mapFind (if mapFind m k = none then mapAssign m k 0 else m) k1).isSome = true ↔
      ((mapFind m k1).isSome = true ∨ k = k1) := by
  by_cases h : mapFind m k = none
  · rw [if_pos h, mapFind_mapAssign]
    by_cases hk : k = k1
    · simp [hk]
    · simp [hk]
  · rw [if_neg h]
    constructor
    · intro h1
      exact Or.inl h1
    · rintro (h1 | h1)
      · exact h1
      · subst h1
        cases hf : mapFind m k with
        | none => exact absurd hf h
        | some v => rfl

theorem mapTotal_ensure (m : PercentageMap NR) (k : NR) :
    mapTotal (if mapFind m k = none then mapAssign m k 0 else m) = mapTotal m := by
  by_cases h : mapFind m k = none
  · rw [if_pos h, mapTotal_mapAssign m k h]
  · rw [if_neg h]

theorem keys_nodup_ensure (m : PercentageMap NR) (k : NR) (h : (m.map Prod.fst).Nodup) :
    ((if mapFind m k = none then mapAssign m k 0 else m).map Prod.fst).Nodup := by
  split_ifs
  · exact keys_nodup_mapAssign m k 0 h
  · exact h

theorem percentagesJStates_spec (V : Nat → ℚ) (N solution : Nat) (nr : NR) (n : Nat)
    (m : PercentageMap NR) (j : Nat) :
    (percentagesJStates V N solution nr n (m, j)).2 = j + n ∧
    (∀ k, mapValue (percentagesJStates V N solution nr n (m, j)).1 k
      = mapValue m k
        + if nr = k then ∑ a ∈ Finset.range n, rowPercent V N solution (j + a) else 0) ∧
    (∀ k, (mapFind (percentagesJStates V N solution nr n (m, j)).1 k).isSome = true ↔
      ((mapFind m k).isSome = true ∨ (nr = k ∧ 0 < n))) ∧
    mapTotal (percentagesJStates V N solution nr n (m, j)).1
      = mapTotal m + ∑ a ∈ Finset.range n, rowPercent V N solution (j + a) ∧
    ((m.map Prod.fst).Nodup →
      ((percentagesJStates V N solution nr n (m, j)).1.map Prod.fst).Nodup) := by
  induction n with
  | zero =>
    unfold percentagesJStates
    rw [forLoop_zero]
    simp
  | succ n ih =>
    obtain ⟨h1, h2, h3, h4, h5⟩ := ih
    unfold percentagesJStates at h1 h2 h3 h4 h5 ⊢
    rw [forLoop_succ]
    simp only
    refine ⟨by rw [h1]; omega, ?_, ?_, ?_, ?_⟩
    · intro k
      rw [mapValue_mapAdd, h2, h1]
      by_cases hk : nr = k
      · simp only [hk, if_true, Finset.sum_range_succ, rowPercent]
        ring
      · simp [hk]
    · intro k
      rw [isSome_mapAdd, h3]
      by_cases hk : nr = k
      · simp [hk]
      · simp [hk]
    · rw [mapTotal_mapAdd, h4, h1, Finset.sum_range_succ]
      simp only [rowPercent]
      ring
    · intro hnd
      exact keys_nodup_mapAdd _ _ _ (h5 hnd)

end maps

/-- C1: for every worker count `W ≥ 1` the ownership test of `GenerateMatrix` selects each
block position for exactly one rank below `W`; every block pair `(i, j)` with `i ≤ j` is
processed by exactly one worker, and once only; the set of pairs processed over all workers is
the set of all pairs `i ≤ j < K`, hence the same for any two worker counts `W` and `W2`. -/
theorem ownership_partitions_block_pairs (W W2 : Nat) (hW : 1 ≤ W) (hW2 : 1 ≤ W2)
    (configs : List (RelativisticConfig Proj NR)) :
    (∀ b, b < configs.length → ∃! r, r < W ∧ b ∈ ownedBlocks W r configs) ∧
    (∀ i j, i ≤ j → j < configs.length →
      ∃! r, r < W ∧ (i, j) ∈ processedPairs W r configs) ∧
    (∀ r, r < W → (processedPairs W r configs).Nodup) ∧
    (∀ i j, (∃ r, r < W ∧ (i, j) ∈ processedPairs W r configs) ↔
      (i ≤ j ∧ j < configs.length)) ∧
    (∀ i j, (∃ r, r < W ∧ (i, j) ∈ processedPairs W r configs) ↔
      (∃ r, r < W2 ∧ (i, j) ∈ processedPairs W2 r configs)) := by
  have hall : ∀ (W1 : Nat), 1 ≤ W1 → ∀ i j,
      (∃ r, r < W1 ∧ (i, j) ∈ processedPairs W1 r configs) ↔
        (i ≤ j ∧ j < configs.length) := by
    intro W1 hW1 i j
    constructor
    · rintro ⟨r, _, hr⟩
      rw [mem_processedPairs W1 r hW1] at hr
      exact ⟨hr.1, hr.2.1⟩
    · rintro ⟨h1, h2⟩
      have hp := procAt_range W1 i hW1
      obtain ⟨r, ⟨hr, ho⟩, _⟩ := existsUnique_owner W1 (procAt W1 i) hp.1 hp.2
      exact ⟨r, hr, (mem_processedPairs W1 r hW1 configs i j).2 ⟨h1, h2, ho⟩⟩
  refine ⟨?_, ?_, ?_, hall W hW, ?_⟩
  · intro b hb
    have hp := procAt_range W b hW
    obtain ⟨r, ⟨hr, ho⟩, huniq⟩ := existsUnique_owner W (procAt W b) hp.1 hp.2
    refine ⟨r, ⟨hr, (mem_ownedBlocks W r hW configs b).2 ⟨hb, ho⟩⟩, ?_⟩
    rintro r1 ⟨hr1, hm⟩
    exact huniq r1 ⟨hr1, ((mem_ownedBlocks W r1 hW configs b).1 hm).2⟩
  · intro i j hij hj
    have hp := procAt_range W i hW
    obtain ⟨r, ⟨hr, ho⟩, huniq⟩ := existsUnique_owner W (procAt W i) hp.1 hp.2
    refine ⟨r, ⟨hr, (mem_processedPairs W r hW configs i j).2 ⟨hij, hj, ho⟩⟩, ?_⟩
    rintro r1 ⟨hr1, hm⟩
    exact huniq r1 ⟨hr1, ((mem_processedPairs W r1 hW configs i j).1 hm).2.2⟩
  · intro r _
    exact processedPairs_nodup W r hW configs
  · intro i j
    rw [hall W hW, hall W2 hW2]

/-- C1, instance: three blocks shared by two workers, compared with three workers; the pair
`(1, 2)` has exactly one worker. -/
theorem ownership_partitions_block_pairs_witness :
    1 ≤ 2 ∧ 1 ≤ 3 ∧ (1 ≤ 2 ∧ 2 < sampleConfigs.length) ∧
      ∃! r, r < 2 ∧ (1, 2) ∈ processedPairs 2 r sampleConfigs :=
  ⟨by decide, by decide, ⟨by decide, by decide⟩,
    (ownership_partitions_block_pairs 2 3 (by decide) (by decide) sampleConfigs).2.1 1 2
      (by decide) (by decide)⟩

/-- Evaluation on the sample data: six blocks shared by two workers. -/
theorem ownedBlocks_sample :
    ownedBlocks 2 0 (sampleConfigs ++ sampleConfigs) = [1, 2, 5] ∧
      ownedBlocks 2 1 (sampleConfigs ++ sampleConfigs) = [0, 3, 4] ∧
      processedPairs 2 0 sampleConfigs = [(1, 1), (1, 2), (2, 2)] ∧
      processedPairs 2 1 sampleConfigs = [(0, 0), (0, 1), (0, 2)] := by
  decide

/-- C2: starting from the cleared matrix, `GenerateMatrix` run by a worker that owns the block
`bi` leaves in the cell `(i + a, j + b)` of every block `bj ≥ bi` (with `a ≤ b` on the
diagonal block) exactly the sum, over the projection pairs with `|H(p,q)| > 1e-16`, of
`coefficients_i[a*|proj_i| + p] * coefficients_j[b*|proj_j| + q] * H(p,q)`; every cell that is
not of this form for an owned block stays 0; and a projection pair with `|H(p,q)| ≤ 1e-16`
leaves the whole matrix as it was. -/
theorem GenerateMatrix_cell_values (ops : Operators Proj Elec) (W r : Nat) (hW : 1 ≤ W)
    (configs : List (RelativisticConfig Proj NR)) :
    (∀ (bi bj : Fin configs.length) (a b : Nat),
      bi.val ∈ ownedBlocks W r configs → bi ≤ bj →
      a < (configs.get bi).NumJStates → b < (configs.get bj).NumJStates →
      (bi = bj → a ≤ b) →
      GenerateMatrix ops W r configs (rowOffset configs bi.val + a)
          (rowOffset configs bj.val + b)
        = ∑ p : Fin (configs.get bi).GetProjections.length,
            ∑ q : Fin (configs.get bj).GetProjections.length,
              if |ops.GetProjectionH ((configs.get bi).GetProjections.get p)
                  ((configs.get bj).GetProjections.get q)| > 1 / 10 ^ 16 then
                (configs.get bi).GetJCoefficients
                    (a * (configs.get bi).GetProjections.length + p.val)
                  * (configs.get bj).GetJCoefficients
                    (b * (configs.get bj).GetProjections.length + q.val)
                  * ops.GetProjectionH ((configs.get bi).GetProjections.get p)
                    ((configs.get bj).GetProjections.get q)
              else 0) ∧
    (∀ x y : Nat,
      (¬ ∃ (bi bj : Fin configs.length) (a b : Nat),
        bi.val ∈ ownedBlocks W r configs ∧ bi ≤ bj ∧
        a < (configs.get bi).NumJStates ∧ b < (configs.get bj).NumJStates ∧
        (bi = bj → a ≤ b) ∧
        x = rowOffset configs bi.val + a ∧ y = rowOffset configs bj.val + b) →
      GenerateMatrix ops W r configs x y = 0) ∧
    (∀ (ci cj : RelativisticConfig Proj NR) (i j : Nat) (p : Proj) (pi : Nat) (q : Proj)
      (pj : Nat) (M : MPIMatrix), |ops.GetProjectionH p q| ≤ 1 / 10 ^ 16 →
      generateProjectionPair ops ci cj i j p pi q pj M = M) :=
  ⟨fun bi bj a b hown hle ha hb hab =>
      GenerateMatrix_owned_cell ops W r hW configs bi bj a b hown hle ha hb hab,
    fun x y h => GenerateMatrix_other_cell ops W r hW configs x y h,
    fun ci cj i j p pi q pj M h => generateProjectionPair_negligible ops ci cj i j p pi q pj M h⟩

/-- Evaluation on the sample data: worker 0 of 2 owns block 1 (rows 2 and 3); the cell
`(2, 5)` receives `1 * 3 * 1 + 2 * 4 * 1`. -/
theorem GenerateMatrix_sample_cell : GenerateMatrix sampleOps 2 0 sampleConfigs 2 5 = 11 := by
  simp [GenerateMatrix, generateLoop, generateInner, generateBlockPair, forEachIdx,
    generateProjectionPair, forLoop, sampleOps, sampleConfigs, sampleConfig, isOwner, nextProc,
    List.range']
  unfold MPIMatrix.addAt MPIMatrix.Clear
  norm_num

/-- C2, instance: with two workers, worker 0 owns block 1 of the sample list; the cell in row 0
of block 1 and column 1 of block 2. -/
theorem GenerateMatrix_cell_values_witness :
    1 ≤ 2 ∧
      GenerateMatrix sampleOps 2 0 sampleConfigs (rowOffset sampleConfigs 1 + 0)
          (rowOffset sampleConfigs 2 + 1)
        = ∑ p : Fin 2, ∑ q : Fin 2,
            if |sampleOps.GetProjectionH ([0, 1].get p) ([0, 1].get q)| > 1 / 10 ^ 16 then
              sampleConfig.GetJCoefficients (0 * 2 + p.val)
                * sampleConfig.GetJCoefficients (1 * 2 + q.val)
                * sampleOps.GetProjectionH ([0, 1].get p) ([0, 1].get q)
            else 0 :=
  ⟨by decide,
    (GenerateMatrix_cell_values sampleOps 2 0 (by decide) sampleConfigs).1
      ⟨1, by decide⟩ ⟨2, by decide⟩ 0 1 (by decide) (by decide) (by decide) (by decide)
      (by decide)⟩

/-- C3: in exact arithmetic, for every worker count `W ≥ 1` and every solution `s`, the sum
over the ranks `0..W-1` of the partial totals (`total` of `GetgFactors`, `my_total` of
`GetEigenvalues`) equals the total a single worker computes on the same configurations and
eigenvectors. -/
theorem reduced_totals_independent_of_worker_count (ops : Operators Proj Elec)
    (W NumSolutions N : Nat) (V : Nat → ℚ) (configs : List (RelativisticConfig Proj NR))
    (uninit : Nat → ℚ) (s : Nat) (hW : 1 ≤ W) (hs : s < NumSolutions) :
    (∑ r ∈ Finset.range W, GetgFactors.total ops W r NumSolutions N V configs uninit s
        = GetgFactors.total ops 1 0 NumSolutions N V configs uninit s) ∧
    (∑ r ∈ Finset.range W, GetEigenvalues.my_total ops W r NumSolutions N V configs uninit s
        = GetEigenvalues.my_total ops 1 0 NumSolutions N V configs uninit s) := by
  constructor
  · simp only [total_eq ops _ _ NumSolutions N V configs uninit s hs]
    exact sum_blockVisits_ranks W hW _ configs
  · simp only [my_total_eq ops _ _ NumSolutions N V configs uninit s hs]
    exact sum_blockVisits_ranks W hW _ configs

/-- C3, instance: three blocks, two workers, one solution. -/
theorem reduced_totals_independent_of_worker_count_witness :
    1 ≤ 2 ∧ 0 < 1 ∧
      (∑ r ∈ Finset.range 2,
          GetgFactors.total sampleOps 2 r 1 6 (fun _ => 1) sampleConfigs (fun _ => 0) 0
        = GetgFactors.total sampleOps 1 0 1 6 (fun _ => 1) sampleConfigs (fun _ => 0) 0) ∧
      (∑ r ∈ Finset.range 2,
          GetEigenvalues.my_total sampleOps 2 r 1 6 (fun _ => 1) sampleConfigs (fun _ => 0) 0
        = GetEigenvalues.my_total sampleOps 1 0 1 6 (fun _ => 1) sampleConfigs
            (fun _ => 0) 0) :=
  ⟨by decide, by decide,
    reduced_totals_independent_of_worker_count sampleOps 2 1 6 (fun _ => 1) sampleConfigs
      (fun _ => 0) 0 (by decide) (by decide)⟩

/-- C4: for `two_j = 0`, `GetgFactors` leaves `g_factors[s] = 0` for every `s < NumSolutions`,
at every rank and whatever the configurations, operators and eigenvectors are. -/
theorem GetgFactors_two_j_zero (ops : Operators Proj Elec) (W NumSolutions N : Nat)
    (V : Nat → ℚ) (configs : List (RelativisticConfig Proj NR)) (uninit : Nat → ℚ)
    (g_factors : Nat → Nat → ℚ) (rank s : Nat) (hs : s < NumSolutions) :
    GetgFactors ops W NumSolutions N V configs uninit 0 g_factors rank s = 0 := by
  unfold GetgFactors
  simp only [if_true]
  rw [forLoop_update_apply (fun _ _ => (0 : ℚ)), if_pos ⟨Nat.zero_le _, hs⟩]

/-- C4, instance: two solutions, an input array filled with 5. -/
theorem GetgFactors_two_j_zero_witness :
    1 < 2 ∧
      GetgFactors sampleOps 2 2 6 (fun _ => 1) sampleConfigs (fun _ => 3) 0
        (fun _ _ => 5) 0 1 = 0 :=
  ⟨by decide,
    GetgFactors_two_j_zero sampleOps 2 2 6 (fun _ => 1) sampleConfigs (fun _ => 3)
      (fun _ _ => 5) 0 1 (by decide)⟩

/-- C5: for `two_j ≠ 0` the g-factor `GetgFactors` leaves at rank 0 for a solution `s` is
`T / (two_j / 2) + 1`, where `T` is the sum over all workers of their partial totals for `s`
and the division `two_j / 2` is exact, not an integer division. -/
theorem GetgFactors_lande (ops : Operators Proj Elec) (W NumSolutions N : Nat)
    (V : Nat → ℚ) (configs : List (RelativisticConfig Proj NR)) (uninit : Nat → ℚ)
    (two_j : Nat) (g_factors : Nat → Nat → ℚ) (s : Nat) (htj : two_j ≠ 0)
    (hs : s < NumSolutions) :
    GetgFactors ops W NumSolutions N V configs uninit two_j g_factors 0 s
      = (∑ r ∈ Finset.range W, GetgFactors.total ops W r NumSolutions N V configs uninit s)
          / ((two_j : ℚ) / 2) + 1 := by
  unfold GetgFactors
  rw [if_neg htj]
  rw [forLoop_update_apply (fun _ x => x / ((two_j : ℚ) / 2) + 1),
    if_pos ⟨Nat.zero_le _, hs⟩]
  unfold Bcast Reduce
  simp [hs]

/-- C5, instance: `two_j = 3`, two workers, one solution. -/
theorem GetgFactors_lande_witness :
    (3 : Nat) ≠ 0 ∧ 0 < 1 ∧
      GetgFactors sampleOps 2 1 6 (fun _ => 1) sampleConfigs (fun _ => 0) 3 (fun _ _ => 5) 0 0
        = (∑ r ∈ Finset.range 2,
            GetgFactors.total sampleOps 2 r 1 6 (fun _ => 1) sampleConfigs (fun _ => 0) 0)
            / (((3 : Nat) : ℚ) / 2) + 1 :=
  ⟨by decide, by decide,
    GetgFactors_lande sampleOps 2 1 6 (fun _ => 1) sampleConfigs (fun _ => 0) 3
      (fun _ _ => 5) 0 (by decide) (by decide)⟩

theorem forLoop_sum (f : Nat → ℚ) (n : Nat) :
    forLoop (fun e m => m + f e) 0 n (0 : ℚ) = ∑ e ∈ Finset.range n, f e := by
  have h := forLoop_observe (fun m : ℚ => m) (fun e m => m + f e) f (fun _ _ => rfl) 0 n 0
  simp only [zero_add] at h
  rw [h, Finset.range_eq_Ico]

/-- C7: the one-body element of `GetgFactors` for a projection pair `(p, q)` is the sum of
`GetSz(p[e])` over `e < num_electrons` when `GetProjectionDifferences` returns 0, is
`GetSz(p[diff[0]], q[diff[1]])` when it returns `+1`, is the negation of that value when it
returns `-1`, and is 0 for every other return value, in which case the body of the projection
loops leaves the totals (and the scratch array) as they were. -/
theorem gMatrixElement_by_num_diff (ops : Operators Proj Elec)
    (num_electrons NumSolutions N : Nat) (V : Nat → ℚ) (ci cj : RelativisticConfig Proj NR)
    (i j : Nat) (p : Proj) (pi : Nat) (q : Proj) (pj : Nat) (st : Totals) :
    ((ops.GetProjectionDifferences p q).1 = 0 →
      gMatrixElement ops num_electrons p q
        = ∑ e ∈ Finset.range num_electrons, ops.GetSz (ops.electron p e)) ∧
    ((ops.GetProjectionDifferences p q).1 = 1 →
      gMatrixElement ops num_electrons p q
        = ops.GetSzPair (ops.electron p ((ops.GetProjectionDifferences p q).2 0))
            (ops.electron q ((ops.GetProjectionDifferences p q).2 1))) ∧
    ((ops.GetProjectionDifferences p q).1 = -1 →
      gMatrixElement ops num_electrons p q
        = -ops.GetSzPair (ops.electron p ((ops.GetProjectionDifferences p q).2 0))
            (ops.electron q ((ops.GetProjectionDifferences p q).2 1))) ∧
    ((ops.GetProjectionDifferences p q).1 ≠ 0 → (ops.GetProjectionDifferences p q).1 ≠ 1 →
      (ops.GetProjectionDifferences p q).1 ≠ -1 →
      gMatrixElement ops num_electrons p q = 0 ∧
        gProjectionPair ops num_electrons NumSolutions N V ci cj i j p pi q pj st = st) := by
  refine ⟨?_, ?_, ?_, ?_⟩
  · intro h
    unfold gMatrixElement
    simp only [h, if_true]
    exact forLoop_sum _ _
  · intro h
    unfold gMatrixElement
    simp [h]
  · intro h
    unfold gMatrixElement
    simp [h]
  · intro h0 h1 h2
    have habs : ¬ |(ops.GetProjectionDifferences p q).1| = 1 := by
      intro h
      rcases (abs_eq (by norm_num : (0 : ℤ) ≤ 1)).1 h with h | h
      · exact h1 h
      · exact h2 h
    have hm : gMatrixElement ops num_electrons p q = 0 := by
      unfold gMatrixElement
      simp only [h0, habs, if_false]
    refine ⟨hm, ?_⟩
    unfold gProjectionPair accumulatePair
    simp [hm]

/-- C7, instance: equal sample projections differ in no electron, different ones in two. -/
theorem gMatrixElement_by_num_diff_witness :
    ((sampleOps.GetProjectionDifferences 0 0).1 = 0 ∧
      gMatrixElement sampleOps 1 0 0
        = ∑ e ∈ Finset.range 1, sampleOps.GetSz (sampleOps.electron 0 e)) ∧
    ((sampleOps.GetProjectionDifferences 0 1).1 ≠ 0 ∧
      (sampleOps.GetProjectionDifferences 0 1).1 ≠ 1 ∧
      (sampleOps.GetProjectionDifferences 0 1).1 ≠ -1 ∧
      gMatrixElement sampleOps 1 0 1 = 0) :=
  ⟨⟨by decide,
      (gMatrixElement_by_num_diff sampleOps 1 1 6 (fun _ => 1) sampleConfig sampleConfig 0 0
        0 0 0 0 ⟨fun _ => 0, fun _ => 0⟩).1 (by decide)⟩,
    ⟨by decide, by decide, by decide,
      ((gMatrixElement_by_num_diff sampleOps 1 1 6 (fun _ => 1) sampleConfig sampleConfig 0 0
        0 0 1 1 ⟨fun _ => 0, fun _ => 0⟩).2.2.2 (by decide) (by decide) (by decide)).1⟩⟩

theorem coeffSum_eq_zero_of_empty (N : Nat) (V : Nat → ℚ) (ci cj : RelativisticConfig Proj NR)
    (i j pi pj s : Nat) (h : ci.NumJStates = 0) : coeffSum N V ci cj i j pi pj s = 0 := by
  unfold coeffSum
  rw [h, Finset.range_zero, Finset.sum_empty]

/-- The doubling test `i != j` on the row offsets agrees with the test on the block positions
wherever the coefficient sum is not 0. -/
theorem pairAmount_blocks (NumSolutions N : Nat) (V : Nat → ℚ)
    (configs : List (RelativisticConfig Proj NR)) (bi bj : Fin configs.length) (hle : bi ≤ bj)
    (pi pj : Nat) (matrix_element : ℚ) (s : Nat) (hs : s < NumSolutions) :
    pairAmount NumSolutions N V (configs.get bi) (configs.get bj) (rowOffset configs bi.val)
        (rowOffset configs bj.val) pi pj matrix_element s
      = (if bi = bj then 1 else 2) * matrix_element
          * coeffSum N V (configs.get bi) (configs.get bj) (rowOffset configs bi.val)
              (rowOffset configs bj.val) pi pj s := by
  unfold pairAmount
  rw [if_pos hs]
  by_cases hbb : bi = bj
  · subst hbb
    simp
  · rw [if_neg hbb]
    by_cases hij : rowOffset configs bi.val ≠ rowOffset configs bj.val
    · rw [if_pos hij]
    · have hlt : bi.val < bj.val := by
        have h1 : bi.val ≠ bj.val := fun h => hbb (Fin.ext h)
        have h2 : bi.val ≤ bj.val := hle
        omega
      have h3 := rowOffset_block_le configs bi.val bj.val (configs.get bi) (by simp) hlt
      have h4 : (configs.get bi).NumJStates = 0 := by omega
      rw [coeffSum_eq_zero_of_empty N V _ _ _ _ _ _ _ h4]
      simp

/-- C8: in `GetgFactors` and in `GetEigenvalues`, the amount the projection pair `(p, q)` of
the blocks at list positions `bi ≤ bj` (row offsets `i ≤ j`) adds to the total of a solution
`s` is `f * M(p,q) * Σ_a Σ_b c_i[a,p] * c_j[b,q] * V[s*N + i + a] * V[s*N + j + b]`, with
`f = 1` when the two blocks are the same block and `f = 2` when they differ. -/
theorem pair_contribution_doubled_off_diagonal (ops : Operators Proj Elec)
    (num_electrons NumSolutions N : Nat) (V : Nat → ℚ)
    (configs : List (RelativisticConfig Proj NR)) (bi bj : Fin configs.length)
    (p : Proj) (pi : Nat) (q : Proj) (pj : Nat) (st : Totals) (s : Nat)
    (hle : bi ≤ bj) (hs : s < NumSolutions) :
    ((gProjectionPair ops num_electrons NumSolutions N V (configs.get bi) (configs.get bj)
          (rowOffset configs bi.val) (rowOffset configs bj.val) p pi q pj st).total s
        - st.total s
      = (if bi = bj then 1 else 2) * gMatrixElement ops num_electrons p q
          * ∑ a ∈ Finset.range (configs.get bi).NumJStates,
              ∑ b ∈ Finset.range (configs.get bj).NumJStates,
                (configs.get bi).GetJCoefficients
                    (a * (configs.get bi).GetProjections.length + pi)
                  * (configs.get bj).GetJCoefficients
                    (b * (configs.get bj).GetProjections.length + pj)
                  * V (s * N + rowOffset configs bi.val + a)
                  * V (s * N + rowOffset configs bj.val + b)) ∧
    ((eigenProjectionPair ops NumSolutions N V (configs.get bi) (configs.get bj)
          (rowOffset configs bi.val) (rowOffset configs bj.val) p pi q pj st).total s
        - st.total s
      = (if bi = bj then 1 else 2) * ops.GetProjectionSMS p q
          * ∑ a ∈ Finset.range (configs.get bi).NumJStates,
              ∑ b ∈ Finset.range (configs.get bj).NumJStates,
                (configs.get bi).GetJCoefficients
                    (a * (configs.get bi).GetProjections.length + pi)
                  * (configs.get bj).GetJCoefficients
                    (b * (configs.get bj).GetProjections.length + pj)
                  * V (s * N + rowOffset configs bi.val + a)
                  * V (s * N + rowOffset configs bj.val + b)) := by
  constructor
  · unfold gProjectionPair
    rw [accumulatePair_total, pairAmount_blocks NumSolutions N V configs bi bj hle _ _ _ s hs]
    unfold coeffSum
    ring
  · unfold eigenProjectionPair
    rw [accumulatePair_total, pairAmount_blocks NumSolutions N V configs bi bj hle _ _ _ s hs]
    unfold coeffSum
    ring

/-- C8, instance: blocks 0 and 1 of the sample list, equal projections, one solution. -/
theorem pair_contribution_doubled_off_diagonal_witness :
    (⟨0, by decide⟩ : Fin sampleConfigs.length) ≤ ⟨1, by decide⟩ ∧ 0 < 1 ∧
      (eigenProjectionPair sampleOps 1 6 (fun _ => 1) sampleConfig sampleConfig 0 2 0 0 0 0
          ⟨fun _ => 0, fun _ => 0⟩).total 0 - 0 = 32 := by
  refine ⟨by decide, by decide, ?_⟩
  have h := (pair_contribution_doubled_off_diagonal sampleOps 1 1 6 (fun _ => 1) sampleConfigs
    ⟨0, by decide⟩ ⟨1, by decide⟩ 0 0 0 0 ⟨fun _ => 0, fun _ => 0⟩ 0 (by decide)
    (by decide)).2
  refine h.trans ?_
  simp [sampleConfigs, sampleConfig, sampleOps, rowOffset, Finset.sum_range_succ]
  norm_num

theorem undoubledBlock_eq (me : Proj → Proj → ℚ) (NumSolutions N : Nat) (V : Nat → ℚ)
    (ci cj : RelativisticConfig Proj NR) (i j : Nat) (coeff : Nat → ℚ) (s : Nat)
    (hs : s < NumSolutions) :
    undoubledBlock me NumSolutions N V ci cj i j coeff s
      = ∑ p : Fin ci.GetProjections.length, ∑ q : Fin cj.GetProjections.length,
          me (ci.GetProjections.get p) (cj.GetProjections.get q)
            * coeffSum N V ci cj i j p.val q.val s := by
  unfold undoubledBlock
  apply Finset.sum_congr rfl
  intro p _
  apply Finset.sum_congr rfl
  intro q _
  unfold undoubledPair
  by_cases hm : me (ci.GetProjections.get p) (cj.GetProjections.get q) = 0
  · rw [if_neg (not_not.2 hm), hm, zero_mul]
  · rw [if_pos hm, accumulateCoeff_apply, if_pos hs, mul_comm]

theorem coeffSum_swap (N : Nat) (V : Nat → ℚ) (ci cj : RelativisticConfig Proj NR)
    (i j pi pj s : Nat) :
    coeffSum N V ci cj i j pi pj s = coeffSum N V cj ci j i pj pi s := by
  unfold coeffSum
  rw [Finset.sum_comm]
  apply Finset.sum_congr rfl
  intro b _
  apply Finset.sum_congr rfl
  intro a _
  ring

theorem undoubledBlock_swap (me : Proj → Proj → ℚ) (hsym : ∀ p q, me q p = me p q)
    (NumSolutions N : Nat) (V : Nat → ℚ) (ci cj : RelativisticConfig Proj NR) (i j : Nat)
    (c1 c2 : Nat → ℚ) (s : Nat) (hs : s < NumSolutions) :
    undoubledBlock me NumSolutions N V ci cj i j c1 s
      = undoubledBlock me NumSolutions N V cj ci j i c2 s := by
  rw [undoubledBlock_eq me NumSolutions N V ci cj i j c1 s hs,
    undoubledBlock_eq me NumSolutions N V cj ci j i c2 s hs, Finset.sum_comm]
  apply Finset.sum_congr rfl
  intro q _
  apply Finset.sum_congr rfl
  intro p _
  rw [coeffSum_swap, hsym]

theorem blockAmount_eq (me : Proj → Proj → ℚ) (NumSolutions N : Nat) (V : Nat → ℚ)
    (configs : List (RelativisticConfig Proj NR)) (bi bj : Fin configs.length) (hle : bi ≤ bj)
    (coeff : Nat → ℚ) (s : Nat) (hs : s < NumSolutions) :
    blockAmount me NumSolutions N V (configs.get bi) (configs.get bj)
        (rowOffset configs bi.val) (rowOffset configs bj.val) s
      = (if bi = bj then 1 else 2)
          * undoubledBlock me NumSolutions N V (configs.get bi) (configs.get bj)
              (rowOffset configs bi.val) (rowOffset configs bj.val) coeff s := by
  rw [undoubledBlock_eq me NumSolutions N V _ _ _ _ coeff s hs]
  unfold blockAmount
  rw [Finset.mul_sum]
  apply Finset.sum_congr rfl
  intro p _
  rw [Finset.mul_sum]
  apply Finset.sum_congr rfl
  intro q _
  rw [pairAmount_blocks NumSolutions N V configs bi bj hle _ _ _ s hs]
  ring

/-- C9: in exact arithmetic and for a one-body element that is symmetric under the exchange
of the two projections, the undoubled contribution of a pair of different blocks `(i, j)`
equals the one obtained when the pair `(j, i)` is computed with the roles of the two blocks
exchanged; hence the totals of `GetgFactors`, accumulated over the pairs `i ≤ j` with the
off-diagonal doubling and summed over the workers, equal the sum of the undoubled
contributions over all ordered pairs of blocks. -/
theorem doubled_traversal_eq_all_ordered_pairs (ops : Operators Proj Elec)
    (W NumSolutions N : Nat) (V : Nat → ℚ) (configs : List (RelativisticConfig Proj NR))
    (uninit : Nat → ℚ) (s : Nat) (hW : 1 ≤ W) (hs : s < NumSolutions)
    (hsym : ∀ p q, gMatrixElement ops (frontNumParticles configs) q p
      = gMatrixElement ops (frontNumParticles configs) p q) :
    (∀ (bi bj : Fin configs.length) (c1 c2 : Nat → ℚ), bi ≠ bj →
      undoubledBlock (gMatrixElement ops (frontNumParticles configs)) NumSolutions N V
          (configs.get bi) (configs.get bj) (rowOffset configs bi.val)
          (rowOffset configs bj.val) c1 s
        = undoubledBlock (gMatrixElement ops (frontNumParticles configs)) NumSolutions N V
            (configs.get bj) (configs.get bi) (rowOffset configs bj.val)
            (rowOffset configs bi.val) c2 s) ∧
    (∑ r ∈ Finset.range W, GetgFactors.total ops W r NumSolutions N V configs uninit s
      = orderedPairsTotal (gMatrixElement ops (frontNumParticles configs)) NumSolutions N V
          configs uninit s) := by
  constructor
  · intro bi bj c1 c2 _
    exact undoubledBlock_swap _ hsym NumSolutions N V _ _ _ _ c1 c2 s hs
  · simp only [total_eq ops _ _ NumSolutions N V configs uninit s hs]
    rw [sum_blockVisits_ranks W hW _ configs,
      sum_blockVisits_single (fun ci cj i j =>
        blockAmount (gMatrixElement ops (frontNumParticles configs)) NumSolutions N V
          ci cj i j s) configs]
    unfold orderedPairsTotal
    rw [← sum_upper_doubled (fun bi bj : Fin configs.length =>
      undoubledBlock (gMatrixElement ops (frontNumParticles configs)) NumSolutions N V
        (configs.get bi) (configs.get bj) (rowOffset configs bi.val)
        (rowOffset configs bj.val) uninit s)
      (fun a b => undoubledBlock_swap _ hsym NumSolutions N V _ _ _ _ uninit uninit s hs)]
    apply Finset.sum_congr rfl
    intro bi _
    apply Finset.sum_congr rfl
    intro bj _
    by_cases hle : bi ≤ bj
    · rw [if_pos hle, if_pos hle]
      exact blockAmount_eq _ NumSolutions N V configs bi bj hle uninit s hs
    · rw [if_neg hle, if_neg hle]

theorem sampleOps_symmetric (n : Nat) (p q : Nat) :
    gMatrixElement sampleOps n q p = gMatrixElement sampleOps n p q := by
  unfold gMatrixElement sampleOps
  by_cases h : p = q
  · subst h; rfl
  · have h2 : ¬ q = p := fun e => h e.symm
    simp [h, h2]

/-- C9, instance: the sample operators are symmetric; three blocks, two workers. -/
theorem doubled_traversal_eq_all_ordered_pairs_witness :
    1 ≤ 2 ∧ 0 < 1 ∧
      (∀ p q, gMatrixElement sampleOps (frontNumParticles sampleConfigs) q p
        = gMatrixElement sampleOps (frontNumParticles sampleConfigs) p q) ∧
      ∑ r ∈ Finset.range 2,
          GetgFactors.total sampleOps 2 r 1 6 (fun _ => 1) sampleConfigs (fun _ => 0) 0
        = orderedPairsTotal (gMatrixElement sampleOps (frontNumParticles sampleConfigs)) 1 6
            (fun _ => 1) sampleConfigs (fun _ => 0) 0 :=
  ⟨by decide, by decide, sampleOps_symmetric _,
    (doubled_traversal_eq_all_ordered_pairs sampleOps 2 1 6 (fun _ => 1) sampleConfigs
      (fun _ => 0) 0 (by decide) (by decide) (sampleOps_symmetric _)).2⟩

theorem rowOffset_cons_length (c : RelativisticConfig Proj NR)
    (rest : List (RelativisticConfig Proj NR)) :
    rowOffset (c :: rest) (c :: rest).length = c.NumJStates + rowOffset rest rest.length := by
  rw [List.length_cons, rowOffset_cons_succ]

theorem percentagesLoop_spec [DecidableEq NR] (V : Nat → ℚ) (N solution : Nat) :
    ∀ (rest : List (RelativisticConfig Proj NR)) (m : PercentageMap NR) (j : Nat),
      (∀ k, mapValue (percentagesLoop V N solution rest (m, j)).1 k
        = mapValue m k
          + ∑ b : Fin rest.length,
              if (rest.get b).GetNonRelConfiguration = k then
                ∑ a ∈ Finset.range (rest.get b).NumJStates,
                  rowPercent V N solution (j + rowOffset rest b.val + a)
              else 0) ∧
      (∀ k, (mapFind (percentagesLoop V N solution rest (m, j)).1 k).isSome = true ↔
        ((mapFind m k).isSome = true ∨ ∃ c ∈ rest, c.GetNonRelConfiguration = k)) ∧
      mapTotal (percentagesLoop V N solution rest (m, j)).1
        = mapTotal m
          + ∑ t ∈ Finset.range (rowOffset rest rest.length), rowPercent V N solution (j + t) ∧
      ((m.map Prod.fst).Nodup →
        ((percentagesLoop V N solution rest (m, j)).1.map Prod.fst).Nodup) := by
  intro rest
  induction rest with
  | nil =>
    intro m j
    simp [percentagesLoop, rowOffset]
  | cons c rest ih =>
    intro m j
    obtain ⟨h1, h2, h3, h4, h5⟩ := percentagesJStates_spec V N solution
      c.GetNonRelConfiguration c.NumJStates
      (if mapFind m c.GetNonRelConfiguration = none then
        mapAssign m c.GetNonRelConfiguration 0 else m) j
    have hstep : percentagesLoop V N solution (c :: rest) (m, j)
        = percentagesLoop V N solution rest
            ((percentagesJStates V N solution c.GetNonRelConfiguration c.NumJStates
              (if mapFind m c.GetNonRelConfiguration = none then
                mapAssign m c.GetNonRelConfiguration 0 else m, j)).1, j + c.NumJStates) := by
      rw [← h1]
      rfl
    rw [hstep]
    obtain ⟨i1, i2, i3, i4⟩ := ih
      (percentagesJStates V N solution c.GetNonRelConfiguration c.NumJStates
        (if mapFind m c.GetNonRelConfiguration = none then
          mapAssign m c.GetNonRelConfiguration 0 else m, j)).1 (j + c.NumJStates)
    refine ⟨?_, ?_, ?_, ?_⟩
    · intro k
      rw [i1, h2, mapValue_ensure]
      simp only [List.length_cons]
      rw [Fin.sum_univ_succ]
      simp only [List.get_cons_zero, Fin.val_zero, rowOffset_zero, Nat.add_zero,
        List.get_cons_succ, Fin.val_succ, rowOffset_cons_succ, Nat.add_assoc]
      rw [add_assoc]
      rfl
    · intro k
      rw [i2, h3, isSome_ensure]
      simp only [List.mem_cons, exists_eq_or_imp]
      constructor
      · rintro (((h | h) | ⟨h, _⟩) | h)
        · exact Or.inl h
        · exact Or.inr (Or.inl h)
        · exact Or.inr (Or.inl h)
        · exact Or.inr (Or.inr h)
      · rintro (h | h | h)
        · exact Or.inl (Or.inl (Or.inl h))
        · exact Or.inl (Or.inl (Or.inr h))
        · exact Or.inr h
    · rw [i3, h4, mapTotal_ensure, rowOffset_cons_length, Finset.sum_range_add]
      simp only [Nat.add_assoc, add_assoc]
    · intro hnd
      exact i4 (h5 (keys_nodup_ensure m _ hnd))

/-- C6: for every solution `s` the percentage map built by `SolveMatrix` holds, for each
non-relativistic configuration `c` that is the parent of some relativistic configuration of the
list, the value `100 * Σ V[s*N + r]^2` over the rows `r` of all relativistic configurations
whose parent is `c`, and holds no other key; the keys are distinct; with `N` the sum of
`NumJStates()` over the list, the values sum to `100 * Σ_{r < N} V[s*N + r]^2`, which is 100
for a unit-norm eigenvector. -/
theorem SolveMatrix_percentages [DecidableEq NR] (V : Nat → ℚ) (N : Nat)
    (configs : List (RelativisticConfig Proj NR)) (s : Nat) :
    (∀ k, (∃ c ∈ configs, c.GetNonRelConfiguration = k) →
      mapFind (SolveMatrix.percentages V N configs s) k
        = some (100 * ∑ b : Fin configs.length,
            if (configs.get b).GetNonRelConfiguration = k then
              ∑ a ∈ Finset.range (configs.get b).NumJStates,
                V (s * N + (rowOffset configs b.val + a)) ^ 2
            else 0)) ∧
    (∀ k, (¬ ∃ c ∈ configs, c.GetNonRelConfiguration = k) →
      mapFind (SolveMatrix.percentages V N configs s) k = none) ∧
    ((SolveMatrix.percentages V N configs s).map Prod.fst).Nodup ∧
    (N = rowOffset configs configs.length →
      mapTotal (SolveMatrix.percentages V N configs s)
        = 100 * ∑ r ∈ Finset.range N, V (s * N + r) ^ 2) ∧
    (N = rowOffset configs configs.length → ∑ r ∈ Finset.range N, V (s * N + r) ^ 2 = 1 →
      mapTotal (SolveMatrix.percentages V N configs s) = 100) := by
  obtain ⟨h1, h2, h3, h4⟩ := percentagesLoop_spec V N s configs ([] : PercentageMap NR) 0
  have htotal : N = rowOffset configs configs.length →
      mapTotal (SolveMatrix.percentages V N configs s)
        = 100 * ∑ r ∈ Finset.range N, V (s * N + r) ^ 2 := by
    intro hN
    unfold SolveMatrix.percentages
    rw [h3, ← hN, Finset.mul_sum]
    simp only [mapTotal, List.map_nil, List.sum_nil, zero_add, rowPercent]
    apply Finset.sum_congr rfl
    intro r _
    ring
  refine ⟨?_, ?_, ?_, htotal, ?_⟩
  · intro k hk
    have hs : (mapFind (SolveMatrix.percentages V N configs s) k).isSome = true :=
      (h2 k).2 (Or.inr hk)
    have hv := h1 k
    unfold SolveMatrix.percentages at hs ⊢
    cases hf : mapFind (percentagesLoop V N s configs ([], 0)).1 k with
    | none => rw [hf] at hs; exact absurd hs (by simp)
    | some v =>
      unfold mapValue at hv
      rw [hf] at hv
      simp only [Option.getD_some, mapFind, Option.getD_none, zero_add] at hv
      rw [hv, Finset.mul_sum]
      congr 1
      apply Finset.sum_congr rfl
      intro b _
      split_ifs
      · rw [Finset.mul_sum]
        apply Finset.sum_congr rfl
        intro a _
        simp only [rowPercent, Nat.add_assoc]
        ring
      · simp
  · intro k hk
    have hs := h2 k
    unfold SolveMatrix.percentages
    cases hf : mapFind (percentagesLoop V N s configs ([], 0)).1 k with
    | none => rfl
    | some v =>
      rw [hf] at hs
      rcases hs.1 rfl with h | h
      · simp [mapFind] at h
      · exact absurd h hk
  · exact h4 (by simp)
  · intro hN hunit
    rw [htotal hN, hunit, mul_one]

/-- C6, instance: each of the three sample blocks has the parent 7 and two rows, so the six
rows of an eigenvector with all components 1 give the single entry `7 ↦ 600`. -/
theorem SolveMatrix_percentages_witness :
    (∃ c ∈ sampleConfigs, c.GetNonRelConfiguration = 7) ∧
    6 = rowOffset sampleConfigs sampleConfigs.length ∧
    mapTotal (SolveMatrix.percentages (fun _ => 1) 6 sampleConfigs 0)
      = 100 * ∑ r ∈ Finset.range 6, (fun _ => (1 : ℚ)) (0 * 6 + r) ^ 2 :=
  ⟨⟨sampleConfig, by simp [sampleConfigs], rfl⟩, by decide,
    (SolveMatrix_percentages (fun _ => 1) 6 sampleConfigs 0).2.2.2.1 (by decide)⟩

/-- C10: `SolveMatrix` sets `NumSolutions` to the smaller of the requested count and the
matrix dimension `N`, for every request and every `N` (the function has no error path); so
`NumSolutions ≤ N` and `NumSolutions ≤ num_solutions`. -/
theorem SolveMatrix_clamps_NumSolutions [DecidableEq NR] (ops : Operators Proj Elec)
    (MPISolveLargeSymmetric : MPIMatrix → Nat → Nat → (Nat → ℚ) × (Nat → ℚ))
    (M : MPIMatrix) (NumProcessors N : Nat) (configs : List (RelativisticConfig Proj NR))
    (uninit : Nat → ℚ) (num_solutions two_j : Nat) (gFactors : Bool) :
    (SolveMatrix ops MPISolveLargeSymmetric M NumProcessors N configs uninit num_solutions
        two_j gFactors).NumSolutions = min num_solutions N ∧
    (SolveMatrix ops MPISolveLargeSymmetric M NumProcessors N configs uninit num_solutions
        two_j gFactors).NumSolutions ≤ N ∧
    (SolveMatrix ops MPISolveLargeSymmetric M NumProcessors N configs uninit num_solutions
        two_j gFactors).NumSolutions ≤ num_solutions := by
  have h : (SolveMatrix ops MPISolveLargeSymmetric M NumProcessors N configs uninit
      num_solutions two_j gFactors).NumSolutions = mmin num_solutions N := rfl
  rw [h]
  unfold mmin
  split_ifs with hlt
  · exact ⟨(min_eq_left (le_of_lt hlt)).symm, le_of_lt hlt, le_refl _⟩
  · exact ⟨(min_eq_right (not_lt.1 hlt)).symm, le_refl _, not_lt.1 hlt⟩

theorem testLoop_eq (W r : Nat) (hW : 1 ≤ W) :
    ∀ (rest : List (RelativisticConfig Proj NR)) (b0 : Nat),
      testLoop W r rest (procAt W b0)
        = (List.range' b0 rest.length).map (fun b =>
            { proc := procAt W b
              primary := decide (procAt W b = (r : Int))
              secondary := decide (procAt W b = -1 - (r : Int)) }) := by
  intro rest
  induction rest with
  | nil => intro b0; rfl
  | cons c rest ih =>
    intro b0
    rw [testLoop, nextProc_procAt W b0 hW, ih, List.length_cons, List.range'_succ,
      List.map_cons]

theorem ownedLoop_eq_filter (W r : Nat) (hW : 1 ≤ W) :
    ∀ (rest : List (RelativisticConfig Proj NR)) (b0 : Nat),
      ownedLoop W r rest (procAt W b0) b0
        = (List.range' b0 rest.length).filter (fun b => isOwner r (procAt W b)) := by
  intro rest
  induction rest with
  | nil => intro b0; rfl
  | cons c rest ih =>
    intro b0
    rw [ownedLoop, nextProc_procAt W b0 hW, ih, List.length_cons, List.range'_succ,
      List.filter_cons]
    by_cases ho : isOwner r (procAt W b0) = true
    · simp [ho]
    · simp [ho]

theorem ownedBlocks_eq_filter (W r : Nat) (hW : 1 ≤ W)
    (configs : List (RelativisticConfig Proj NR)) :
    ownedBlocks W r configs
      = (List.range configs.length).filter (fun b => isOwner r (procAt W b)) := by
  unfold ownedBlocks
  rw [← procAt_zero W, ownedLoop_eq_filter W r hW, List.range_eq_range']

theorem owner_role_eq (r b W : Nat) :
    (owner_role r b W = OwnerRole.row_owner_primary ↔ procAt W b = (r : Int)) ∧
    (owner_role r b W = OwnerRole.row_owner_secondary ↔ procAt W b = -1 - (r : Int)) ∧
    (owner_role r b W ≠ OwnerRole.none ↔ isOwner r (procAt W b) = true) := by
  unfold owner_role procAt
  rw [isOwner_iff]
  generalize ((b % (2 * W) : Nat) : Int) - (W : Int) = p
  by_cases h1 : p = (r : Int)
  · have h2 : ¬ p = -1 - (r : Int) := by omega
    rw [if_pos h1]
    exact ⟨⟨fun _ => h1, fun _ => rfl⟩, ⟨fun h => absurd h (by decide), fun h => absurd h h2⟩,
      ⟨fun _ => Or.inl h1, fun _ => by decide⟩⟩
  · rw [if_neg h1]
    by_cases h2 : p = -1 - (r : Int)
    · rw [if_pos h2]
      exact ⟨⟨fun h => absurd h (by decide), fun h => absurd h h1⟩, ⟨fun _ => h2, fun _ => rfl⟩,
        ⟨fun _ => Or.inr h2, fun _ => by decide⟩⟩
    · rw [if_neg h2]
      refine ⟨⟨fun h => absurd h (by decide), fun h => absurd h h1⟩,
        ⟨fun h => absurd h (by decide), fun h => absurd h h2⟩, ⟨fun h => absurd rfl h, ?_⟩⟩
      rintro (h | h)
      · exact absurd h h1
      · exact absurd h h2

/-- C12: for `W ≥ 1` the counter `proc` of `GenerateMatrix` at the block at list position `b`
is `(b mod 2W) - W` and lies in `[-W, W-1]`; for every rank `r` the two comparisons of the
loop test agree with the stateless function `owner_role(r, b, W)` (`proc == rank1` exactly when
it answers `row_owner_primary`, `proc == rank2` exactly when it answers
`row_owner_secondary`), and the blocks the loop treats as row-owned are exactly those where
`owner_role` is not `none`. -/
theorem loop_test_agrees_with_owner_role (W r : Nat) (hW : 1 ≤ W)
    (configs : List (RelativisticConfig Proj NR)) :
    ownerTests W r configs
      = (List.range configs.length).map (fun b =>
          { proc := ((b % (2 * W) : Nat) : Int) - (W : Int)
            primary := decide (owner_role r b W = OwnerRole.row_owner_primary)
            secondary := decide (owner_role r b W = OwnerRole.row_owner_secondary) }) ∧
    (∀ t ∈ ownerTests W r configs, -(W : Int) ≤ t.proc ∧ t.proc ≤ (W : Int) - 1) ∧
    ownedBlocks W r configs
      = (List.range configs.length).filter
          (fun b => decide (owner_role r b W ≠ OwnerRole.none)) := by
  have h1 : ownerTests W r configs
      = (List.range configs.length).map (fun b =>
          { proc := ((b % (2 * W) : Nat) : Int) - (W : Int)
            primary := decide (owner_role r b W = OwnerRole.row_owner_primary)
            secondary := decide (owner_role r b W = OwnerRole.row_owner_secondary) }) := by
    unfold ownerTests
    rw [← procAt_zero W, testLoop_eq W r hW, List.range_eq_range']
    apply List.map_congr_left
    intro b _
    have h := owner_role_eq r b W
    simp only [OwnerTest.mk.injEq, decide_eq_decide]
    exact ⟨rfl, h.1.symm, h.2.1.symm⟩
  refine ⟨h1, ?_, ?_⟩
  · intro t ht
    rw [h1] at ht
    obtain ⟨b, _, rfl⟩ := List.mem_map.1 ht
    have := procAt_range W b hW
    unfold procAt at this
    simp only
    omega
  · rw [ownedBlocks_eq_filter W r hW]
    apply List.filter_congr
    intro b _
    have h := (owner_role_eq r b W).2.2
    by_cases ho : isOwner r (procAt W b) = true
    · simp [ho, h.2 ho]
    · have : ¬ owner_role r b W ≠ OwnerRole.none := fun hn => ho (h.1 hn)
      simp [ho, this]

/-- C12, instance: three blocks, worker 0 of 2. -/
theorem loop_test_agrees_with_owner_role_witness :
    1 ≤ 2 ∧
      ownedBlocks 2 0 sampleConfigs
        = (List.range sampleConfigs.length).filter
            (fun b => decide (owner_role 0 b 2 ≠ OwnerRole.none)) :=
  ⟨by decide, (loop_test_agrees_with_owner_role 2 0 (by decide) sampleConfigs).2.2⟩

theorem succ_div_cases (b m : Nat) (hm : 0 < m) :
    (b % m + 1 = m ∧ (b + 1) / m = b / m + 1 ∧ (b + 1) % m = 0) ∨
    (b % m + 1 < m ∧ (b + 1) / m = b / m ∧ (b + 1) % m = b % m + 1) := by
  have hlt : b % m < m := Nat.mod_lt _ hm
  have hdm := Nat.div_add_mod b m
  by_cases h : b % m + 1 = m
  · left
    have h2 : (b + 1) / m = b / m + 1 ∧ (b + 1) % m = 0 := by
      rw [Nat.div_mod_unique hm]
      refine ⟨?_, hm⟩
      rw [Nat.mul_add, Nat.mul_one]
      omega
    exact ⟨h, h2.1, h2.2⟩
  · right
    have h2 : (b + 1) / m = b / m ∧ (b + 1) % m = b % m + 1 := by
      rw [Nat.div_mod_unique hm]
      refine ⟨?_, by omega⟩
      omega
    exact ⟨by omega, h2.1, h2.2⟩

theorem filter_range_succ_length (p : Nat → Bool) (K : Nat) :
    ((List.range (K + 1)).filter p).length
      = ((List.range K).filter p).length + (if p K = true then 1 else 0) := by
  rw [List.range_succ, List.filter_append, List.length_append]
  by_cases h : p K = true
  · simp [h]
  · simp [h]

theorem isOwner_procAt_iff (W r b : Nat) :
    isOwner r (procAt W b) = true ↔
      (b % (2 * W) = W + r ∨ b % (2 * W) + r + 1 = W) := by
  rw [isOwner_iff]
  unfold procAt
  generalize b % (2 * W) = L
  omega

/-- Number of blocks among the first `K` that the worker `r < W` owns: two in every full run of
`2W` blocks, and in the last, partial run the block at position `W-1-r` when the run reaches
it and the block at position `W+r` when the run reaches it. -/
theorem owned_count (W r : Nat) (hW : 1 ≤ W) (hr : r < W) (K : Nat) :
    ((List.range K).filter (fun b => isOwner r (procAt W b))).length
      = 2 * (K / (2 * W)) + (if W ≤ K % (2 * W) + r then 1 else 0)
          + (if W + r < K % (2 * W) then 1 else 0) := by
  induction K with
  | zero =>
    have h1 : ¬ W ≤ 0 % (2 * W) + r := by rw [Nat.zero_mod]; omega
    have h2 : ¬ W + r < 0 % (2 * W) := by rw [Nat.zero_mod]; omega
    rw [if_neg h1, if_neg h2, Nat.zero_div]
    rfl
  | succ K ih =>
    rw [filter_range_succ_length, ih]
    have hown := isOwner_procAt_iff W r K
    have hlt : K % (2 * W) < 2 * W := Nat.mod_lt _ (by omega)
    rcases succ_div_cases K (2 * W) (by omega) with ⟨h1, h2, h3⟩ | ⟨h1, h2, h3⟩
    · rw [h2, h3]
      generalize K % (2 * W) = L at *
      generalize K / (2 * W) = q at *
      by_cases ho : isOwner r (procAt W K) = true
      · have := hown.1 ho
        rw [if_pos ho]
        split_ifs <;> omega
      · have : ¬ (L = W + r ∨ L + r + 1 = W) := fun h => ho (hown.2 h)
        rw [if_neg ho]
        split_ifs <;> omega
    · rw [h2, h3]
      generalize K % (2 * W) = L at *
      generalize K / (2 * W) = q at *
      by_cases ho : isOwner r (procAt W K) = true
      · have := hown.1 ho
        rw [if_pos ho]
        split_ifs <;> omega
      · have : ¬ (L = W + r ∨ L + r + 1 = W) := fun h => ho (hown.2 h)
        rw [if_neg ho]
        split_ifs <;> omega

/-- C13: for every worker count `W ≥ 1` and every number of blocks, the numbers of row-owned
blocks of any two workers differ by at most 1. -/
theorem owned_block_counts_differ_by_at_most_one (W r1 r2 : Nat) (hW : 1 ≤ W) (hr1 : r1 < W)
    (hr2 : r2 < W) (configs : List (RelativisticConfig Proj NR)) :
    (ownedBlocks W r1 configs).length ≤ (ownedBlocks W r2 configs).length + 1 ∧
    (ownedBlocks W r2 configs).length ≤ (ownedBlocks W r1 configs).length + 1 := by
  rw [ownedBlocks_eq_filter W r1 hW, ownedBlocks_eq_filter W r2 hW,
    owned_count W r1 hW hr1, owned_count W r2 hW hr2]
  generalize configs.length % (2 * W) = L
  generalize configs.length / (2 * W) = q
  constructor <;> split_ifs <;> omega

/-- C13, instance: three blocks shared by two workers. -/
theorem owned_block_counts_differ_by_at_most_one_witness :
    1 ≤ 2 ∧ 0 < 2 ∧ 1 < 2 ∧
      (ownedBlocks 2 0 sampleConfigs).length ≤ (ownedBlocks 2 1 sampleConfigs).length + 1 :=
  ⟨by decide, by decide, by decide,
    (owned_block_counts_differ_by_at_most_one 2 0 1 (by decide) (by decide) (by decide)
      sampleConfigs).1⟩

theorem innerVisits_length (bi : Nat) (ci : RelativisticConfig Proj NR) (i : Nat) :
    ∀ (rest : List (RelativisticConfig Proj NR)) (bj j : Nat),
      (innerVisits bi ci i rest bj j).length = rest.length := by
  intro rest
  induction rest with
  | nil => intro bj j; rfl
  | cons c rest ih => intro bj j; simp [innerVisits, ih]

theorem visitLoop_length (W r : Nat) (hW : 1 ≤ W) :
    ∀ (rest : List (RelativisticConfig Proj NR)) (b0 i0 : Nat),
      (visitLoop W r rest (procAt W b0) b0 i0).length
        = ∑ t ∈ Finset.range rest.length,
            if isOwner r (procAt W (b0 + t)) = true then rest.length - t else 0 := by
  intro rest
  induction rest with
  | nil => intro b0 i0; rfl
  | cons c rest ih =>
    intro b0 i0
    rw [visitLoop, List.length_append, nextProc_procAt W b0 hW, ih, List.length_cons,
      Finset.sum_range_succ']
    have h1 : (if isOwner r (procAt W b0) = true then innerVisits b0 c i0 (c :: rest) b0 i0
        else []).length
        = if isOwner r (procAt W (b0 + 0)) = true then rest.length + 1 - 0 else 0 := by
      by_cases ho : isOwner r (procAt W b0) = true
      · simp [ho, innerVisits_length]
      · simp [ho]
    rw [h1, Nat.add_comm]
    congr 1
    apply Finset.sum_congr rfl
    intro t _
    have e1 : b0 + 1 + t = b0 + (t + 1) := by omega
    have e2 : rest.length + 1 - (t + 1) = rest.length - t := by omega
    rw [e1, e2]

theorem processedPairs_length (W r : Nat) (hW : 1 ≤ W)
    (configs : List (RelativisticConfig Proj NR)) :
    ((processedPairs W r configs).length : ℤ)
      = ∑ t ∈ Finset.range configs.length,
          if isOwner r (procAt W t) = true then (configs.length : ℤ) - (t : ℤ) else 0 := by
  unfold processedPairs blockVisits
  rw [List.length_map, ← procAt_zero W, visitLoop_length W r hW, Nat.cast_sum]
  apply Finset.sum_congr rfl
  intro t ht
  rw [Finset.mem_range] at ht
  rw [Nat.zero_add]
  by_cases ho : isOwner r (procAt W t) = true
  · rw [if_pos ho, if_pos ho, Nat.cast_sub (le_of_lt ht)]
  · rw [if_neg ho, if_neg ho, Nat.cast_zero]

/-- Within one run of `2W` consecutive blocks that starts at a multiple of `2W`, a worker
`r < W` owns exactly the blocks at the positions `W-1-r` and `W+r`. -/
theorem cycle_sum (W r : Nat) (hr : r < W) (q : Nat) (G : Nat → ℤ) :
    ∑ t ∈ Finset.range (2 * W),
        (if isOwner r (procAt W (2 * W * q + t)) = true then G t else 0)
      = G (W - 1 - r) + G (W + r) := by
  have hpt : ∀ t ∈ Finset.range (2 * W),
      (if isOwner r (procAt W (2 * W * q + t)) = true then G t else 0)
        = (if t = W - 1 - r then G t else 0) + (if t = W + r then G t else 0) := by
    intro t ht
    rw [Finset.mem_range] at ht
    have hmod : (2 * W * q + t) % (2 * W) = t := by
      rw [Nat.mul_add_mod, Nat.mod_eq_of_lt ht]
    have hown := isOwner_procAt_iff W r (2 * W * q + t)
    rw [hmod] at hown
    by_cases ho : isOwner r (procAt W (2 * W * q + t)) = true
    · rw [if_pos ho]
      rcases hown.1 ho with h | h
      · have h1 : ¬ t = W - 1 - r := by omega
        rw [if_neg h1, if_pos h, zero_add]
      · have h1 : t = W - 1 - r := by omega
        have h2 : ¬ t = W + r := by omega
        rw [if_pos h1, if_neg h2, add_zero]
    · rw [if_neg ho]
      have h1 : ¬ t = W - 1 - r := fun h => ho (hown.2 (Or.inr (by omega)))
      have h2 : ¬ t = W + r := fun h => ho (hown.2 (Or.inl h))
      rw [if_neg h1, if_neg h2, add_zero]
  rw [Finset.sum_congr rfl hpt, Finset.sum_add_distrib, Finset.sum_ite_eq', Finset.sum_ite_eq',
    if_pos (Finset.mem_range.2 (by omega)), if_pos (Finset.mem_range.2 (by omega))]

theorem full_cycles_sum (W r : Nat) (hr : r < W) (C : ℤ) (q : Nat) :
    ∑ t ∈ Finset.range (2 * W * q),
        (if isOwner r (procAt W t) = true then C - (t : ℤ) else 0)
      = 2 * (q : ℤ) * C - 2 * (W : ℤ) * (q : ℤ) ^ 2 + (q : ℤ) := by
  induction q with
  | zero => simp
  | succ q ih =>
    have e : 2 * W * (q + 1) = 2 * W * q + 2 * W := by ring
    rw [e, Finset.sum_range_add, ih,
      cycle_sum W r hr q (fun t => C - ((2 * W * q + t : Nat) : ℤ))]
    have c1 : ((W - 1 - r : Nat) : ℤ) = (W : ℤ) - 1 - (r : ℤ) := by omega
    push_cast
    rw [c1]
    ring

/-- C20: when the number of blocks `K` is a multiple of `2W`, every worker `r < W` processes
exactly `K(K+1)/(2W)` block pairs `(i, j)` with `i ≤ j`; its blocks are those at the positions
`W-1-r` and `W+r` of each run of `2W` consecutive blocks, and these two positions add up to
`2W-1`. -/
theorem equal_pair_share_on_full_cycles (W r : Nat) (hW : 1 ≤ W) (hr : r < W)
    (configs : List (RelativisticConfig Proj NR)) (hK : 2 * W ∣ configs.length) :
    (processedPairs W r configs).length
      = configs.length * (configs.length + 1) / (2 * W) ∧
    (∀ b, b ∈ ownedBlocks W r configs ↔
      (b < configs.length ∧ (b % (2 * W) = W - 1 - r ∨ b % (2 * W) = W + r))) ∧
    (W - 1 - r) + (W + r) = 2 * W - 1 := by
  obtain ⟨q, hq⟩ := hK
  refine ⟨?_, ?_, by omega⟩
  · have hcount : (processedPairs W r configs).length = q * (configs.length + 1) := by
      have h := processedPairs_length W r hW configs
      rw [hq, full_cycles_sum W r hr _ q] at h
      have h2 : ((processedPairs W r configs).length : ℤ)
          = ((q * (2 * W * q + 1) : Nat) : ℤ) := by
        rw [h]
        push_cast
        ring
      rw [hq]
      exact_mod_cast h2
    rw [hcount]
    have e : configs.length * (configs.length + 1) = 2 * W * (q * (configs.length + 1)) := by
      rw [hq]
      ring
    rw [e, Nat.mul_div_cancel_left _ (by omega : 0 < 2 * W)]
  · intro b
    rw [mem_ownedBlocks W r hW, isOwner_procAt_iff]
    have hlt : b % (2 * W) < 2 * W := Nat.mod_lt _ (by omega)
    generalize b % (2 * W) = L at *
    constructor
    · rintro ⟨h1, h2⟩
      exact ⟨h1, by omega⟩
    · rintro ⟨h1, h2⟩
      exact ⟨h1, by omega⟩

/-- C20, instance: four blocks shared by two workers give five pairs to each worker. -/
theorem equal_pair_share_on_full_cycles_witness :
    1 ≤ 2 ∧ 1 < 2 ∧ 2 * 2 ∣ (sampleConfig :: sampleConfigs).length ∧
      (processedPairs 2 1 (sampleConfig :: sampleConfigs)).length
        = (sampleConfig :: sampleConfigs).length
            * ((sampleConfig :: sampleConfigs).length + 1) / (2 * 2) :=
  ⟨by decide, by decide, by decide,
    (equal_pair_share_on_full_cycles 2 1 (by decide) (by decide)
      (sampleConfig :: sampleConfigs) (by decide)).1⟩

/-! ### Loops run side by side on two states, and loop invariants -/

theorem foldl_rel {α σ τ : Type} (R : σ → τ → Prop) (f : σ → α → σ) (g : τ → α → τ) :
    ∀ (l : List α), (∀ k ∈ l, ∀ s t, R s t → R (f s k) (g t k)) →
      ∀ s t, R s t → R (l.foldl f s) (l.foldl g t) := by
  intro l
  induction l with
  | nil => intro _ s t h; exact h
  | cons a l ih =>
    intro hstep s t h
    rw [List.foldl_cons, List.foldl_cons]
    exact ih (fun k hk => hstep k (List.mem_cons_of_mem _ hk)) _ _
      (hstep a (List.mem_cons_self _ _) s t h)

theorem forLoop_rel {σ τ : Type} (R : σ → τ → Prop) (f : Nat → σ → σ) (g : Nat → τ → τ)
    (lo hi : Nat) (hstep : ∀ k, lo ≤ k → k < hi → ∀ s t, R s t → R (f k s) (g k t))
    (s : σ) (t : τ) (h : R s t) : R (forLoop f lo hi s) (forLoop g lo hi t) := by
  unfold forLoop
  apply foldl_rel R _ _ _ _ s t h
  intro k hk
  rw [List.mem_range'_1] at hk
  exact hstep k hk.1 (by omega)

theorem forEachIdx_rel {α σ τ : Type} (R : σ → τ → Prop) (f : α → Nat → σ → σ)
    (g : α → Nat → τ → τ) :
    ∀ (l : List α), (∀ x ∈ l, ∀ k s t, R s t → R (f x k s) (g x k t)) →
      ∀ (k0 : Nat) (s : σ) (t : τ), R s t → R (forEachIdx f l k0 s) (forEachIdx g l k0 t) := by
  intro l
  induction l with
  | nil => intro _ k0 s t h; exact h
  | cons a l ih =>
    intro hstep k0 s t h
    rw [forEachIdx, forEachIdx]
    exact ih (fun x hx => hstep x (List.mem_cons_of_mem _ hx)) _ _ _
      (hstep a (List.mem_cons_self _ _) k0 s t h)

theorem forLoop_inv {σ : Type} (Inv : σ → Prop) (f : Nat → σ → σ) (lo hi : Nat)
    (hstep : ∀ k, lo ≤ k → k < hi → ∀ s, Inv s → Inv (f k s)) (s : σ) (h : Inv s) :
    Inv (forLoop f lo hi s) :=
  forLoop_rel (fun a _ => Inv a) f f lo hi (fun k h1 h2 a _ ha => hstep k h1 h2 a ha) s s h

theorem forEachIdx_inv {α σ : Type} (Inv : σ → Prop) (f : α → Nat → σ → σ) (l : List α)
    (hstep : ∀ x ∈ l, ∀ k s, Inv s → Inv (f x k s)) (k0 : Nat) (s : σ) (h : Inv s) :
    Inv (forEachIdx f l k0 s) :=
  forEachIdx_rel (fun a _ => Inv a) f f l (fun x hx k a _ ha => hstep x hx k a ha) k0 s s h

theorem replay_append (M : MPIMatrix) (l1 l2 : List CellWrite) :
    replay M (l1 ++ l2) = replay (replay M l1) l2 := by
  unfold replay
  rw [List.foldl_append]

/-- The matrix the projection loops produce is the replay of their log. -/
theorem generateBlockPair_replay (ops : Operators Proj Elec)
    (ci cj : RelativisticConfig Proj NR) (i j : Nat) (M0 M : MPIMatrix) (log : List CellWrite)
    (h : M = replay M0 log) :
    generateBlockPair ops ci cj i j M
      = replay M0 (generateBlockPairLog ops ci cj i j log) := by
  unfold generateBlockPair generateBlockPairLog
  apply forEachIdx_rel (fun (M1 : MPIMatrix) (l1 : List CellWrite) => M1 = replay M0 l1)
    _ _ _ _ 0 M log h
  intro p _ pi M1 l1 h1
  apply forEachIdx_rel (fun (M2 : MPIMatrix) (l2 : List CellWrite) => M2 = replay M0 l2)
    _ _ _ _ 0 M1 l1 h1
  intro q _ pj M2 l2 h2
  unfold generateProjectionPair generateProjectionPairLog
  by_cases hH : |ops.GetProjectionH p q| > 1 / 10 ^ 16
  · simp only [hH, if_true]
    apply forLoop_rel (fun (M3 : MPIMatrix) (l3 : List CellWrite) => M3 = replay M0 l3)
      _ _ _ _ _ M2 l2 h2
    intro a _ _ M3 l3 h3
    apply forLoop_rel (fun (M4 : MPIMatrix) (l4 : List CellWrite) => M4 = replay M0 l4)
      _ _ _ _ _ M3 l3 h3
    intro b _ _ M4 l4 h4
    rw [replay_append, ← h4]
    rfl
  · rw [if_neg hH, if_neg hH]
    exact h2

theorem GenerateMatrix_replay (ops : Operators Proj Elec) (W r : Nat)
    (configs : List (RelativisticConfig Proj NR)) :
    GenerateMatrix ops W r configs
      = replay MPIMatrix.Clear (GenerateMatrixLog ops W r configs) := by
  unfold GenerateMatrix GenerateMatrixLog blockVisits
  rw [generateLoop_eq_foldl ops W r configs _ 0 0]
  apply foldl_rel (fun (M1 : MPIMatrix) (l1 : List CellWrite) => M1 = replay MPIMatrix.Clear l1)
  · intro v _ M1 l1 h1
    exact generateBlockPair_replay ops v.ci v.cj v.i v.j _ M1 l1 h1
  · rfl

/-- Every update the projection loops log for a block pair lies in the cells of that pair. -/
theorem generateBlockPairLog_mem (ops : Operators Proj Elec)
    (ci cj : RelativisticConfig Proj NR) (i j : Nat) (P : CellWrite → Prop)
    (hP : ∀ a b v, a < ci.NumJStates → b < cj.NumJStates → (j = i → a ≤ b) →
      P { row := i + a, col := j + b, value := v })
    (log : List CellWrite) (h : ∀ w ∈ log, P w) :
    ∀ w ∈ generateBlockPairLog ops ci cj i j log, P w := by
  unfold generateBlockPairLog
  apply forEachIdx_inv (fun l : List CellWrite => ∀ w ∈ l, P w) _ _ _ 0 log h
  intro p _ pi l1 h1
  apply forEachIdx_inv (fun l : List CellWrite => ∀ w ∈ l, P w) _ _ _ 0 l1 h1
  intro q _ pj l2 h2
  unfold generateProjectionPairLog
  by_cases hH : |ops.GetProjectionH p q| > 1 / 10 ^ 16
  · simp only [hH, if_true]
    apply forLoop_inv (fun l : List CellWrite => ∀ w ∈ l, P w) _ _ _ _ l2 h2
    intro a _ ha l3 h3
    apply forLoop_inv (fun l : List CellWrite => ∀ w ∈ l, P w) _ _ _ _ l3 h3
    intro b hb1 hb2 l4 h4 w hw
    rcases List.mem_append.1 hw with hw | hw
    · exact h4 w hw
    · rw [List.mem_singleton] at hw
      subst hw
      apply hP a b _ ha hb2
      intro hji
      rw [if_pos hji] at hb1
      exact hb1
  · rw [if_neg hH]
    exact h2

theorem rowOffset_le_total (configs : List (RelativisticConfig Proj NR)) (b : Nat)
    (c : RelativisticConfig Proj NR) (h : configs[b]? = some c) :
    rowOffset configs b + c.NumJStates ≤ rowOffset configs configs.length := by
  obtain ⟨hb, _⟩ := List.getElem?_eq_some.1 h
  exact rowOffset_block_le configs b configs.length c h hb

/-- C14: every update `M->At(r, c) += ...` that `GenerateMatrix` executes, at any worker and
for any configuration list (blocks without J-coupled states included), addresses a cell of the
upper triangle inside the matrix: `r ≤ c < N` with `N` the sum of `NumJStates()` over the list;
the matrix `GenerateMatrix` produces is the replay of these updates on the cleared matrix. -/
theorem GenerateMatrix_writes_upper_triangle (ops : Operators Proj Elec) (W r : Nat)
    (configs : List (RelativisticConfig Proj NR)) :
    GenerateMatrix ops W r configs
      = replay MPIMatrix.Clear (GenerateMatrixLog ops W r configs) ∧
    ∀ w ∈ GenerateMatrixLog ops W r configs,
      w.row ≤ w.col ∧ w.col < rowOffset configs configs.length := by
  refine ⟨GenerateMatrix_replay ops W r configs, ?_⟩
  unfold GenerateMatrixLog
  have hvis := blockVisits_ok W r configs
  generalize blockVisits W r configs = visits at hvis
  have key : ∀ (l : List (BlockVisit Proj NR)) (log : List CellWrite),
      (∀ v ∈ l, v.OK configs) →
      (∀ w ∈ log, w.row ≤ w.col ∧ w.col < rowOffset configs configs.length) →
      ∀ w ∈ l.foldl (fun log v => generateBlockPairLog ops v.ci v.cj v.i v.j log) log,
        w.row ≤ w.col ∧ w.col < rowOffset configs configs.length := by
    intro l
    induction l with
    | nil => intro log _ h; exact h
    | cons v l ih =>
      intro log hok h
      rw [List.foldl_cons]
      apply ih _ (fun v1 hv1 => hok v1 (List.mem_cons_of_mem _ hv1))
      obtain ⟨hle, hci, hcj, hi, hj⟩ := hok v (List.mem_cons_self _ _)
      apply generateBlockPairLog_mem ops v.ci v.cj v.i v.j _ _ log h
      intro a b _ ha hb hab
      have htot := rowOffset_le_total configs v.bj v.cj hcj
      refine ⟨?_, by simp only; omega⟩
      simp only
      by_cases hji : v.j = v.i
      · have := hab hji
        omega
      · have hlt : v.bi < v.bj := by
          rcases Nat.lt_or_ge v.bi v.bj with h1 | h1
          · exact h1
          · exfalso
            apply hji
            have : v.bi = v.bj := le_antisymm hle h1
            rw [hi, hj, this]
        have := rowOffset_block_le configs v.bi v.bj v.ci hci hlt
        omega
  exact key visits [] hvis (by simp)

theorem SetterCall.run_exclusive (c : SetterCall) (s : CIIntegralsMBPT)
    (h : ¬ (s.include_sigma1 = true ∧ s.include_mbpt1 = true)) :
    ¬ ((c.run s).include_sigma1 = true ∧ (c.run s).include_mbpt1 = true) := by
  cases c with
  | IncludeSigma1 incl mbpt =>
    cases incl <;> cases hm : mbpt.isSome <;> cases ho : s.IsOpenShellCore <;>
      simp_all [SetterCall.run, CIIntegralsMBPT.IncludeSigma1]
  | IncludeMBPT1 incl mbpt =>
    cases incl <;> cases hm : mbpt.isSome <;> cases ho : s.IsOpenShellCore <;>
      simp_all [SetterCall.run, CIIntegralsMBPT.IncludeMBPT1]
  | IncludeMBPT2 incl mbpt =>
    cases incl <;> cases hm : mbpt.isSome <;> cases ho : s.IsOpenShellCore <;>
      simp_all [SetterCall.run, CIIntegralsMBPT.IncludeMBPT2]
  | IncludeExtraBoxDiagrams incl limit1 limit2 limit3 =>
    simpa [SetterCall.run, CIIntegralsMBPT.IncludeExtraBoxDiagrams] using h

theorem runCalls_exclusive (calls : List SetterCall) :
    ∀ (s : CIIntegralsMBPT), ¬ (s.include_sigma1 = true ∧ s.include_mbpt1 = true) →
      ¬ ((runCalls calls s).include_sigma1 = true ∧ (runCalls calls s).include_mbpt1 = true) := by
  induction calls with
  | nil => intro s h; exact h
  | cons c calls ih =>
    intro s h
    exact ih (c.run s) (SetterCall.run_exclusive c s h)

/-- C15: `IncludeSigma1(true)` leaves `include_sigma1 = true` and `include_mbpt1 = false`,
`IncludeMBPT1(true)` leaves `include_mbpt1 = true` and `include_sigma1 = false`; hence, from
the constructed state, after any sequence of calls of `IncludeSigma1`, `IncludeMBPT1`,
`IncludeMBPT2` and `IncludeExtraBoxDiagrams`, with any arguments, `include_sigma1` and
`include_mbpt1` are never both true. -/
theorem sigma1_and_mbpt1_mutually_exclusive :
    (∀ (s : CIIntegralsMBPT) (mbpt : Option Nat),
      (s.IncludeSigma1 true mbpt).include_sigma1 = true ∧
        (s.IncludeSigma1 true mbpt).include_mbpt1 = false) ∧
    (∀ (s : CIIntegralsMBPT) (mbpt : Option Nat),
      (s.IncludeMBPT1 true mbpt).include_mbpt1 = true ∧
        (s.IncludeMBPT1 true mbpt).include_sigma1 = false) ∧
    (∀ (IsOpenShellCore : Bool) (calls : List SetterCall),
      ¬ ((runCalls calls (CIIntegralsMBPT.construct IsOpenShellCore)).include_sigma1 = true ∧
        (runCalls calls (CIIntegralsMBPT.construct IsOpenShellCore)).include_mbpt1 = true)) := by
  refine ⟨?_, ?_, ?_⟩
  · intro s mbpt
    cases hm : mbpt.isSome <;> cases ho : s.IsOpenShellCore <;>
      simp [CIIntegralsMBPT.IncludeSigma1, hm, ho]
  · intro s mbpt
    cases hm : mbpt.isSome <;> cases ho : s.IsOpenShellCore <;>
      simp [CIIntegralsMBPT.IncludeMBPT1, hm, ho]
  · intro o calls
    apply runCalls_exclusive
    simp [CIIntegralsMBPT.construct]

/-- The two-particle sibling of the single-particle setters keeps its subtraction term in
step: on an open-shell core, after any sequence of setter calls from the constructed state,
`include_mbpt2_subtraction` equals `include_mbpt2`. -/
theorem mbpt2_subtraction_follows_mbpt2 (calls : List SetterCall) :
    (runCalls calls (CIIntegralsMBPT.construct true)).include_mbpt2_subtraction
      = (runCalls calls (CIIntegralsMBPT.construct true)).include_mbpt2 := by
  have key : ∀ (l : List SetterCall) (s : CIIntegralsMBPT), s.IsOpenShellCore = true →
      s.include_mbpt2_subtraction = s.include_mbpt2 →
      (runCalls l s).IsOpenShellCore = true ∧
        (runCalls l s).include_mbpt2_subtraction = (runCalls l s).include_mbpt2 := by
    intro l
    induction l with
    | nil => intro s h1 h2; exact ⟨h1, h2⟩
    | cons c l ih =>
      intro s h1 h2
      apply ih (c.run s)
      · cases c with
        | IncludeSigma1 incl mbpt =>
          cases incl <;> cases hm : mbpt.isSome <;>
            simp_all [SetterCall.run, CIIntegralsMBPT.IncludeSigma1]
        | IncludeMBPT1 incl mbpt =>
          cases incl <;> cases hm : mbpt.isSome <;>
            simp_all [SetterCall.run, CIIntegralsMBPT.IncludeMBPT1]
        | IncludeMBPT2 incl mbpt =>
          cases incl <;> cases hm : mbpt.isSome <;>
            simp_all [SetterCall.run, CIIntegralsMBPT.IncludeMBPT2]
        | IncludeExtraBoxDiagrams incl limit1 limit2 limit3 =>
          simpa [SetterCall.run, CIIntegralsMBPT.IncludeExtraBoxDiagrams] using h1
      · cases c with
        | IncludeSigma1 incl mbpt =>
          cases incl <;> cases hm : mbpt.isSome <;>
            simp_all [SetterCall.run, CIIntegralsMBPT.IncludeSigma1]
        | IncludeMBPT1 incl mbpt =>
          cases incl <;> cases hm : mbpt.isSome <;>
            simp_all [SetterCall.run, CIIntegralsMBPT.IncludeMBPT1]
        | IncludeMBPT2 incl mbpt =>
          cases incl <;> cases hm : mbpt.isSome <;>
            simp_all [SetterCall.run, CIIntegralsMBPT.IncludeMBPT2]
        | IncludeExtraBoxDiagrams incl limit1 limit2 limit3 =>
          simpa [SetterCall.run, CIIntegralsMBPT.IncludeExtraBoxDiagrams] using h2
  exact (key calls _ rfl rfl).2

/-- C16, the code at the failing input: on an open-shell core, after `IncludeMBPT1(true)`
followed by `IncludeSigma1(false)` the switch `include_mbpt1` is still true while
`include_mbpt1_subtraction` is false; likewise after `IncludeSigma1(true)` followed by
`IncludeMBPT1(false)` the switch `include_sigma1` is true and the subtraction is false. -/
theorem mbpt1_subtraction_cleared_by_disabling_other_mode :
    ((runCalls [SetterCall.IncludeMBPT1 true none, SetterCall.IncludeSigma1 false none]
        (CIIntegralsMBPT.construct true)).include_mbpt1 = true ∧
      (runCalls [SetterCall.IncludeMBPT1 true none, SetterCall.IncludeSigma1 false none]
        (CIIntegralsMBPT.construct true)).include_mbpt1_subtraction = false) ∧
    ((runCalls [SetterCall.IncludeSigma1 true none, SetterCall.IncludeMBPT1 false none]
        (CIIntegralsMBPT.construct true)).include_sigma1 = true ∧
      (runCalls [SetterCall.IncludeSigma1 true none, SetterCall.IncludeMBPT1 false none]
        (CIIntegralsMBPT.construct true)).include_mbpt1_subtraction = false) := by
  decide

/-- Evaluation on the sample input: the repeated entry is dropped and the even symmetries
come first. -/
theorem ChooseSymmetries_sample :
    ChooseSymmetries sampleInput
      = Except.ok [⟨0, Parity.even⟩, ⟨2, Parity.even⟩, ⟨2, Parity.odd⟩] := by
  rfl

theorem Symmetry.lt_irrefl (a : Symmetry) : a.lt a = false := by
  simp [Symmetry.lt]

theorem Symmetry.lt_trans (a b c : Symmetry) (h1 : a.lt b = true) (h2 : b.lt c = true) :
    a.lt c = true := by
  obtain ⟨ja, pa⟩ := a
  obtain ⟨jb, pb⟩ := b
  obtain ⟨jc, pc⟩ := c
  cases pa <;> cases pb <;> cases pc <;> simp_all [Symmetry.lt] <;> omega

theorem Symmetry.eq_of_not_lt (a b : Symmetry) (h1 : a.lt b = false) (h2 : b.lt a = false) :
    a = b := by
  obtain ⟨ja, pa⟩ := a
  obtain ⟨jb, pb⟩ := b
  cases pa <;> cases pb <;> simp_all [Symmetry.lt] <;> omega

theorem mem_setEmplace (x s : Symmetry) (l : List Symmetry) :
    s ∈ setEmplace x l ↔ (s = x ∨ s ∈ l) := by
  induction l with
  | nil => simp [setEmplace]
  | cons y ys ih =>
    unfold setEmplace
    by_cases h1 : x.lt y = true
    · simp [h1]
    · by_cases h2 : y.lt x = true
      · simp only [h1, h2, if_true, if_false, List.mem_cons, ih, Bool.false_eq_true]
        tauto
      · have hxy : x = y := Symmetry.eq_of_not_lt x y (by simpa using h1) (by simpa using h2)
        subst hxy
        simp [h1]

theorem setEmplace_sorted (x : Symmetry) (l : List Symmetry)
    (h : l.Pairwise (fun a b => a.lt b = true)) :
    (setEmplace x l).Pairwise (fun a b => a.lt b = true) := by
  induction l with
  | nil => simp [setEmplace]
  | cons y ys ih =>
    rw [List.pairwise_cons] at h
    unfold setEmplace
    by_cases h1 : x.lt y = true
    · rw [if_pos h1, List.pairwise_cons]
      refine ⟨?_, List.pairwise_cons.2 h⟩
      intro a ha
      rcases List.mem_cons.1 ha with ha | ha
      · rw [ha]; exact h1
      · exact Symmetry.lt_trans x y a h1 (h.1 a ha)
    · rw [if_neg h1]
      by_cases h2 : y.lt x = true
      · rw [if_pos h2, List.pairwise_cons]
        refine ⟨?_, ih h.2⟩
        intro a ha
        rcases (mem_setEmplace x a ys).1 ha with ha | ha
        · rw [ha]; exact h2
        · exact h.1 a ha
      · rw [if_neg h2]
        exact List.pairwise_cons.2 h

theorem sorted_nodup (l : List Symmetry) (h : l.Pairwise (fun a b => a.lt b = true)) :
    l.Nodup := by
  apply List.Pairwise.imp _ h
  intro a b hab heq
  subst heq
  rw [Symmetry.lt_irrefl] at hab
  exact absurd hab (by decide)

theorem emplaceAll_spec (user_input : MultirunOptions) (name : String) (parity : Parity)
    (S : List Symmetry) (hS : S.Pairwise (fun a b => a.lt b = true)) :
    (emplaceAll user_input name parity S).Pairwise (fun a b => a.lt b = true) ∧
    ∀ s, s ∈ emplaceAll user_input name parity S ↔
      (s ∈ S ∨ (s.P = parity ∧ s.twoJ ∈ user_input name)) := by
  unfold emplaceAll
  have key : ∀ n, n ≤ (user_input name).length →
      (forLoop (fun i S1 =>
          setEmplace { twoJ := (user_input name).getD i 0, P := parity } S1) 0 n S).Pairwise
        (fun a b => a.lt b = true) ∧
      ∀ s, s ∈ forLoop (fun i S1 =>
          setEmplace { twoJ := (user_input name).getD i 0, P := parity } S1) 0 n S ↔
        (s ∈ S ∨ (s.P = parity ∧ s.twoJ ∈ (user_input name).take n)) := by
    intro n
    induction n with
    | zero =>
      intro _
      rw [forLoop_zero]
      exact ⟨hS, by simp⟩
    | succ n ih =>
      intro hn
      obtain ⟨h1, h2⟩ := ih (by omega)
      rw [forLoop_succ]
      refine ⟨setEmplace_sorted _ _ h1, ?_⟩
      intro s
      rw [mem_setEmplace, h2, List.take_succ, List.mem_append]
      have hget : (user_input name)[n]? = some ((user_input name).getD n 0) := by
        rw [List.getD_eq_getElem?_getD, List.getElem?_eq_getElem (by omega)]
        rfl
      rw [hget]
      obtain ⟨j, p⟩ := s
      simp only [Symmetry.mk.injEq, Option.toList_some, List.mem_singleton]
      tauto
  have h := key (user_input name).length (le_refl _)
  rw [List.take_length] at h
  exact h

/-- C17: `ChooseSymmetries` ends the process with the error report exactly when both the list
`CI/EvenParityTwoJ` and the list `CI/OddParityTwoJ` are empty; otherwise it returns a set
that is not empty, holds no element twice, and contains exactly the symmetries `(two_j, even)`
for the entries of the first list and `(two_j, odd)` for the entries of the second. -/
theorem ChooseSymmetries_spec (user_input : MultirunOptions) :
    ((∃ report, ChooseSymmetries user_input = Except.error report) ↔
      (user_input "CI/EvenParityTwoJ" = [] ∧ user_input "CI/OddParityTwoJ" = [])) ∧
    (¬ (user_input "CI/EvenParityTwoJ" = [] ∧ user_input "CI/OddParityTwoJ" = []) →
      ∃ S, ChooseSymmetries user_input = Except.ok S ∧ S ≠ [] ∧ S.Nodup ∧
        ∀ s : Symmetry, s ∈ S ↔
          ((s.P = Parity.even ∧ s.twoJ ∈ user_input "CI/EvenParityTwoJ") ∨
            (s.P = Parity.odd ∧ s.twoJ ∈ user_input "CI/OddParityTwoJ"))) := by
  obtain ⟨e1, e2⟩ := emplaceAll_spec user_input "CI/EvenParityTwoJ" Parity.even []
    List.Pairwise.nil
  obtain ⟨o1, o2⟩ := emplaceAll_spec user_input "CI/OddParityTwoJ" Parity.odd _ e1
  have hmem : ∀ s : Symmetry,
      s ∈ emplaceAll user_input "CI/OddParityTwoJ" Parity.odd
          (emplaceAll user_input "CI/EvenParityTwoJ" Parity.even []) ↔
        ((s.P = Parity.even ∧ s.twoJ ∈ user_input "CI/EvenParityTwoJ") ∨
          (s.P = Parity.odd ∧ s.twoJ ∈ user_input "CI/OddParityTwoJ")) := by
    intro s
    rw [o2, e2]
    simp
  have hempty : emplaceAll user_input "CI/OddParityTwoJ" Parity.odd
        (emplaceAll user_input "CI/EvenParityTwoJ" Parity.even []) = [] ↔
      (user_input "CI/EvenParityTwoJ" = [] ∧ user_input "CI/OddParityTwoJ" = []) := by
    constructor
    · intro h
      constructor
      · cases hl : user_input "CI/EvenParityTwoJ" with
        | nil => rfl
        | cons j l =>
          have : (⟨j, Parity.even⟩ : Symmetry) ∈ ([] : List Symmetry) := by
            rw [← h, hmem, hl]
            simp
          exact absurd this (List.not_mem_nil _)
      · cases hl : user_input "CI/OddParityTwoJ" with
        | nil => rfl
        | cons j l =>
          have : (⟨j, Parity.odd⟩ : Symmetry) ∈ ([] : List Symmetry) := by
            rw [← h, hmem, hl]
            simp
          exact absurd this (List.not_mem_nil _)
    · rintro ⟨h1, h2⟩
      apply List.eq_nil_iff_forall_not_mem.2
      intro s hs
      rw [hmem, h1, h2] at hs
      simp at hs
  unfold ChooseSymmetries
  simp only [List.isEmpty_iff]
  constructor
  · constructor
    · rintro ⟨report, h⟩
      by_cases hE : emplaceAll user_input "CI/OddParityTwoJ" Parity.odd
          (emplaceAll user_input "CI/EvenParityTwoJ" Parity.even []) = []
      · exact hempty.1 hE
      · rw [if_neg hE] at h
        cases h
    · intro h
      rw [if_pos (hempty.2 h)]
      exact ⟨_, rfl⟩
  · intro h
    have hE : ¬ emplaceAll user_input "CI/OddParityTwoJ" Parity.odd
        (emplaceAll user_input "CI/EvenParityTwoJ" Parity.even []) = [] :=
      fun hh => h (hempty.1 hh)
    rw [if_neg hE]
    exact ⟨_, rfl, hE, sorted_nodup _ o1, hmem⟩

/-- C17, instance: the sample input asks for three different symmetries, one of them twice. -/
theorem ChooseSymmetries_spec_witness :
    ¬ (sampleInput "CI/EvenParityTwoJ" = [] ∧ sampleInput "CI/OddParityTwoJ" = []) ∧
      ∃ S, ChooseSymmetries sampleInput = Except.ok S ∧ S ≠ [] ∧ S.Nodup ∧
        ∀ s : Symmetry, s ∈ S ↔
          ((s.P = Parity.even ∧ s.twoJ ∈ sampleInput "CI/EvenParityTwoJ") ∨
            (s.P = Parity.odd ∧ s.twoJ ∈ sampleInput "CI/OddParityTwoJ")) :=
  ⟨by decide, (ChooseSymmetries_spec sampleInput).2 (by decide)⟩

theorem generateLoop_rowVisits (ops : Operators Proj Elec) (W r : Nat) :
    ∀ (rest : List (RelativisticConfig Proj NR)) (proc : Int) (b i : Nat) (M : MPIMatrix),
      generateLoop ops W r rest proc i M
        = (rowVisitLoop W r rest proc b i).foldl
            (fun M1 v => generateInner ops v.c v.i (v.c :: v.rest) v.i M1) M := by
  intro rest
  induction rest with
  | nil => intro proc b i M; rfl
  | cons c rest ih =>
    intro proc b i M
    rw [generateLoop, ih _ (b + 1), rowVisitLoop, List.foldl_append]
    by_cases ho : isOwner r proc = true
    · simp [ho]
    · simp [ho]

theorem eigenLoop_rowVisits (ops : Operators Proj Elec) (W r NumSolutions N : Nat)
    (V : Nat → ℚ) :
    ∀ (rest : List (RelativisticConfig Proj NR)) (proc : Int) (b i : Nat) (st : Totals),
      eigenLoop ops W r NumSolutions N V rest proc i st
        = (rowVisitLoop W r rest proc b i).foldl
            (fun st1 v => eigenInner ops NumSolutions N V v.c v.i (v.c :: v.rest) v.i st1)
            st := by
  intro rest
  induction rest with
  | nil => intro proc b i st; rfl
  | cons c rest ih =>
    intro proc b i st
    rw [eigenLoop, ih _ (b + 1), rowVisitLoop, List.foldl_append]
    by_cases ho : isOwner r proc = true
    · simp [ho]
    · simp [ho]

theorem gLoop_rowVisits (ops : Operators Proj Elec)
    (W r num_electrons NumSolutions N : Nat) (V : Nat → ℚ) :
    ∀ (rest : List (RelativisticConfig Proj NR)) (proc : Int) (b i : Nat) (st : Totals),
      gLoop ops W r num_electrons NumSolutions N V rest proc i st
        = (rowVisitLoop W r rest proc b i).foldl
            (fun st1 v =>
              gInner ops num_electrons NumSolutions N V v.c v.i (v.c :: v.rest) v.i st1)
            st := by
  intro rest
  induction rest with
  | nil => intro proc b i st; rfl
  | cons c rest ih =>
    intro proc b i st
    rw [gLoop, ih _ (b + 1), rowVisitLoop, List.foldl_append]
    by_cases ho : isOwner r proc = true
    · simp [ho]
    · simp [ho]

/-- Polling the rows of a block advances `i` by the number of its rows. -/
theorem pollRows_i (M : MPIMatrix) (N n : Nat) (st : PollState) :
    (pollRows M N n st).i = st.i + n := by
  unfold pollRows
  induction n with
  | zero => rw [forLoop_zero]; rfl
  | succ n ih =>
    rw [forLoop_succ]
    simp only
    rw [ih]
    omega

theorem pollLoop_rowVisits (W r N : Nat) (M : MPIMatrix) :
    ∀ (rest : List (RelativisticConfig Proj NR)) (proc : Int) (b : Nat) (st : PollState),
      (pollLoop W r N M rest proc st).i
          = st.i + (rest.map (fun c => c.NumJStates)).sum ∧
      (pollLoop W r N M rest proc st).proc_range
          = (rowVisitLoop W r rest proc b st.i).foldl
              (fun pr v =>
                (pollRows M N v.c.NumJStates { i := v.i, proc_range := pr }).proc_range)
              st.proc_range := by
  intro rest
  induction rest with
  | nil => intro proc b st; exact ⟨by simp [pollLoop], rfl⟩
  | cons c rest ih =>
    intro proc b st
    rw [pollLoop, rowVisitLoop, List.foldl_append]
    by_cases ho : isOwner r proc = true
    · simp only [ho, if_true]
      obtain ⟨h1, h2⟩ := ih (nextProc W proc) (b + 1) (pollRows M N c.NumJStates st)
      rw [h1, h2, pollRows_i]
      refine ⟨by simp [Nat.add_assoc], ?_⟩
      rfl
    · simp only [ho, if_false, Bool.false_eq_true]
      obtain ⟨h1, h2⟩ := ih (nextProc W proc) (b + 1) { st with i := st.i + c.NumJStates }
      rw [h1, h2]
      refine ⟨by simp [Nat.add_assoc], ?_⟩
      rfl

theorem rowVisitLoop_positions (W r : Nat) :
    ∀ (rest : List (RelativisticConfig Proj NR)) (proc : Int) (b i : Nat),
      (rowVisitLoop W r rest proc b i).map (fun v => v.b) = ownedLoop W r rest proc b := by
  intro rest
  induction rest with
  | nil => intro proc b i; rfl
  | cons c rest ih =>
    intro proc b i
    rw [rowVisitLoop, ownedLoop, List.map_append, ih]
    by_cases ho : isOwner r proc = true
    · simp [ho]
    · simp [ho]

theorem ownedLoop_increasing (W r : Nat) :
    ∀ (rest : List (RelativisticConfig Proj NR)) (proc : Int) (b : Nat),
      (∀ x ∈ ownedLoop W r rest proc b, b ≤ x) ∧
      (ownedLoop W r rest proc b).Pairwise (fun x y => x < y) := by
  intro rest
  induction rest with
  | nil => intro proc b; exact ⟨by simp [ownedLoop], List.Pairwise.nil⟩
  | cons c rest ih =>
    intro proc b
    obtain ⟨h1, h2⟩ := ih (nextProc W proc) (b + 1)
    rw [ownedLoop]
    by_cases ho : isOwner r proc = true
    · simp only [ho, if_true, List.singleton_append]
      refine ⟨?_, List.pairwise_cons.2 ⟨fun x hx => h1 x hx, h2⟩⟩
      intro x hx
      rcases List.mem_cons.1 hx with hx | hx
      · omega
      · have := h1 x hx
        omega
    · simp only [ho, if_false, List.nil_append, Bool.false_eq_true]
      exact ⟨fun x hx => by have := h1 x hx; omega, h2⟩

theorem rowVisitLoop_data (W r : Nat) (configs : List (RelativisticConfig Proj NR)) :
    ∀ (rest pre : List (RelativisticConfig Proj NR)) (proc : Int), configs = pre ++ rest →
      ∀ v ∈ rowVisitLoop W r rest proc pre.length (rowOffset configs pre.length),
        configs[v.b]? = some v.c ∧ v.rest = configs.drop (v.b + 1) ∧
          v.i = rowOffset configs v.b := by
  intro rest
  induction rest with
  | nil => intro pre proc _ v hv; simp [rowVisitLoop] at hv
  | cons c rest ih =>
    intro pre proc hpre v hv
    rw [rowVisitLoop, List.mem_append] at hv
    rcases hv with hv | hv
    · by_cases ho : isOwner r proc = true
      · simp only [ho, if_true, List.mem_singleton] at hv
        subst hv
        refine ⟨?_, ?_, rfl⟩
        · rw [hpre]
          exact getElem?_append_cons pre c rest
        · rw [hpre]
          simp
      · simp [ho] at hv
    · have h1 : configs = (pre ++ [c]) ++ rest := by simp [hpre]
      have h2 : pre.length + 1 = (pre ++ [c]).length := by simp
      have h3 : rowOffset configs pre.length + c.NumJStates
          = rowOffset configs (pre ++ [c]).length := by
        rw [← h2, hpre, rowOffset_append_succ]
      rw [h3, h2] at hv
      exact ih (pre ++ [c]) _ h1 v hv

/-- C19: at every rank, for every worker count and every configuration list, the block loops
of `GenerateMatrix`, `PollMatrix`, `GetEigenvalues` and `GetgFactors` are one and the same
traversal: each runs its own per-block body over the same list `rowVisits` of row-owned
blocks, in the same order and with the same row offset `i`. The blocks of that list are those
of the ownership test, in increasing list position, each with the blocks that follow it and
with `i` equal to the sum of `NumJStates()` over the blocks before it; `PollMatrix`, which
advances `i` row by row inside an owned block, ends with `i` equal to the sum over the whole
list. -/
theorem block_loops_share_traversal (ops : Operators Proj Elec)
    (W r NumSolutions N : Nat) (V : Nat → ℚ) (M : MPIMatrix)
    (configs : List (RelativisticConfig Proj NR)) (uninit : Nat → ℚ) (stack : Nat → Nat) :
    GenerateMatrix ops W r configs
      = (rowVisits W r configs).foldl
          (fun M1 v => generateInner ops v.c v.i (v.c :: v.rest) v.i M1) MPIMatrix.Clear ∧
    PollMatrix.proc_range W r N M configs stack
      = (rowVisits W r configs).foldl
          (fun pr v => (pollRows M N v.c.NumJStates { i := v.i, proc_range := pr }).proc_range)
          (pollInit stack).proc_range ∧
    (pollLoop W r N M configs (-(W : Int)) (pollInit stack)).i
      = rowOffset configs configs.length ∧
    GetEigenvalues.my_total ops W r NumSolutions N V configs uninit
      = ((rowVisits W r configs).foldl
          (fun st v => eigenInner ops NumSolutions N V v.c v.i (v.c :: v.rest) v.i st)
          { total := forLoop (fun solution t => Function.update t solution 0) 0 NumSolutions
              uninit
            coeff := uninit }).total ∧
    GetgFactors.total ops W r NumSolutions N V configs uninit
      = ((rowVisits W r configs).foldl
          (fun st v =>
            gInner ops (frontNumParticles configs) NumSolutions N V v.c v.i (v.c :: v.rest)
              v.i st)
          { total := forLoop (fun solution t => Function.update t solution 0) 0 NumSolutions
              uninit
            coeff := uninit }).total ∧
    (rowVisits W r configs).map (fun v => v.b) = ownedBlocks W r configs ∧
    ((rowVisits W r configs).map (fun v => v.b)).Pairwise (fun x y => x < y) ∧
    (∀ v ∈ rowVisits W r configs,
      configs[v.b]? = some v.c ∧ v.rest = configs.drop (v.b + 1) ∧
        v.i = rowOffset configs v.b) := by
  have hpoll := pollLoop_rowVisits W r N M configs (-(W : Int)) 0 (pollInit stack)
  have hpos : (rowVisits W r configs).map (fun v => v.b) = ownedBlocks W r configs :=
    rowVisitLoop_positions W r configs _ 0 0
  refine ⟨?_, ?_, ?_, ?_, ?_, hpos, ?_, ?_⟩
  · exact generateLoop_rowVisits ops W r configs _ 0 0 MPIMatrix.Clear
  · exact hpoll.2
  · rw [hpoll.1]
    simp [pollInit, rowOffset]
  · unfold GetEigenvalues.my_total rowVisits
    dsimp only
    rw [eigenLoop_rowVisits ops W r NumSolutions N V configs _ 0 0]
  · unfold GetgFactors.total rowVisits
    dsimp only
    rw [gLoop_rowVisits ops W r _ NumSolutions N V configs _ 0 0]
  · rw [hpos]
    exact (ownedLoop_increasing W r configs _ 0).2
  · intro v hv
    have h := rowVisitLoop_data W r configs configs [] (-(W : Int)) (by simp) v
    apply h
    simpa [rowVisits, rowOffset] using hv

theorem OrbitalQuad.le_total (a b : OrbitalQuad) : a.le b ∨ b.le a := by
  unfold OrbitalQuad.le
  omega

theorem OrbitalQuad.le_trans (a b c : OrbitalQuad) (h1 : a.le b) (h2 : b.le c) : a.le c := by
  unfold OrbitalQuad.le at *
  omega

theorem OrbitalQuad.le_antisymm (a b : OrbitalQuad) (h1 : a.le b) (h2 : b.le a) : a = b := by
  obtain ⟨a1, a2, a3, a4⟩ := a
  obtain ⟨b1, b2, b3, b4⟩ := b
  unfold OrbitalQuad.le at *
  simp only at h1 h2
  have e1 : a1 = b1 := by omega
  have e2 : a2 = b2 := by omega
  have e3 : a3 = b3 := by omega
  have e4 : a4 = b4 := by omega
  subst e1 e2 e3 e4
  rfl

theorem OrbitalQuad.le_refl (a : OrbitalQuad) : a.le a := by
  unfold OrbitalQuad.le
  omega

/-- The running minimum of a scan is among the candidates and below all of them. -/
theorem foldl_least (l : List OrbitalQuad) :
    ∀ (t : OrbitalQuad),
      (l.foldl (fun best x => if x.le best then x else best) t ∈ t :: l) ∧
      (∀ y ∈ t :: l, (l.foldl (fun best x => if x.le best then x else best) t).le y) := by
  induction l with
  | nil =>
    intro t
    refine ⟨by simp, ?_⟩
    intro y hy
    rw [List.mem_singleton] at hy
    subst hy
    exact OrbitalQuad.le_refl _
  | cons x l ih =>
    intro t
    rw [List.foldl_cons]
    obtain ⟨h1, h2⟩ := ih (if x.le t then x else t)
    constructor
    · rcases List.mem_cons.1 h1 with h | h
      · rw [h]
        by_cases hx : x.le t
        · rw [if_pos hx]; simp
        · rw [if_neg hx]; simp
      · exact List.mem_cons_of_mem _ (List.mem_cons_of_mem _ h)
    · intro y hy
      have hm := h2 (if x.le t then x else t) (List.mem_cons_self _ _)
      rcases List.mem_cons.1 hy with hy | hy
      · rw [hy]
        by_cases hx : x.le t
        · rw [if_pos hx] at hm ⊢
          exact OrbitalQuad.le_trans _ _ _ hm hx
        · rw [if_neg hx] at hm ⊢
          exact hm
      · rcases List.mem_cons.1 hy with hy | hy
        · rw [hy]
          by_cases hx : x.le t
          · rw [if_pos hx] at hm ⊢
            exact hm
          · rw [if_neg hx] at hm ⊢
            rcases OrbitalQuad.le_total x t with h | h
            · exact absurd h hx
            · exact OrbitalQuad.le_trans _ _ _ hm h
        · exact h2 y (List.mem_cons_of_mem _ hy)

theorem rearrange_rearrange (s1 s2 : Fin 4 → Fin 4) (t : OrbitalQuad) :
    (t.rearrange s2).rearrange s1 = t.rearrange (s2 ∘ s1) := by
  have hget : ∀ p : Fin 4, (t.rearrange s2).get p = t.get (s2 p) := by
    intro p
    fin_cases p <;> simp [OrbitalQuad.get, OrbitalQuad.rearrange]
  calc (t.rearrange s2).rearrange s1
      = { i1 := (t.rearrange s2).get (s1 0), i2 := (t.rearrange s2).get (s1 1),
          i3 := (t.rearrange s2).get (s1 2), i4 := (t.rearrange s2).get (s1 3) } := rfl
    _ = { i1 := t.get (s2 (s1 0)), i2 := t.get (s2 (s1 1)),
          i3 := t.get (s2 (s1 2)), i4 := t.get (s2 (s1 3)) } := by
        rw [hget, hget, hget, hget]
    _ = t.rearrange (s2 ∘ s1) := rfl

theorem rearrange_id (t : OrbitalQuad) : t.rearrange id = t := by
  simp [OrbitalQuad.rearrange, OrbitalQuad.get]

/-- The canonical arrangement does not change when the orbitals are permuted by a symmetry of
the group. -/
theorem TwoElectronIntegralOrdering_invariant (symmetries : List (Fin 4 → Fin 4))
    (hclosed : ∀ s1 ∈ symmetries, ∀ s2 ∈ symmetries, s2 ∘ s1 ∈ symmetries)
    (hinv : ∀ s ∈ symmetries, ∃ s1 ∈ symmetries, s ∘ s1 = id)
    (t : OrbitalQuad) (s : Fin 4 → Fin 4) (hs : s ∈ symmetries) :
    TwoElectronIntegralOrdering symmetries (t.rearrange s)
      = TwoElectronIntegralOrdering symmetries t := by
  unfold TwoElectronIntegralOrdering
  obtain ⟨a1, a2⟩ := foldl_least (symmetries.map (fun s1 => (t.rearrange s).rearrange s1))
    (t.rearrange s)
  obtain ⟨b1, b2⟩ := foldl_least (symmetries.map (fun s1 => t.rearrange s1)) t
  have hsub1 : ∀ y ∈ t.rearrange s ::
      symmetries.map (fun s1 => (t.rearrange s).rearrange s1),
      y ∈ t :: symmetries.map (fun s1 => t.rearrange s1) := by
    intro y hy
    apply List.mem_cons_of_mem
    rcases List.mem_cons.1 hy with hy | hy
    · rw [hy]
      exact List.mem_map.2 ⟨s, hs, rfl⟩
    · obtain ⟨s1, hs1, rfl⟩ := List.mem_map.1 hy
      rw [rearrange_rearrange]
      exact List.mem_map.2 ⟨s ∘ s1, hclosed s1 hs1 s hs, rfl⟩
  have hsub2 : ∀ y ∈ t :: symmetries.map (fun s1 => t.rearrange s1),
      y ∈ t.rearrange s :: symmetries.map (fun s1 => (t.rearrange s).rearrange s1) := by
    intro y hy
    apply List.mem_cons_of_mem
    obtain ⟨s0, hs0, hid⟩ := hinv s hs
    rcases List.mem_cons.1 hy with hy | hy
    · rw [hy]
      refine List.mem_map.2 ⟨s0, hs0, ?_⟩
      rw [rearrange_rearrange, hid, rearrange_id]
    · obtain ⟨s1, hs1, rfl⟩ := List.mem_map.1 hy
      refine List.mem_map.2 ⟨s0 ∘ s1, hclosed s1 hs1 s0 hs0, ?_⟩
      rw [rearrange_rearrange, ← Function.comp_assoc, hid, Function.id_comp]
  exact OrbitalQuad.le_antisymm _ _ (a2 _ (hsub2 _ b1)) (b2 _ (hsub1 _ a1))

/-- C18: in the store modelled from the spec, after a two-electron integral is stored under
the key produced by `TwoElectronIntegralOrdering`, `GetTwoElectronIntegral` returns that same
value for the orbitals permuted by any symmetry of the group of the store (a list of
permutations closed under composition and holding an inverse for each of its members). -/
theorem two_electron_integral_round_trip (symmetries : List (Fin 4 → Fin 4))
    (hclosed : ∀ s1 ∈ symmetries, ∀ s2 ∈ symmetries, s2 ∘ s1 ∈ symmetries)
    (hinv : ∀ s ∈ symmetries, ∃ s1 ∈ symmetries, s ∘ s1 = id)
    (store : TwoElectronIntegrals) (k : Nat) (t : OrbitalQuad) (value : ℚ)
    (s : Fin 4 → Fin 4) (hs : s ∈ symmetries) :
    GetTwoElectronIntegral symmetries
        (StoreTwoElectronIntegral symmetries store k t value) k (t.rearrange s)
      = some value := by
  unfold GetTwoElectronIntegral StoreTwoElectronIntegral
  rw [TwoElectronIntegralOrdering_invariant symmetries hclosed hinv t s hs,
    Function.update_same]

section symmetryGroup
set_option maxRecDepth 100000

theorem mbptSymmetries_closed :
    ∀ s1 ∈ mbptSymmetries, ∀ s2 ∈ mbptSymmetries, s2 ∘ s1 ∈ mbptSymmetries := by
  decide

theorem mbptSymmetries_inverse :
    ∀ s ∈ mbptSymmetries, ∃ s1 ∈ mbptSymmetries, s ∘ s1 = id := by
  decide

end symmetryGroup

/-- C18, instance: the integral `R_1(5 2, 7 3)` is stored and read back as `R_1(7 3, 5 2)`. -/
theorem two_electron_integral_round_trip_witness :
    (∀ s1 ∈ mbptSymmetries, ∀ s2 ∈ mbptSymmetries, s2 ∘ s1 ∈ mbptSymmetries) ∧
    (∀ s ∈ mbptSymmetries, ∃ s1 ∈ mbptSymmetries, s ∘ s1 = id) ∧
    (![2, 3, 0, 1] : Fin 4 → Fin 4) ∈ mbptSymmetries ∧
    GetTwoElectronIntegral mbptSymmetries
        (StoreTwoElectronIntegral mbptSymmetries (fun _ => none) 1 ⟨5, 2, 7, 3⟩ (3 / 4)) 1
        (OrbitalQuad.rearrange ![2, 3, 0, 1] ⟨5, 2, 7, 3⟩)
      = some (3 / 4) :=
  ⟨mbptSymmetries_closed, mbptSymmetries_inverse, by decide,
    two_electron_integral_round_trip mbptSymmetries mbptSymmetries_closed
      mbptSymmetries_inverse (fun _ => none) 1 ⟨5, 2, 7, 3⟩ (3 / 4) ![2, 3, 0, 1]
      (by decide)⟩

/-- Evaluation in the modelled store: the canonical arrangement of `(5 2, 7 3)` is
`(2 5, 3 7)`. -/
theorem TwoElectronIntegralOrdering_sample :
    TwoElectronIntegralOrdering mbptSymmetries ⟨5, 2, 7, 3⟩ = ⟨2, 5, 3, 7⟩ := by
  decide

/-! ### The bin-selection loop of PollMatrix -/

theorem binLoop_le (value : ℚ) (count : Nat) (h : value ≤ 1 / 10 ^ 16) :
    binLoop value count = count := by
  rw [binLoop, if_neg (not_lt.2 h)]

theorem binLoop_gt (value : ℚ) (count : Nat) (h : 1 / 10 ^ 16 < value) :
    binLoop value count = binLoop (value / 100) (count + 1) := by
  rw [binLoop, if_pos h]

/-- The loop `while(value > 1.e-16)` leaves after `m` divisions by 100, where `m` is the first
number of divisions that brings the value down to `1e-16`. -/
theorem binLoop_trace : ∀ (n : Nat) (value : ℚ) (count : Nat),
    value ≤ 1 / 10 ^ 16 * 100 ^ n →
    ∃ m, m ≤ n ∧ binLoop value count = count + m ∧ value / 100 ^ m ≤ 1 / 10 ^ 16 ∧
      ∀ k, k < m → 1 / 10 ^ 16 < value / 100 ^ k := by
  intro n
  induction n with
  | zero =>
    intro value count h
    have h0 : value ≤ 1 / 10 ^ 16 := by simpa using h
    exact ⟨0, le_refl _, by rw [binLoop_le value count h0]; rfl, by simpa using h0,
      fun k hk => absurd hk (Nat.not_lt_zero k)⟩
  | succ n ih =>
    intro value count h
    by_cases h0 : value ≤ 1 / 10 ^ 16
    · exact ⟨0, Nat.zero_le _, by rw [binLoop_le value count h0]; rfl, by simpa using h0,
        fun k hk => absurd hk (Nat.not_lt_zero k)⟩
    · have hgt : 1 / 10 ^ 16 < value := lt_of_not_le h0
      have h1 : value / 100 ≤ 1 / 10 ^ 16 * 100 ^ n := by
        rw [pow_succ (100 : ℚ) n] at h
        generalize (100 : ℚ) ^ n = P at h ⊢
        linarith
      obtain ⟨m, hm, hb, hle, hall⟩ := ih (value / 100) (count + 1) h1
      refine ⟨m + 1, by omega, ?_, ?_, ?_⟩
      · rw [binLoop_gt value count hgt, hb]
        omega
      · have : value / 100 ^ (m + 1) = value / 100 / 100 ^ m := by
          rw [div_div, pow_succ' (100 : ℚ) m]
        rw [this]
        exact hle
      · intro k hk
        cases k with
        | zero => simpa using hgt
        | succ k =>
          have : value / 100 ^ (k + 1) = value / 100 / 100 ^ k := by
            rw [div_div, pow_succ' (100 : ℚ) k]
          rw [this]
          exact hall k (by omega)

theorem binLoop_exists_bound (value : ℚ) : ∃ n : Nat, value ≤ 1 / 10 ^ 16 * 100 ^ n := by
  obtain ⟨n, hn⟩ := pow_unbounded_of_one_lt (value * 10 ^ 16) (show (1 : ℚ) < 100 by norm_num)
  refine ⟨n, ?_⟩
  have h16 : (0 : ℚ) < 10 ^ 16 := by positivity
  rw [one_div, inv_mul_eq_div, le_div_iff₀ h16]
  exact le_of_lt hn

theorem binLoop_lt_one (value : ℚ) (h : value < 1) : binLoop value 0 ≤ 8 := by
  have h8 : value ≤ 1 / 10 ^ 16 * 100 ^ 8 := by norm_num; exact le_of_lt h
  obtain ⟨m, hm, hb, _, _⟩ := binLoop_trace 8 value 0 h8
  omega

theorem pollBin_lt (value : ℚ) : pollBin value < 10 := by
  unfold pollBin
  by_cases h : value ≥ 1
  · rw [if_pos h]; omega
  · rw [if_neg h]
    have := binLoop_lt_one value (lt_of_not_le h)
    omega

theorem pollCell_eq (M : MPIMatrix) (i j : Nat) (proc_range : Nat → Nat) :
    pollCell M i j proc_range
      = (if i ≠ j then bump (bump proc_range (pollBin |M i j|)) (pollBin |M i j|)
         else bump proc_range (pollBin |M i j|)) := by
  unfold pollCell pollBin bump
  dsimp only
  by_cases h : |M i j| ≥ 1
  · rw [if_pos h, if_pos h]
  · rw [if_neg h, if_neg h]

/-- C22: in `PollMatrix`, with exact arithmetic, the bin-selection loop terminates for every
cell value (it leaves after `m` divisions by 100, the first number of divisions that brings
the value down to `1e-16`), every cell increments one entry of the histogram whose index
`pollBin |M i j|` is below ten, a value with `|v| ≥ 1` goes to bin 9, a value with
`|v| ≤ 1e-16` to bin 0, and a value with `1e-16 < |v| < 1` to the bin `k` in `1..8` with
`1e-16 * 100^(k-1) < |v| ≤ 1e-16 * 100^k`. -/
theorem PollMatrix_bin_selection (M : MPIMatrix) (i j : Nat) (proc_range : Nat → Nat) :
    (∀ (value : ℚ) (count : Nat), ∃ m, binLoop value count = count + m ∧
        value / 100 ^ m ≤ 1 / 10 ^ 16 ∧ ∀ k, k < m → 1 / 10 ^ 16 < value / 100 ^ k) ∧
    pollCell M i j proc_range
      = (if i ≠ j then bump (bump proc_range (pollBin |M i j|)) (pollBin |M i j|)
         else bump proc_range (pollBin |M i j|)) ∧
    pollBin |M i j| < 10 ∧
    (|M i j| ≥ 1 → pollBin |M i j| = 9) ∧
    (|M i j| ≤ 1 / 10 ^ 16 → pollBin |M i j| = 0) ∧
    (1 / 10 ^ 16 < |M i j| → |M i j| < 1 →
      1 ≤ pollBin |M i j| ∧ pollBin |M i j| ≤ 8 ∧
      1 / 10 ^ 16 * 100 ^ (pollBin |M i j| - 1) < |M i j| ∧
      |M i j| ≤ 1 / 10 ^ 16 * 100 ^ pollBin |M i j|) := by
  refine ⟨?_, pollCell_eq M i j proc_range, pollBin_lt _, ?_, ?_, ?_⟩
  · intro value count
    obtain ⟨n, hn⟩ := binLoop_exists_bound value
    obtain ⟨m, _, hb, hle, hall⟩ := binLoop_trace n value count hn
    exact ⟨m, hb, hle, hall⟩
  · intro h
    unfold pollBin
    rw [if_pos h]
  · intro h
    unfold pollBin
    have h1 : ¬ |M i j| ≥ 1 := by
      intro h2
      have : (1 : ℚ) / 10 ^ 16 < 1 := by norm_num
      linarith
    rw [if_neg h1, binLoop_le _ _ h]
  · intro hlo hhi
    generalize |M i j| = v at hlo hhi
    unfold pollBin
    rw [if_neg (not_le.2 hhi)]
    have h8 : v ≤ 1 / 10 ^ 16 * 100 ^ 8 := by norm_num; exact le_of_lt hhi
    obtain ⟨m, hm, hb, hle, hall⟩ := binLoop_trace 8 v 0 h8
    rw [hb, Nat.zero_add]
    have hpos : ∀ k : Nat, (0 : ℚ) < 100 ^ k := fun k => by positivity
    cases m with
    | zero =>
      exfalso
      simp only [pow_zero, div_one] at hle
      linarith
    | succ m =>
      refine ⟨by omega, hm, ?_, ?_⟩
      · have := hall m (by omega)
        rw [lt_div_iff₀ (hpos m)] at this
        simpa using this
      · rw [div_le_iff₀ (hpos (m + 1))] at hle
        exact hle

/-- C22 at a cell of the sample matrix: the entry `1/4` lies between `1e-16 * 100^7` and
`1e-16 * 100^8` and goes to bin 8. -/
theorem PollMatrix_bin_selection_witness :
    (1 / 10 ^ 16 < |sampleMatrix 0 1| ∧ |sampleMatrix 0 1| < 1) ∧
    (1 ≤ pollBin |sampleMatrix 0 1| ∧ pollBin |sampleMatrix 0 1| ≤ 8 ∧
      1 / 10 ^ 16 * 100 ^ (pollBin |sampleMatrix 0 1| - 1) < |sampleMatrix 0 1| ∧
      |sampleMatrix 0 1| ≤ 1 / 10 ^ 16 * 100 ^ pollBin |sampleMatrix 0 1|) :=
  have h1 : (1 : ℚ) / 10 ^ 16 < |sampleMatrix 0 1| := by
    simp only [sampleMatrix]; rw [abs_of_nonneg (by norm_num)]; norm_num
  have h2 : |sampleMatrix 0 1| < 1 := by
    simp only [sampleMatrix]; rw [abs_of_nonneg (by norm_num)]; norm_num
  ⟨⟨h1, h2⟩, (PollMatrix_bin_selection sampleMatrix 0 1 (fun _ => 0)).2.2.2.2.2 h1 h2⟩

/-! ### The histogram total of PollMatrix

The counters are 32 bits wide. Every statement below has the form
`total after + q * 2^32 = total before + increments`, where `q` is the number of times a counter
wrapped around on the way. -/

/-- When the increments fit below `2^32` no counter wrapped around. -/
theorem wraps_eq_zero (a q c : Nat) (h : a + q * 2 ^ 32 = c) (hc : c < 2 ^ 32) : a = c := by
  have hq : q = 0 := by
    rcases Nat.eq_zero_or_pos q with h0 | h0
    · exact h0
    · have : 2 ^ 32 ≤ q * 2 ^ 32 := Nat.le_mul_of_pos_left _ h0
      omega
  rw [hq] at h
  omega

theorem binTotal_bump (pr : Nat → Nat) (k : Nat) (hk : k < 10) :
    ∃ q, binTotal (bump pr k) + q * 2 ^ 32 = binTotal pr + 1 := by
  refine ⟨(pr k + 1) / 2 ^ 32, ?_⟩
  unfold binTotal bump
  rw [Finset.sum_update_of_mem (Finset.mem_range.2 hk),
    ← Finset.sum_erase_add _ _ (Finset.mem_range.2 hk), Finset.sdiff_singleton_eq_erase]
  have h := Nat.mod_add_div (pr k + 1) (2 ^ 32)
  rw [Nat.mul_comm] at h
  generalize (pr k + 1) % 2 ^ 32 = a at h ⊢
  generalize (pr k + 1) / 2 ^ 32 * 2 ^ 32 = b at h ⊢
  omega

/-- A cell adds one increment to the histogram when it is diagonal and two otherwise. -/
theorem binTotal_pollCell (M : MPIMatrix) (i j : Nat) (pr : Nat → Nat) :
    ∃ q, binTotal (pollCell M i j pr) + q * 2 ^ 32
      = binTotal pr + (if i = j then 1 else 2) := by
  rw [pollCell_eq]
  have hk := pollBin_lt |M i j|
  by_cases h : i = j
  · rw [if_neg (not_not.2 h), if_pos h]
    exact binTotal_bump _ _ hk
  · rw [if_pos h, if_neg h]
    obtain ⟨q1, h1⟩ := binTotal_bump pr _ hk
    obtain ⟨q2, h2⟩ := binTotal_bump (bump pr (pollBin |M i j|)) _ hk
    refine ⟨q1 + q2, ?_⟩
    rw [Nat.add_mul]
    omega

/-- A counted loop whose body adds `d k` increments adds their sum. -/
theorem foldl_range'_wraps {σ : Type} (π : σ → Nat) (body : Nat → σ → σ) (d : Nat → Nat)
    (h : ∀ k s, ∃ q, π (body k s) + q * 2 ^ 32 = π s + d k) :
    ∀ (n lo : Nat) (s : σ),
      ∃ q, π ((List.range' lo n).foldl (fun st k => body k st) s) + q * 2 ^ 32
        = π s + ∑ k ∈ Finset.Ico lo (lo + n), d k := by
  intro n
  induction n with
  | zero => intro lo s; exact ⟨0, by simp⟩
  | succ n ih =>
    intro lo s
    obtain ⟨q1, h1⟩ := h lo s
    obtain ⟨q2, h2⟩ := ih (lo + 1) (body lo s)
    refine ⟨q1 + q2, ?_⟩
    rw [List.range'_succ, List.foldl_cons,
      Finset.sum_eq_sum_Ico_succ_bot (show lo < lo + (n + 1) by omega), Nat.add_mul]
    have e : lo + 1 + n = lo + (n + 1) := by omega
    rw [e] at h2
    omega

theorem forLoop_wraps {σ : Type} (π : σ → Nat) (body : Nat → σ → σ) (d : Nat → Nat)
    (h : ∀ k s, ∃ q, π (body k s) + q * 2 ^ 32 = π s + d k) (lo hi : Nat) (s : σ) :
    ∃ q, π (forLoop body lo hi s) + q * 2 ^ 32 = π s + ∑ k ∈ Finset.Ico lo hi, d k := by
  unfold forLoop
  obtain ⟨q, hq⟩ := foldl_range'_wraps π body d h (hi - lo) lo s
  refine ⟨q, ?_⟩
  rw [hq]
  by_cases hle : lo ≤ hi
  · have : lo + (hi - lo) = hi := by omega
    rw [this]
  · have h0 : hi - lo = 0 := by omega
    rw [h0, Nat.add_zero, Finset.Ico_self, Finset.Ico_eq_empty (by omega)]

theorem binTotal_row (M : MPIMatrix) (N x : Nat) (pr : Nat → Nat) :
    ∃ q, binTotal (forLoop (fun j pr1 => pollCell M x j pr1) x N pr) + q * 2 ^ 32
      = binTotal pr + rowCount N x :=
  forLoop_wraps binTotal (fun j pr1 => pollCell M x j pr1) (fun j => if x = j then 1 else 2)
    (fun k s => binTotal_pollCell M x k s) x N pr

theorem binTotal_pollRows (M : MPIMatrix) (N n : Nat) (st : PollState) :
    ∃ q, binTotal (pollRows M N n st).proc_range + q * 2 ^ 32
      = binTotal st.proc_range + ∑ a ∈ Finset.range n, rowCount N (st.i + a) := by
  induction n with
  | zero => exact ⟨0, by simp [pollRows, forLoop_zero]⟩
  | succ n ih =>
    have hstep : pollRows M N (n + 1) st
        = { i := (pollRows M N n st).i + 1
            proc_range := forLoop (fun j pr => pollCell M (pollRows M N n st).i j pr)
              (pollRows M N n st).i N (pollRows M N n st).proc_range } := by
      unfold pollRows
      rw [forLoop_succ]
    obtain ⟨q1, h1⟩ := ih
    obtain ⟨q2, h2⟩ := binTotal_row M N (pollRows M N n st).i (pollRows M N n st).proc_range
    refine ⟨q1 + q2, ?_⟩
    rw [hstep]
    simp only
    rw [pollRows_i] at h2 ⊢
    rw [Finset.sum_range_succ, Nat.add_mul]
    omega

theorem binTotal_visits (M : MPIMatrix) (N : Nat) :
    ∀ (vs : List (RowVisit Proj NR)) (pr : Nat → Nat),
      ∃ q, binTotal (vs.foldl
          (fun pr1 v => (pollRows M N v.c.NumJStates { i := v.i, proc_range := pr1 }).proc_range)
          pr) + q * 2 ^ 32
        = binTotal pr
          + (vs.map (fun v => ∑ a ∈ Finset.range v.c.NumJStates, rowCount N (v.i + a))).sum := by
  intro vs
  induction vs with
  | nil => intro pr; exact ⟨0, by simp⟩
  | cons v vs ih =>
    intro pr
    obtain ⟨q1, h1⟩ := binTotal_pollRows M N v.c.NumJStates { i := v.i, proc_range := pr }
    obtain ⟨q2, h2⟩ := ih
      (pollRows M N v.c.NumJStates { i := v.i, proc_range := pr }).proc_range
    refine ⟨q1 + q2, ?_⟩
    rw [List.foldl_cons, List.map_cons, List.sum_cons, Nat.add_mul]
    simp only at h1
    omega

theorem binTotal_pollInit (stack : Nat → Nat) : binTotal (pollInit stack).proc_range = 0 := by
  unfold binTotal pollInit
  apply Finset.sum_eq_zero
  intro k hk
  have hk10 : k < 10 := Finset.mem_range.1 hk
  simp only [forLoop]
  interval_cases k <;> simp [List.range', Function.update]

theorem sum_owner_indicator_nat (W : Nat) (hW : 1 ≤ W) (b : Nat) (S : Nat) :
    ∑ r ∈ Finset.range W, (if isOwner r (procAt W b) = true then S else 0) = S := by
  have hr := procAt_range W b hW
  obtain ⟨r0, ⟨hr0, ho⟩, huniq⟩ := existsUnique_owner W (procAt W b) hr.1 hr.2
  rw [Finset.sum_eq_single r0]
  · rw [if_pos ho]
  · intro r hrW hne
    rw [if_neg]
    intro h
    exact hne (huniq r ⟨Finset.mem_range.1 hrW, h⟩)
  · intro h
    exact absurd (Finset.mem_range.2 hr0) h

/-- Summed over the workers, the rows of the owned blocks are all the rows, each once. -/
theorem sum_rowVisitLoop_ranks (W : Nat) (hW : 1 ≤ W) (g : Nat → Nat) :
    ∀ (rest : List (RelativisticConfig Proj NR)) (b i : Nat),
      ∑ r ∈ Finset.range W,
          ((rowVisitLoop W r rest (procAt W b) b i).map
            (fun v => ∑ a ∈ Finset.range v.c.NumJStates, g (v.i + a))).sum
        = ∑ x ∈ Finset.range (rest.map (fun c => c.NumJStates)).sum, g (i + x) := by
  intro rest
  induction rest with
  | nil => intro b i; simp [rowVisitLoop]
  | cons c rest ih =>
    intro b i
    have hstep : ∀ r, ((rowVisitLoop W r (c :: rest) (procAt W b) b i).map
            (fun v => ∑ a ∈ Finset.range v.c.NumJStates, g (v.i + a))).sum
        = (if isOwner r (procAt W b) = true
            then ∑ a ∈ Finset.range c.NumJStates, g (i + a) else 0)
          + ((rowVisitLoop W r rest (procAt W (b + 1)) (b + 1) (i + c.NumJStates)).map
            (fun v => ∑ a ∈ Finset.range v.c.NumJStates, g (v.i + a))).sum := by
      intro r
      rw [rowVisitLoop, nextProc_procAt W b hW, List.map_append, List.sum_append]
      by_cases ho : isOwner r (procAt W b) = true
      · simp [ho]
      · simp [ho]
    simp only [hstep]
    rw [Finset.sum_add_distrib, sum_owner_indicator_nat W hW, ih, List.map_cons, List.sum_cons,
      Finset.sum_range_add]
    simp only [Nat.add_assoc]

theorem rowCount_eq (N x : Nat) (hx : x < N) : rowCount N x + 1 = 2 * (N - x) := by
  unfold rowCount
  have h : ∀ j ∈ Finset.Ico x N, (if x = j then 1 else 2) + (if x = j then 1 else 0) = 2 := by
    intro j _
    by_cases hj : x = j
    · simp [hj]
    · simp [hj]
  have h1 : ∑ j ∈ Finset.Ico x N, ((if x = j then 1 else 2) + (if x = j then 1 else 0))
      = ∑ j ∈ Finset.Ico x N, 2 := Finset.sum_congr rfl h
  rw [Finset.sum_add_distrib, Finset.sum_ite_eq, if_pos (Finset.mem_Ico.2 ⟨le_refl _, hx⟩),
    Finset.sum_const, Nat.card_Ico, smul_eq_mul] at h1
  omega

theorem sum_rowCount_le (N : Nat) : ∀ n, n ≤ N →
    ∑ x ∈ Finset.range n, rowCount N x + n * n = 2 * n * N := by
  intro n
  induction n with
  | zero => intro _; simp
  | succ n ih =>
    intro hn
    have h1 := ih (by omega)
    have h2 := rowCount_eq N n (by omega)
    rw [Finset.sum_range_succ]
    have h3 : N - n + n = N := by omega
    have h4 : 2 * (n + 1) * N = 2 * n * N + 2 * N := by ring
    have h5 : (n + 1) * (n + 1) = n * n + 2 * n + 1 := by ring
    have h6 : 2 * (N - n) + 2 * n = 2 * N := by omega
    omega

/-- Summed over all rows, the counts of the upper triangle give `N * N`. -/
theorem sum_rowCount (N : Nat) : ∑ x ∈ Finset.range N, rowCount N x = N * N := by
  have h := sum_rowCount_le N N (le_refl _)
  have h2 : 2 * N * N = N * N + N * N := by ring
  omega

theorem rowVisits_data (W r : Nat) (configs : List (RelativisticConfig Proj NR)) :
    ∀ v ∈ rowVisits W r configs,
      configs[v.b]? = some v.c ∧ v.rest = configs.drop (v.b + 1) ∧
        v.i = rowOffset configs v.b := by
  intro v hv
  have h := rowVisitLoop_data W r configs configs [] (-(W : Int)) (by simp) v
  apply h
  simpa [rowVisits, rowOffset] using hv

/-- Every row below the total lies in the row range of some block. -/
theorem exists_block_of_row (configs : List (RelativisticConfig Proj NR)) :
    ∀ (n x : Nat), n ≤ configs.length → x < rowOffset configs n →
      ∃ b c, configs[b]? = some c ∧ rowOffset configs b ≤ x ∧
        x < rowOffset configs b + c.NumJStates := by
  intro n
  induction n with
  | zero =>
    intro x _ hx
    simp [rowOffset] at hx
  | succ n ih =>
    intro x hn hx
    by_cases h : x < rowOffset configs n
    · exact ih x (by omega) h
    · have hlt : n < configs.length := by omega
      have hc : configs[n]? = some configs[n] := List.getElem?_eq_getElem hlt
      rw [rowOffset_succ configs n _ hc] at hx
      exact ⟨n, configs[n], hc, by omega, hx⟩

/-- Each row is examined by exactly one worker. -/
theorem row_polled_by_one_worker (W : Nat) (hW : 1 ≤ W)
    (configs : List (RelativisticConfig Proj NR)) (x : Nat)
    (hx : x < rowOffset configs configs.length) :
    ∃! r, r < W ∧ ∃ v ∈ rowVisits W r configs, v.i ≤ x ∧ x < v.i + v.c.NumJStates := by
  obtain ⟨b, c, hc, hlo, hhi⟩ := exists_block_of_row configs configs.length x (le_refl _) hx
  have hb : b < configs.length := by
    rcases List.getElem?_eq_some_iff.1 hc with ⟨h, _⟩
    exact h
  have hr := procAt_range W b hW
  obtain ⟨r0, ⟨hr0, ho⟩, huniq⟩ := existsUnique_owner W (procAt W b) hr.1 hr.2
  refine ⟨r0, ⟨hr0, ?_⟩, ?_⟩
  · have hmem : b ∈ ownedBlocks W r0 configs := (mem_ownedBlocks W r0 hW configs b).2 ⟨hb, ho⟩
    have hpos : (rowVisits W r0 configs).map (fun v => v.b) = ownedBlocks W r0 configs :=
      rowVisitLoop_positions W r0 configs _ 0 0
    rw [← hpos, List.mem_map] at hmem
    obtain ⟨v, hv, hvb⟩ := hmem
    obtain ⟨h1, _, h3⟩ := rowVisits_data W r0 configs v hv
    rw [hvb] at h1 h3
    rw [hc] at h1
    have hcv : c = v.c := Option.some.inj h1
    refine ⟨v, hv, ?_, ?_⟩
    · omega
    · rw [h3, ← hcv]
      exact hhi
  · rintro r ⟨hrW, v, hv, hvlo, hvhi⟩
    apply huniq r
    refine ⟨hrW, ?_⟩
    obtain ⟨h1, _, h3⟩ := rowVisits_data W r configs v hv
    have hbb : v.b = b :=
      rowOffset_block_unique configs v.b b v.c c h1 hc x ⟨by omega, by omega⟩ ⟨hlo, hhi⟩
    have hpos : (rowVisits W r configs).map (fun v => v.b) = ownedBlocks W r configs :=
      rowVisitLoop_positions W r configs _ 0 0
    have hmem : v.b ∈ ownedBlocks W r configs := by
      rw [← hpos]
      exact List.mem_map_of_mem _ hv
    rw [hbb] at hmem
    exact ((mem_ownedBlocks W r hW configs b).1 hmem).2

/-- The increments worker `r` makes are those of the rows of its blocks. -/
theorem binTotal_proc_range (W r N : Nat) (M : MPIMatrix)
    (configs : List (RelativisticConfig Proj NR)) (stack : Nat → Nat) :
    ∃ q, binTotal (PollMatrix.proc_range W r N M configs stack) + q * 2 ^ 32
      = ((rowVisits W r configs).map
          (fun v => ∑ a ∈ Finset.range v.c.NumJStates, rowCount N (v.i + a))).sum := by
  have hpoll := (pollLoop_rowVisits W r N M configs (-(W : Int)) 0 (pollInit stack)).2
  obtain ⟨q, hq⟩ := binTotal_visits M N (rowVisitLoop W r configs (-(W : Int)) 0
    (pollInit stack).i) (pollInit stack).proc_range
  refine ⟨q, ?_⟩
  unfold PollMatrix.proc_range
  rw [hpoll, hq, binTotal_pollInit, Nat.zero_add]
  rfl

theorem sum_mod_wraps (s : Finset Nat) (f : Nat → Nat) :
    ∑ k ∈ s, f k % 2 ^ 32 + (∑ k ∈ s, f k / 2 ^ 32) * 2 ^ 32 = ∑ k ∈ s, f k := by
  rw [Finset.sum_mul, ← Finset.sum_add_distrib]
  apply Finset.sum_congr rfl
  intro k _
  rw [Nat.mul_comm]
  exact Nat.mod_add_div _ _

/-- The reduced bins add up to `N * N` less a whole number of wrap-arounds. -/
theorem PollMatrix_range_total (W N : Nat) (hW : 1 ≤ W) (M : MPIMatrix)
    (configs : List (RelativisticConfig Proj NR)) (stack : Nat → Nat)
    (hN : N = rowOffset configs configs.length) :
    ∃ q, ∑ k ∈ Finset.range 10, PollMatrix.range W N M configs stack k + q * 2 ^ 32
      = N * N := by
  have h1 : ∑ k ∈ Finset.range 10, PollMatrix.range W N M configs stack k
      = ∑ k ∈ Finset.range 10, (∑ r ∈ Finset.range W,
          PollMatrix.proc_range W r N M configs stack k) % 2 ^ 32 := by
    apply Finset.sum_congr rfl
    intro k hk
    unfold PollMatrix.range
    rw [if_pos (Finset.mem_range.1 hk)]
  have h2 := sum_mod_wraps (Finset.range 10)
    (fun k => ∑ r ∈ Finset.range W, PollMatrix.proc_range W r N M configs stack k)
  choose q hq using fun r => binTotal_proc_range W r N M configs stack
  have h3 : ∑ r ∈ Finset.range W, binTotal (PollMatrix.proc_range W r N M configs stack)
      + (∑ r ∈ Finset.range W, q r) * 2 ^ 32
      = ∑ r ∈ Finset.range W, ((rowVisitLoop W r configs (procAt W 0) 0 0).map
          (fun v => ∑ a ∈ Finset.range v.c.NumJStates, rowCount N (v.i + a))).sum := by
    rw [Finset.sum_mul, ← Finset.sum_add_distrib]
    apply Finset.sum_congr rfl
    intro r _
    rw [hq r, procAt_zero]
    rfl
  have h4 : ∑ k ∈ Finset.range 10, ∑ r ∈ Finset.range W,
        PollMatrix.proc_range W r N M configs stack k
      = ∑ r ∈ Finset.range W, binTotal (PollMatrix.proc_range W r N M configs stack) := by
    rw [Finset.sum_comm]
    rfl
  have h5 : (configs.map (fun c => c.NumJStates)).sum = N := by
    rw [hN]
    simp [rowOffset]
  rw [sum_rowVisitLoop_ranks W hW (rowCount N) configs 0 0, h5] at h3
  simp only [Nat.zero_add] at h3
  rw [sum_rowCount N] at h3
  refine ⟨(∑ k ∈ Finset.range 10,
      (∑ r ∈ Finset.range W, PollMatrix.proc_range W r N M configs stack k) / 2 ^ 32)
    + ∑ r ∈ Finset.range W, q r, ?_⟩
  rw [h1, Nat.add_mul]
  simp only at h2
  rw [h4] at h2
  omega

/-- Ten 32-bit counters hold less than `10 * 2^32` together. -/
theorem PollMatrix_range_bound (W N : Nat) (M : MPIMatrix)
    (configs : List (RelativisticConfig Proj NR)) (stack : Nat → Nat) :
    ∑ k ∈ Finset.range 10, PollMatrix.range W N M configs stack k < 10 * 2 ^ 32 := by
  have h : ∀ k ∈ Finset.range 10, PollMatrix.range W N M configs stack k ≤ 2 ^ 32 - 1 := by
    intro k hk
    unfold PollMatrix.range
    rw [if_pos (Finset.mem_range.1 hk)]
    have := Nat.mod_lt (∑ r ∈ Finset.range W, PollMatrix.proc_range W r N M configs stack k)
      (show 0 < 2 ^ 32 by norm_num)
    omega
  have h2 := Finset.sum_le_sum h
  rw [Finset.sum_const, Finset.card_range, smul_eq_mul] at h2
  omega

/-- C21, counterexample: for one block of `2^18` rows, one worker and any matrix content (here
the sample matrix), the ten bin counts after the reduction do not add up to `N * N = 2^36`:
ten 32-bit counters hold less than `10 * 2^32` together. -/
theorem PollMatrix_bins_wrap_around :
    1 ≤ 1 ∧ 262144 = rowOffset [largeConfig] [largeConfig].length ∧
      ∑ k ∈ Finset.range 10, PollMatrix.range 1 262144 sampleMatrix [largeConfig] (fun _ => 0) k
        < 262144 * 262144 ∧
      ∑ k ∈ Finset.range 10, PollMatrix.range 1 262144 sampleMatrix [largeConfig] (fun _ => 0) k
        ≠ 262144 * 262144 := by
  have h := PollMatrix_range_bound 1 262144 sampleMatrix [largeConfig] (fun _ => 0)
  have h2 : 10 * 2 ^ 32 < 262144 * 262144 := by norm_num
  exact ⟨le_refl _, by decide, lt_trans h h2, ne_of_lt (lt_trans h h2)⟩

/-- C21, amended: for every worker count `W ≥ 1` and every matrix content, when `N` is the
number of rows of the configuration list and `N * N < 2^32`, the ten bin counts of `PollMatrix`
after the sum-reduction add up to exactly `N * N`. Without the bound the counters, which are
32 bits wide, wrap around: the bins add up to `N * N` less a multiple of `2^32`. In both cases
a diagonal cell makes one increment and an off-diagonal cell two, the increments of a worker
are those of the cells `i ≤ j < N` of the rows of its blocks, and each row is examined by
exactly one worker. -/
theorem PollMatrix_bins_sum_to_N_squared (W N : Nat) (hW : 1 ≤ W) (M : MPIMatrix)
    (configs : List (RelativisticConfig Proj NR)) (stack : Nat → Nat)
    (hN : N = rowOffset configs configs.length) :
    (N * N < 2 ^ 32 →
      ∑ k ∈ Finset.range 10, PollMatrix.range W N M configs stack k = N * N) ∧
    (∃ q, ∑ k ∈ Finset.range 10, PollMatrix.range W N M configs stack k + q * 2 ^ 32
      = N * N) ∧
    (∑ k ∈ Finset.range 10, PollMatrix.range W N M configs stack k) % 2 ^ 32
      = (N * N) % 2 ^ 32 ∧
    (∀ (i j : Nat) (pr : Nat → Nat),
      ∃ q, binTotal (pollCell M i j pr) + q * 2 ^ 32
        = binTotal pr + (if i = j then 1 else 2)) ∧
    (∀ r, ∃ q, binTotal (PollMatrix.proc_range W r N M configs stack) + q * 2 ^ 32
      = ((rowVisits W r configs).map
          (fun v => ∑ a ∈ Finset.range v.c.NumJStates,
            ∑ j ∈ Finset.Ico (v.i + a) N, (if v.i + a = j then 1 else 2))).sum) ∧
    (∀ x, x < N →
      ∃! r, r < W ∧ ∃ v ∈ rowVisits W r configs, v.i ≤ x ∧ x < v.i + v.c.NumJStates) := by
  obtain ⟨q, hq⟩ := PollMatrix_range_total W N hW M configs stack hN
  refine ⟨fun hlt => wraps_eq_zero _ q _ hq hlt, ⟨q, hq⟩, ?_, binTotal_pollCell M,
    fun r => binTotal_proc_range W r N M configs stack, ?_⟩
  · rw [← hq, Nat.add_mul_mod_self_right]
  · intro x hx
    exact row_polled_by_one_worker W hW configs x (hN ▸ hx)

/-- C21, amended, on the sample configuration list (three blocks of two rows, `N = 6`) with
two workers: `6 * 6 < 2^32` and the bins add up to 36. -/
theorem PollMatrix_bins_sum_to_N_squared_witness :
    1 ≤ 2 ∧ 6 = rowOffset sampleConfigs sampleConfigs.length ∧ 6 * 6 < 2 ^ 32 ∧
      ∑ k ∈ Finset.range 10, PollMatrix.range 2 6 sampleMatrix sampleConfigs (fun _ => 0) k
        = 6 * 6 :=
  ⟨by decide, by decide, by norm_num,
    (PollMatrix_bins_sum_to_N_squared 2 6 (by decide) sampleMatrix sampleConfigs (fun _ => 0)
      (by decide)).1 (by norm_num)⟩

/-! ### The order of Symmetry -/

theorem Symmetry.eq_iff (a b : Symmetry) : a.eq b = true ↔ a = b := by
  cases a with
  | mk ja pa =>
    cases b with
    | mk jb pb =>
      simp only [Symmetry.eq, Symmetry.mk.injEq]
      constructor
      · intro h
        by_cases h1 : pa = pb ∧ ja = jb
        · exact ⟨h1.2, h1.1⟩
        · rw [if_neg h1] at h
          exact absurd h (by decide)
      · intro h
        rw [if_pos ⟨h.2, h.1⟩]

theorem Symmetry.lt_iff (a b : Symmetry) :
    a.lt b = true ↔
      (a.P = Parity.even ∧ b.P = Parity.odd) ∨ (a.P = b.P ∧ a.twoJ < b.twoJ) := by
  cases a with
  | mk ja pa =>
    cases b with
    | mk jb pb =>
      cases pa <;> cases pb <;> simp [Symmetry.lt]

/-- C23: `Symmetry::operator<` is a strict total order consistent with
`Symmetry::operator==`: it is irreflexive and transitive, for any two symmetries `a` and `b`
exactly one of `a < b`, `a == b`, `b < a` holds, `==` holds exactly for equal symmetries, every
even-parity symmetry precedes every odd-parity one, and within one parity the order is by
increasing `twoJ`. -/
theorem Symmetry_lt_strict_total_order :
    (∀ a : Symmetry, a.lt a = false) ∧
    (∀ a b c : Symmetry, a.lt b = true → b.lt c = true → a.lt c = true) ∧
    (∀ a b : Symmetry,
      (a.lt b = true ∧ a.eq b = false ∧ b.lt a = false) ∨
      (a.lt b = false ∧ a.eq b = true ∧ b.lt a = false) ∨
      (a.lt b = false ∧ a.eq b = false ∧ b.lt a = true)) ∧
    (∀ a b : Symmetry, a.eq b = true ↔ a = b) ∧
    (∀ a b : Symmetry, a.P = Parity.even → b.P = Parity.odd →
      a.lt b = true ∧ b.lt a = false) ∧
    (∀ a b : Symmetry, a.P = b.P → (a.lt b = true ↔ a.twoJ < b.twoJ)) := by
  refine ⟨?_, ?_, ?_, Symmetry.eq_iff, ?_, ?_⟩
  · intro a
    cases a with
    | mk ja pa => cases pa <;> simp [Symmetry.lt]
  · intro a b c h1 h2
    rw [Symmetry.lt_iff] at h1 h2 ⊢
    rcases h1 with ⟨h1, h1b⟩ | ⟨h1, h1b⟩ <;> rcases h2 with ⟨h2, h2b⟩ | ⟨h2, h2b⟩
    · rw [h1b] at h2
      exact absurd h2 (by decide)
    · left
      exact ⟨h1, h2 ▸ h1b⟩
    · left
      exact ⟨h1 ▸ h2, h2b⟩
    · right
      exact ⟨h1.trans h2, lt_trans h1b h2b⟩
  · intro a b
    cases a with
    | mk ja pa =>
      cases b with
      | mk jb pb =>
        cases pa <;> cases pb <;> simp [Symmetry.lt, Symmetry.eq] <;> omega
  · intro a b ha hb
    cases a with
    | mk ja pa =>
      cases b with
      | mk jb pb =>
        simp only at ha hb
        subst ha
        subst hb
        simp [Symmetry.lt]
  · intro a b hP
    rw [Symmetry.lt_iff]
    constructor
    · rintro (⟨h1, h2⟩ | ⟨_, h⟩)
      · rw [hP, h2] at h1
        exact absurd h1 (by decide)
      · exact h
    · intro h
      exact Or.inr ⟨hP, h⟩

/-- C23 on three sample symmetries: from `1/2 even < 3/2 even` and `3/2 even < 1/2 odd`
transitivity gives `1/2 even < 1/2 odd`. -/
theorem Symmetry_lt_strict_total_order_witness :
    Symmetry.lt ⟨1, Parity.even⟩ ⟨3, Parity.even⟩ = true ∧
      Symmetry.lt ⟨3, Parity.even⟩ ⟨1, Parity.odd⟩ = true ∧
      Symmetry.lt ⟨1, Parity.even⟩ ⟨1, Parity.odd⟩ = true :=
  ⟨by decide, by decide,
    Symmetry_lt_strict_total_order.2.1 ⟨1, Parity.even⟩ ⟨3, Parity.even⟩ ⟨1, Parity.odd⟩
      (by decide) (by decide)⟩

/-! ### The order of OrbitalInfo -/

theorem OrbitalInfo.lt_iff_lex (a b : OrbitalInfo) :
    a.lt b = true ↔
      a.pqn < b.pqn ∨ (a.pqn = b.pqn ∧ (a.l < b.l ∨ (a.l = b.l ∧ a.kappa > b.kappa))) := by
  unfold OrbitalInfo.lt
  by_cases h1 : a.pqn < b.pqn
  · simp [h1]
  · rw [if_neg h1]
    by_cases h2 : a.pqn > b.pqn
    · rw [if_pos h2]
      simp only [Bool.false_eq_true, false_iff]
      omega
    · rw [if_neg h2]
      have hp : a.pqn = b.pqn := by omega
      by_cases h3 : a.l < b.l
      · simp [h3, hp]
      · rw [if_neg h3]
        by_cases h4 : a.l > b.l
        · rw [if_pos h4]
          simp only [Bool.false_eq_true, false_iff]
          omega
        · rw [if_neg h4]
          have hl : a.l = b.l := by omega
          simp [hp, hl]

theorem OrbitalInfo.eq_iff_pqn_kappa (a b : OrbitalInfo) :
    a.eq b = true ↔ (a.pqn = b.pqn ∧ a.kappa = b.kappa) := by
  unfold OrbitalInfo.eq
  by_cases h : a.pqn = b.pqn ∧ a.kappa = b.kappa
  · simp [h]
  · rw [if_neg h]
    simp [h]

/-- With `l` determined by `kappa`, equal `kappa` gives equal `l`. -/
theorem OrbitalInfo.l_eq_of_kappa_eq (a b : OrbitalInfo) (ha : a.Consistent) (hb : b.Consistent)
    (h : a.kappa = b.kappa) : a.l = b.l := by
  unfold OrbitalInfo.Consistent at ha hb
  rw [h] at ha
  exact ha.trans hb.symm

/-- Without the link between `l` and `kappa` the two comparisons can disagree: two orbitals
with the same `pqn` and `kappa` but different stored `l` are `==` and still ordered by `<`. -/
theorem OrbitalInfo.eq_and_lt_of_inconsistent :
    OrbitalInfo.eq ⟨2, 1, 0⟩ ⟨2, 1, 1⟩ = true ∧ OrbitalInfo.lt ⟨2, 1, 0⟩ ⟨2, 1, 1⟩ = true ∧
      ¬ OrbitalInfo.Consistent ⟨2, 1, 0⟩ := by
  decide

/-- C24: on orbitals whose stored `l` is the orbital angular momentum determined by `kappa`
(`l = kappa` for `kappa > 0`, `l = -kappa - 1` otherwise), `OrbitalInfo::operator<` is a strict
total order consistent with `OrbitalInfo::operator==`, which compares `pqn` and `kappa` only:
`<` is irreflexive and transitive, for any `a` and `b` exactly one of `a < b`, `a == b`,
`b < a` holds, `==` holds exactly for equal orbitals and `!=` is its negation; the order is by
`pqn`, then `l`, then decreasing `kappa`, so for equal `pqn` and `l` the orbital with
`kappa = l` sorts before the one with `kappa = -l - 1`. -/
theorem OrbitalInfo_lt_strict_total_order (a b c : OrbitalInfo)
    (ha : a.Consistent) (hb : b.Consistent) :
    a.lt a = false ∧
    (a.lt b = true → b.lt c = true → a.lt c = true) ∧
    ((a.lt b = true ∧ a.eq b = false ∧ b.lt a = false) ∨
      (a.lt b = false ∧ a.eq b = true ∧ b.lt a = false) ∨
      (a.lt b = false ∧ a.eq b = false ∧ b.lt a = true)) ∧
    (a.eq b = true ↔ (a.pqn = b.pqn ∧ a.kappa = b.kappa)) ∧
    (a.eq b = true ↔ a = b) ∧
    a.ne b = !(a.eq b) ∧
    (a.lt b = true ↔
      a.pqn < b.pqn ∨ (a.pqn = b.pqn ∧ (a.l < b.l ∨ (a.l = b.l ∧ a.kappa > b.kappa)))) ∧
    (a.pqn = b.pqn → a.l = b.l → a.kappa = a.l → b.kappa = -b.l - 1 →
      a.lt b = true ∧ b.lt a = false) := by
  have hirr : ∀ x : OrbitalInfo, x.lt x = false := by
    intro x
    rw [Bool.eq_false_iff, Ne, OrbitalInfo.lt_iff_lex]
    omega
  have hEq : a.eq b = true ↔ a = b := by
    rw [OrbitalInfo.eq_iff_pqn_kappa]
    constructor
    · rintro ⟨h1, h2⟩
      have h3 := OrbitalInfo.l_eq_of_kappa_eq a b ha hb h2
      cases a
      cases b
      simp only at h1 h2 h3
      subst h1
      subst h2
      subst h3
      rfl
    · intro h
      subst h
      exact ⟨rfl, rfl⟩
  have hasym : ∀ x y : OrbitalInfo, x.lt y = true → y.lt x = false := by
    intro x y h
    rw [Bool.eq_false_iff, Ne, OrbitalInfo.lt_iff_lex]
    rw [OrbitalInfo.lt_iff_lex] at h
    omega
  refine ⟨hirr a, ?_, ?_, OrbitalInfo.eq_iff_pqn_kappa a b, hEq, rfl, OrbitalInfo.lt_iff_lex a b, ?_⟩
  · intro h1 h2
    rw [OrbitalInfo.lt_iff_lex] at h1 h2 ⊢
    omega
  · by_cases hab : a.lt b = true
    · left
      refine ⟨hab, ?_, hasym a b hab⟩
      rw [Bool.eq_false_iff]
      intro he
      rw [hEq.1 he, hirr b] at hab
      exact absurd hab (by decide)
    · by_cases hba : b.lt a = true
      · right; right
        refine ⟨Bool.eq_false_iff.2 hab, ?_, hba⟩
        rw [Bool.eq_false_iff]
        intro he
        rw [hEq.1 he, hirr b] at hba
        exact absurd hba (by decide)
      · right; left
        refine ⟨Bool.eq_false_iff.2 hab, ?_, Bool.eq_false_iff.2 hba⟩
        rw [OrbitalInfo.eq_iff_pqn_kappa]
        rw [OrbitalInfo.lt_iff_lex] at hab hba
        omega
  · intro hp hl hka hkb
    have h1 : a.lt b = true := by
      rw [OrbitalInfo.lt_iff_lex]
      right
      refine ⟨hp, Or.inr ⟨hl, ?_⟩⟩
      unfold OrbitalInfo.Consistent at ha hb
      split_ifs at ha hb <;> omega
    exact ⟨h1, hasym a b h1⟩

/-- C24 on the orbitals `2p1/2` (`kappa = 1`), `2p3/2` (`kappa = -2`) and `3s1/2`
(`kappa = -1`): the hypotheses hold and `2p1/2 < 2p3/2 < 3s1/2` gives `2p1/2 < 3s1/2`. -/
theorem OrbitalInfo_lt_strict_total_order_witness :
    OrbitalInfo.Consistent ⟨2, 1, 1⟩ ∧ OrbitalInfo.Consistent ⟨2, -2, 1⟩ ∧
      OrbitalInfo.lt ⟨2, 1, 1⟩ ⟨2, -2, 1⟩ = true ∧
      OrbitalInfo.lt ⟨2, -2, 1⟩ ⟨3, -1, 0⟩ = true ∧
      OrbitalInfo.lt ⟨2, 1, 1⟩ ⟨3, -1, 0⟩ = true :=
  ⟨by decide, by decide, by decide, by decide,
    (OrbitalInfo_lt_strict_total_order ⟨2, 1, 1⟩ ⟨2, -2, 1⟩ ⟨3, -1, 0⟩
      (by decide) (by decide)).2.1 (by decide) (by decide)⟩

end AMBiT
